import Mathlib

/-!
# gobergamot: a verification development

Shallow embedding of the Go sources of `KSpaceer/gobergamot`
(`translator.go`, `pool.go`, `file.go`, `internal/errgroup/errgroup.go`)
together with the properties proved about them.

## Error values

Go's `error` interface is embedded as `Option GoError` (`none` is `nil`).
A non-nil error is a tree, the shape the standard library gives it:

* a leaf value (`errors.New`, `fmt.Errorf` without `%w`, a sentinel such as
  `io.EOF`), compared by identity;
* a `*fmt.wrapError` made by `fmt.Errorf("...: %w", err)`;
* a `*errors.joinError` made by `errors.Join`.

`errors.Is` walks that tree.  A target is a leaf value: the wrap and join nodes
are allocated by the code under study, so no target handed to `errors.Is`
from outside is identical to one of them.
-/

namespace Gobergamot

/-- Leaf error values, told apart by identity the way Go compares the pointers
returned by `errors.New`.  The four named ones are the package-level
sentinels of `translator.go` and `pool.go`; `text msg` is a leaf the code
creates on the spot with `errors.New(msg)` or `fmt.Errorf(msg, ...)` without
`%w` (the formatted arguments are left out of `msg`); `other n` is any
further leaf error (`io.EOF`, `context.Canceled`, an engine failure, ...). -/
inductive ErrorValue where
  | ErrModelMissing
  | ErrVocabularyMissing
  | ErrLexicalShortlistMissing
  | ErrClosed
  | text (msg : String)
  | other (id : Nat)
  deriving DecidableEq, Repr

/-- A non-nil Go error. -/
inductive GoError where
  | leaf (v : ErrorValue)
  | wrap (msg : String) (inner : GoError)
  | join (errs : List GoError)
  deriving Repr

mutual
/-- The loop of `errors.is` on a non-nil error: identity at a leaf, `Unwrap() error`
at a wrap node, `Unwrap() []error` at a join node. -/
def GoError.is : GoError → ErrorValue → Bool
  | .leaf v, target => decide (v = target)
  | .wrap _ inner, target => inner.is target
  | .join errs, target => GoError.isAny errs target
/-- The `for _, err := range x.Unwrap()` of `errors.is` over the children of a join. -/
def GoError.isAny : List GoError → ErrorValue → Bool
  | [], _ => false
  | e :: es, target => e.is target || GoError.isAny es target
end

/-- Go `errors.Is(err, target)` for a non-nil leaf `target`: `nil` matches nothing. -/
def errorsIs : Option GoError → ErrorValue → Bool
  | none, _ => false
  | some e, target => e.is target

/-- Go `errors.Join(errs...)`: nil arguments are dropped; the result is nil when
none is left and a fresh `*joinError` over the others, in order, otherwise. -/
def errorsJoin (errs : List (Option GoError)) : Option GoError :=
  match errs.filterMap id with
  | [] => none
  | es => some (.join es)

/-- Go `fmt.Errorf(msg + ": %w", err)` for a non-nil `err`. -/
def fmtErrorfW (msg : String) (err : GoError) : GoError := .wrap msg err

abbrev Byte := Fin 256

/-- Behaviour of a source that implements `io.Seeker`. -/
structure Seeker where
  /-- result of `Seek(0, io.SeekEnd)`: the offset (an `int64`) or an error -/
  seekEnd : Except GoError Int
  /-- error of `Seek(0, io.SeekStart)`, `none` when it succeeds -/
  seekStart : Option GoError
  /-- the whole stream from offset 0: what reading delivers after a seek to the start -/
  content : List Byte

/-- An `io.Reader` value as the type switches of `file.go` and `translator.go`
see it: which optional methods its dynamic type has and what they return,
and what reading it to the end delivers. -/
structure Reader where
  /-- Value `some l`: the dynamic type has `Len() int` and it returns `l` -/
  lenMethod : Option Int
  /-- Value `some b`: the dynamic type has `Bytes() []byte` and it returns `b` -/
  bytesMethod : Option (List Byte)
  /-- Value `some s`: the dynamic type implements `io.Seeker` -/
  seeker : Option Seeker
  /-- bytes that reading from the current position delivers before it stops -/
  unread : List Byte
  /-- Value `none`: reading stops with `io.EOF`; `some e`: it stops with the error `e` -/
  readErr : Option GoError
  /-- Value `none`: one transfer out of the source (a `Read`, or a `Write` made
  by its `WriteTo`) hands over as many unread bytes as it is given room for;
  `some k`: it hands over at most `k` of them, and at least one -/
  readLimit : Option Nat := none
  /-- whether the dynamic type implements `io.WriterTo`, which `io.Copy` prefers
  to the `ReadFrom` of its destination -/
  writerTo : Bool := false

/-- Go `bytes.NewBuffer(data)`: a `*bytes.Buffer` has `Len` and `Bytes` (both over
the unread part) and `WriteTo`, and no `Seek`. -/
def bytesNewBuffer (data : List Byte) : Reader :=
  { lenMethod := some data.length, bytesMethod := some data, seeker := none,
    unread := data, readErr := none, writerTo := true }

/-- Go `FilesBundle` of `translator.go`; `none` is a nil `io.Reader`. -/
structure FilesBundle where
  Model : Option Reader
  LexicalShortlist : Option Reader
  Vocabulary : Option Reader

/-- A value stored in the `map[string]any` of Bergamot (marian) options: a
`uint32`, a `float64` constant (given by the rational it denotes), a string
or a bool. -/
inductive OptionValue where
  | uint32 (n : Nat)
  | float64 (q : ℚ)
  | string (s : String)
  | bool (b : Bool)
  deriving DecidableEq

/-- A `map[string]any` of Bergamot options, as the list of its entries. -/
abbrev BergamotOptionsMap := List (String × OptionValue)

/-- Go `DefaultBergamotOptions` (translator.go:81-95). -/
def DefaultBergamotOptions : BergamotOptionsMap :=
  [ ("beam-size", .uint32 1),
    ("normalize", .float64 1),
    ("word-penalty", .uint32 0),
    ("alignment", .string "soft"),
    ("max-length-break", .uint32 128),
    ("mini-batch-words", .uint32 1024),
    ("workspace", .uint32 128),
    ("max-length-factor", .float64 2),
    ("skip-cost", .bool true),
    ("gemm-precision", .string "int8shiftAll"),
    ("tied-embedding-all", .bool true) ]

/-- Go `Config` of `translator.go`; `BergamotOptions = none` is a nil map. -/
structure Config extends FilesBundle where
  CacheSize : Nat := 0
  WASMUseContext : Bool := false
  BergamotOptions : Option BergamotOptionsMap := none

/-- The statement `if cfg.BergamotOptions == nil { cfg.BergamotOptions =
DefaultBergamotOptions() }` of `New` (translator.go:116-118) and of `NewPool`
(pool.go:35-37). -/
def Config.withDefaultOptions (cfg : Config) : Config :=
  match cfg.BergamotOptions with
  | none => { cfg with BergamotOptions := some DefaultBergamotOptions }
  | some _ => cfg

/-- Go `Config.Validate` (translator.go:65-77). -/
def Config.Validate (cfg : Config) : Option GoError :=
  let err : Option GoError := none
  let err :=
    if cfg.Model.isNone then errorsJoin [err, some (.leaf .ErrModelMissing)] else err
  let err :=
    if cfg.Vocabulary.isNone then errorsJoin [err, some (.leaf .ErrVocabularyMissing)] else err
  let err :=
    if cfg.LexicalShortlist.isNone then
      errorsJoin [err, some (.leaf .ErrLexicalShortlistMissing)]
    else err
  err

/-! ## internal/errgroup -/

/-- An `Errgroup` (errgroup.go:11-18) as `Wait` sees it: for every goroutine
started by `Go`, in spawn order, the error its function returns and sends on
`errCh`. -/
structure Errgroup where
  spawned : List (Option GoError)

/-- Go `errgroup.New()`. -/
def Errgroup.New : Errgroup := { spawned := [] }

/-- Go `Errgroup.Go(f)` (errgroup.go:22-28) for a function `f` that returns `result`. -/
def Errgroup.Go (eg : Errgroup) (result : Option GoError) : Errgroup :=
  { spawned := eg.spawned ++ [result] }

/-- Order in which the unbuffered `errCh` hands the goroutines' results to
`Wait`.  Every goroutine sends exactly once (`eg.errCh <- f()`) and the
channel is closed once all of them have (`wg.Wait()` then `close`), so the
loop of `Wait` receives every pending result once.  The scheduler is the
list `sched`: its head, modulo the number of goroutines still pending, picks
who completes next; when it runs out the rest complete in spawn order. -/
def Errgroup.received : List (Option GoError) → List Nat → List (Option GoError)
  | pending, [] => pending
  | [], _ :: _ => []
  | p :: ps, s :: sched =>
      let i := s % (ps.length + 1)
      (p :: ps).getD i none :: Errgroup.received ((p :: ps).eraseIdx i) sched

/-- Go `Errgroup.Wait` (errgroup.go:32-44): `for err := range eg.errCh` folds
`errors.Join(joinedErr, err)` over the results in the order received. -/
def Errgroup.Wait (eg : Errgroup) (sched : List Nat) : Option GoError :=
  (Errgroup.received eg.spawned sched).foldl
    (fun joinedErr err => errorsJoin [joinedErr, err]) none

/-- The group obtained from `New()` by one `Go` per task, in order. -/
def Errgroup.ofTasks (tasks : List (Option GoError)) : Errgroup :=
  tasks.foldl Errgroup.Go Errgroup.New

/-! ## file.go -/

/-- Go `alignedMemoryFile` (file.go:11-14); `Reader = none` is a nil `io.Reader`. -/
structure alignedMemoryFile where
  Reader : Option Reader
  Alignment : Nat

/-- Go `math.MaxUint32`. -/
def maxUint32 : Nat := 4294967295

/-- Go conversion `uint64(x)` of a signed 64-bit integer: the value modulo 2^64. -/
def toUint64 (x : Int) : Nat := (x % (2 : Int) ^ 64).toNat

/-- Go conversion `uint32(x)` of an unsigned 64-bit integer: the value modulo 2^32. -/
def toUint32 (x : Nat) : Nat := x % 2 ^ 32

/-- Result pair `(uint32, error)` of `alignedMemoryFile.size`. -/
structure SizeResult where
  size : Nat
  err : Option GoError

/-- Tail of `alignedMemoryFile.size` (file.go:54-57): the 32-bit range check
and the conversion of the 64-bit `size`. -/
def alignedMemoryFile.sizeCheck (size : Nat) : SizeResult :=
  if size > maxUint32 then
    { size := 0, err := some (.leaf (.text "file with size %d too large")) }
  else
    { size := toUint32 size, err := none }

/-- Go `alignedMemoryFile.size` (file.go:23-58).  Returns the result pair and the
file afterwards (`f.Reader` is reassigned in the default branch, and a seekable
source is left at offset 0).  The type switch tries `readerWithLen`, then
`io.Seeker`, then falls back to `io.Copy` into a fresh `bytes.Buffer`.  After
a failure the source is returned as it was. -/
def alignedMemoryFile.size (f : alignedMemoryFile) : SizeResult × alignedMemoryFile :=
  match f.Reader with
  | none => ({ size := 0, err := some (.leaf (.text "reader is nil")) }, f)
  | some reader =>
    match reader.lenMethod with
    | some l => (alignedMemoryFile.sizeCheck (toUint64 l), f)
    | none =>
      match reader.seeker with
      | some s =>
        match s.seekEnd with
        | .error e => ({ size := 0, err := some e }, f)
        | .ok streamLen =>
          match s.seekStart with
          | some e => ({ size := 0, err := some e }, f)
          | none =>
            (alignedMemoryFile.sizeCheck (toUint64 streamLen),
              { f with Reader := some { reader with unread := s.content } })
      | none =>
        match reader.readErr with
        | some e => ({ size := 0, err := some e }, f)
        | none =>
          (alignedMemoryFile.sizeCheck (toUint64 (reader.unread.length : Int)),
            { f with Reader := some (bytesNewBuffer reader.unread) })

/-- A method of the source that `alignedMemoryFile.size` calls. -/
inductive SourceCall where
  /-- call of `reader.Len()` -/
  | Len
  /-- call of `reader.Seek(0, io.SeekEnd)` -/
  | SeekEnd
  /-- call of `reader.Seek(0, io.SeekStart)` -/
  | SeekStart
  /-- the reads of `io.Copy(buf, reader)`, to the end of the source -/
  | ReadAll
  deriving DecidableEq, Repr

/-- The calls `alignedMemoryFile.size` (file.go:23-58) makes on its source, in
order: the same type switch as `alignedMemoryFile.size`, keeping for every
branch the methods it calls. -/
def alignedMemoryFile.sizeCalls (f : alignedMemoryFile) : List SourceCall :=
  match f.Reader with
  | none => []
  | some reader =>
    match reader.lenMethod with
    | some _ => [.Len]
    | none =>
      match reader.seeker with
      | some s =>
        match s.seekEnd with
        | .error _ => [.SeekEnd]
        | .ok _ => [.SeekEnd, .SeekStart]
      | none => [.ReadAll]

/-- Go `alignedMemoryFile.readAll` (file.go:67-89): the bytes (`[]` for a nil
slice), the error, and the file afterwards. -/
def alignedMemoryFile.readAll (f : alignedMemoryFile) :
    (List Byte × Option GoError) × alignedMemoryFile :=
  match f.Reader with
  | none => (([], some (.leaf (.text "reader is nil"))), f)
  | some reader =>
    match reader.bytesMethod with
    | some data => ((data, none), f)
    | none =>
      match reader.readErr with
      | some e => (([], some e), f)
      | none => ((reader.unread, none), { f with Reader := some (bytesNewBuffer reader.unread) })

/-! ## translator.go: filling a view -/

/-- What a call of `fillByteArrayView` does: the view afterwards, the number
of bytes it took out of the source (the value of the builtin `copy`, or
`written` of `io.Copy`), and the error it returns. -/
structure FillResult where
  view : List Byte
  copied : Nat
  err : Option GoError

/-- Go builtin `copy(dst, src)`: overwrites the first `min (len dst) (len src)`
elements of `dst`. -/
def goCopy (dst src : List Byte) : List Byte :=
  src.take dst.length ++ dst.drop src.length

/-- Go `bytes.MinRead`: the free room `(*bytes.Buffer).ReadFrom` asks of `grow`
before every `Read`. -/
def bytesMinRead : Nat := 512

/-- The number of bytes one transfer out of the source hands over when it is
given room for all `rem` unread bytes: all of them, or at most `k` of them
(at least one) under `readLimit = some k`. -/
def Reader.piece (r : Reader) (rem : Nat) : Nat :=
  match r.readLimit with
  | none => rem
  | some k => min rem (max k 1)

/-- Go `io.Copy(buf, input)` for a `*bytes.Buffer` `buf` that is empty and laid
over a storage of capacity `cap` (`bytes.NewBuffer` followed by `Reset`): the
number of bytes written into that storage.  So far `len` bytes are in the
buffer, all of them in the storage, and `rem` bytes are unread; every transfer
takes at least one byte, so `rem` is fuel enough.

With a `WriteTo` method of the source, `io.Copy` is `input.WriteTo(buf)`: a
`buf.Write(p)` reslices the storage when `len(p)` fits its free part, and
otherwise `grow` moves the buffer to a new allocation.  Without one it is
`buf.ReadFrom(input)`, which calls `grow(MinRead)` before every `Read`,
the one that meets `io.EOF` included: the `Read` gets the whole free part of
the storage while at least `MinRead` bytes of it are free, and otherwise the
buffer moves to a new allocation.  Once the buffer has moved, nothing more is
written into the storage. -/
def ioCopyInPlace (cap : Nat) (input : Reader) : (fuel len rem : Nat) → Nat
  | 0, len, _ => len
  | fuel + 1, len, rem =>
    if input.writerTo then
      if rem = 0 then len
      else if len + input.piece rem ≤ cap then
        ioCopyInPlace cap input fuel (len + input.piece rem) (rem - input.piece rem)
      else len
    else
      if len + bytesMinRead ≤ cap then
        if rem = 0 then len
        else
          let m := min (cap - len) (input.piece rem)
          ioCopyInPlace cap input fuel (len + m) (rem - m)
      else len

/-- Go `fillByteArrayView` (translator.go:460-478) on a view of capacity
`len(view) + spare`.  With a `readerWithBytes` the bytes are copied by the
builtin `copy` and nil is returned.  Otherwise the source is drained by
`io.Copy` into a `bytes.Buffer` laid over the view (emptied by `Reset`) and
`written` is compared with `size`; of the bytes read, the view holds those the
buffer wrote before it left the storage of the view (`ioCopyInPlace`). -/
def fillByteArrayView (view : List Byte) (input : Reader) (size : Nat) (spare : Nat := 0) :
    FillResult :=
  match input.bytesMethod with
  | some data =>
    { view := goCopy view data, copied := min view.length data.length, err := none }
  | none =>
    let written := input.unread.length
    let inPlace := ioCopyInPlace (view.length + spare) input written 0 written
    let view := goCopy view (input.unread.take inPlace)
    match input.readErr with
    | some e => { view := view, copied := written, err := some e }
    | none =>
      if size ≠ written then
        { view := view, copied := written,
          err := some (.leaf (.text "only wrote %d/%d bytes")) }
      else
        { view := view, copied := written, err := none }

/-! ## translator.go: the aligned memories bundle -/

/-- Go `alignedMemoryInfo` (translator.go:300-305): `file = none` is a nil
pointer, `memory` is the handle of the `*gen.ClassAlignedMemory` (`none` for
nil), `size` a `uint32`, `view` the bytes of the `[]int8` view. -/
structure alignedMemoryInfo where
  file : Option alignedMemoryFile
  memory : Option Nat
  size : Nat
  view : List Byte

/-- Go `alignedMemoryInfo.isEmpty` (translator.go:307-309). -/
def alignedMemoryInfo.isEmpty (i : alignedMemoryInfo) : Bool := i.file.isNone

/-- Go `alignedMemoriesBundle` (translator.go:318), the array
`[3]alignedMemoryInfo` as the list of its entries in index order. -/
abbrev alignedMemoriesBundle := List alignedMemoryInfo

/-- The zero value `alignedMemoriesBundle{}` returned next to an error. -/
def alignedMemoriesBundle.zero : alignedMemoriesBundle :=
  List.replicate 3 { file := none, memory := none, size := 0, view := [] }

/-- Go `newAlignedMemoryDataBundle` (translator.go:332-347): index 0 is the
model (alignment 256), index 1 the shortlist (64), index 2 the vocabulary (64). -/
def newAlignedMemoryDataBundle (model shortlist vocab : Option Reader) :
    alignedMemoriesBundle :=
  [ { file := some { Reader := model, Alignment := 256 }, memory := none, size := 0, view := [] },
    { file := some { Reader := shortlist, Alignment := 64 }, memory := none, size := 0,
      view := [] },
    { file := some { Reader := vocab, Alignment := 64 }, memory := none, size := 0, view := [] } ]

/-- Go `wasmMemoryPageSize` (translator.go:407). -/
def wasmMemoryPageSize : Nat := 65536

/-- The loop `size += bundle[i].size` over the non-empty entries of
`growModuleMemory` (translator.go:410-416), in `uint32` arithmetic. -/
def growModuleMemory.sum (bundle : alignedMemoriesBundle) : Nat :=
  bundle.foldl (fun size info => if info.isEmpty then size else (size + info.size) % 2 ^ 32) 0

/-- Go `growModuleMemory` (translator.go:409-431) on a memory whose `Size()` is
`availableSize`: the argument of the call `mem.Grow(pages)`, or `none` when
the function returns without calling `Grow`.  All values are `uint32`. -/
def growModuleMemory (availableSize : Nat) (bundle : alignedMemoriesBundle) : Option Nat :=
  let size := growModuleMemory.sum bundle
  if availableSize ≥ size then
    none
  else
    let requiredSize := (size + 2 ^ 32 - availableSize) % 2 ^ 32
    let pages := requiredSize / wasmMemoryPageSize
    let pages :=
      if (pages * wasmMemoryPageSize) % 2 ^ 32 < requiredSize then (pages + 1) % 2 ^ 32
      else pages
    some pages

/-- The engine as the bundle loader uses it, an external collaborator given by
the outcome of each call. -/
structure LoaderEngine where
  /-- value of `mod.Memory().Size()` -/
  memorySize : Nat
  /-- result of `gen.NewClassAlignedMemory(embindEng, ctx, size, alignment)` made
  for the entry `index`: the handle of the new object, or an error -/
  newAlignedMemory : (index size alignment : Nat) → Except GoError Nat
  /-- result of `memory.GetByteArrayView(ctx)`: the bytes of the view when the
  value is an `[]int8`, `none` when it is of another type, or an error -/
  getByteArrayView : (memory : Nat) → Except GoError (Option (List Byte))

/-- An operation the bundle loader performs on a source or on the engine,
with the index of the bundle entry and whether it failed. -/
inductive LoaderOp where
  /-- call of `bundle[index].file.size()` -/
  | size (index : Nat) (failed : Bool)
  /-- call of `growModuleMemory`; `request` is the argument of `mem.Grow` if it is called -/
  | grow (request : Option Nat)
  /-- call of `gen.NewClassAlignedMemory` for the entry `index` -/
  | allocate (index : Nat) (failed : Bool)
  /-- call of `getAlignedMemoryByteView` for the entry `index` -/
  | view (index : Nat) (failed : Bool)
  /-- call of `fillByteArrayView` for the entry `index` -/
  | fill (index : Nat) (failed : Bool)
  deriving DecidableEq, Repr

/-- The phase an operation belongs to: 1 size resolution, 2 memory growth,
3 aligned allocation, 4 view acquisition, 5 fill. -/
def LoaderOp.phase : LoaderOp → Nat
  | .size _ _ => 1
  | .grow _ => 2
  | .allocate _ _ => 3
  | .view _ _ => 4
  | .fill _ _ => 5

/-- Whether the operation returned an error (`growModuleMemory` returns none). -/
def LoaderOp.failed : LoaderOp → Bool
  | .size _ failed => failed
  | .grow _ => false
  | .allocate _ failed => failed
  | .view _ failed => failed
  | .fill _ failed => failed

/-- The index of the entry an allocation is made for. -/
def LoaderOp.allocateIndex : LoaderOp → Option Nat
  | .allocate index _ => some index
  | _ => none

/-- The bundle a loader function leaves, the error it returns, and the
operations it has performed, in the order it performed them. -/
structure LoadResult where
  bundle : alignedMemoriesBundle
  err : Option GoError
  log : List LoaderOp

/-- Order in which concurrently running goroutines complete, for the same
scheduler as in `Errgroup.received`: the head of `sched`, modulo the number
of goroutines still running, picks who completes next; when it runs out the
rest complete in spawn order. -/
def completionOrder {α : Type} : List α → List Nat → List α
  | pending, [] => pending
  | [], _ :: _ => []
  | p :: ps, s :: sched =>
      let i := s % (ps.length + 1)
      (p :: ps).getD i p :: completionOrder ((p :: ps).eraseIdx i) sched

/-- The goroutines a loop `for i := range bundle { if bundle[i].isEmpty() {
continue }; eg.Go(...) }` spawns: the non-empty entries with their index. -/
def alignedMemoriesBundle.spawned (bundle : alignedMemoriesBundle) :
    List (Nat × alignedMemoryInfo) :=
  bundle.enum.filter (fun entry => !entry.2.isEmpty)

/-- The body of a goroutine of `enrichBundleWithSizes` (translator.go:396-400)
on a non-empty entry: `size, err := bundle[i].file.size(); bundle[i].size =
size`.  An empty entry is left as it is. -/
def alignedMemoryInfo.resolveSize (info : alignedMemoryInfo) :
    alignedMemoryInfo × Option GoError :=
  match info.file with
  | none => (info, none)
  | some file =>
    let r := file.size
    ({ info with file := some r.2, size := r.1.size }, r.1.err)

/-- Go `enrichBundleWithSizes` (translator.go:388-405): the bundle with the
sizes filled in, the joined error, and the size resolutions in the order
`sched` lets them complete. -/
def enrichBundleWithSizes (bundle : alignedMemoriesBundle) (sched : List Nat) : LoadResult :=
  let tasks := bundle.spawned.map (fun entry => (entry.1, entry.2.resolveSize.2))
  { bundle := bundle.map (fun info => info.resolveSize.1)
    err := (Errgroup.ofTasks (tasks.map (fun t => t.2))).Wait sched
    log := (completionOrder tasks sched).map (fun t => LoaderOp.size t.1 t.2.isSome) }

/-- The first loop of `enrichAlignedMemoriesBundle` (translator.go:363-371)
from index `i` on, over the entries not yet visited: one aligned allocation
per non-empty entry, in index order, stopping at the first failure. -/
def allocateFrom (eng : LoaderEngine) : Nat → alignedMemoriesBundle → LoadResult
  | _, [] => { bundle := [], err := none, log := [] }
  | i, info :: rest =>
    match info.file with
    | none =>
      let r := allocateFrom eng (i + 1) rest
      { r with bundle := info :: r.bundle }
    | some file =>
      match eng.newAlignedMemory i info.size (toUint32 file.Alignment) with
      | .error e =>
        { bundle := info :: rest, err := some e, log := [LoaderOp.allocate i true] }
      | .ok memory =>
        let r := allocateFrom eng (i + 1) rest
        { bundle := { info with memory := some memory } :: r.bundle, err := r.err,
          log := LoaderOp.allocate i false :: r.log }

/-- Go `getAlignedMemoryByteView` (translator.go:433-443). -/
def getAlignedMemoryByteView (eng : LoaderEngine) (memory : Nat) : Except GoError (List Byte) :=
  match eng.getByteArrayView memory with
  | .error e => .error e
  | .ok none => .error (.leaf (.text "unexpected type in byte array view %T"))
  | .ok (some view) => .ok view

/-- The second loop of `enrichAlignedMemoriesBundle` (translator.go:375-383)
from index `i` on: one view acquisition per non-empty entry, in index order,
stopping at the first failure.  (The loop runs after every non-empty entry
has got its memory; an entry without one is passed over.) -/
def viewsFrom (eng : LoaderEngine) : Nat → alignedMemoriesBundle → LoadResult
  | _, [] => { bundle := [], err := none, log := [] }
  | i, info :: rest =>
    match info.file, info.memory with
    | some _, some memory =>
      match getAlignedMemoryByteView eng memory with
      | .error e => { bundle := info :: rest, err := some e, log := [LoaderOp.view i true] }
      | .ok view =>
        let r := viewsFrom eng (i + 1) rest
        { bundle := { info with view := view } :: r.bundle, err := r.err,
          log := LoaderOp.view i false :: r.log }
    | _, _ =>
      let r := viewsFrom eng (i + 1) rest
      { r with bundle := info :: r.bundle }

/-- The body of a goroutine of `fillBundleViews` (translator.go:452-454) on a
non-empty entry: `fillByteArrayView(ctx, bundle[i].view, bundle[i].file.Reader,
bundle[i].size)`; the view of the entry afterwards and the error.  The view
is taken as a slice whose capacity is its length.  (The fill runs after the
size resolution, which fails on a nil Reader; an entry without Reader is
passed over.) -/
def alignedMemoryInfo.fillView (info : alignedMemoryInfo) : alignedMemoryInfo × Option GoError :=
  match info.file with
  | none => (info, none)
  | some file =>
    match file.Reader with
    | none => (info, none)
    | some reader =>
      let r := fillByteArrayView info.view reader info.size
      ({ info with view := r.view }, r.err)

/-- Go `fillBundleViews` (translator.go:445-458): the bundle with the views
filled, the joined error, and the fills in the order `sched` lets them
complete. -/
def fillBundleViews (bundle : alignedMemoriesBundle) (sched : List Nat) : LoadResult :=
  let tasks := bundle.spawned.map (fun entry => (entry.1, entry.2.fillView.2))
  { bundle := bundle.map (fun info => info.fillView.1)
    err := (Errgroup.ofTasks (tasks.map (fun t => t.2))).Wait sched
    log := (completionOrder tasks sched).map (fun t => LoaderOp.fill t.1 t.2.isSome) }

/-- Go `enrichAlignedMemoriesBundle` (translator.go:349-386); `sizeSched` and
`fillSched` are the schedulers of its two error groups. -/
def enrichAlignedMemoriesBundle (eng : LoaderEngine) (bundle : alignedMemoriesBundle)
    (sizeSched fillSched : List Nat) : LoadResult :=
  let sizes := enrichBundleWithSizes bundle sizeSched
  match sizes.err with
  | some e => { bundle := alignedMemoriesBundle.zero, err := some e, log := sizes.log }
  | none =>
    let grow := LoaderOp.grow (growModuleMemory eng.memorySize sizes.bundle)
    let allocations := allocateFrom eng 0 sizes.bundle
    match allocations.err with
    | some e =>
      { bundle := alignedMemoriesBundle.zero, err := some e,
        log := sizes.log ++ [grow] ++ allocations.log }
    | none =>
      let views := viewsFrom eng 0 allocations.bundle
      match views.err with
      | some e =>
        { bundle := alignedMemoriesBundle.zero, err := some e,
          log := sizes.log ++ [grow] ++ allocations.log ++ views.log }
      | none =>
        let fills := fillBundleViews views.bundle fillSched
        { bundle := fills.bundle, err := fills.err,
          log := sizes.log ++ [grow] ++ allocations.log ++ views.log ++ fills.log }

/-! ## translator.go: the Translator -/

/-- Go `TranslationOptions` (translator.go:188-191). -/
structure TranslationOptions where
  HTML : Bool := false

/-- Go `TranslationRequest` (translator.go:193-199). -/
structure TranslationRequest where
  Text : String
  Options : TranslationOptions := {}

/-- The option record `convertToInput` pushes for a request
(`map[string]any` with the keys `qualityScores`, `alignment`, `html`). -/
structure ResponseOptions where
  qualityScores : Bool
  alignment : Bool
  html : Bool
  deriving DecidableEq, Repr

/-- Dynamic value returned by `ClassVectorResponse.Get`: a `*gen.ClassResponse`,
given by what its `GetTranslatedText` returns, or a value of another type. -/
inductive ResponseElement where
  | response (translatedText : Except GoError String)
  | foreign

/-- A `*gen.ClassVectorResponse` of the engine: what `Size` and `Get(i)` return. -/
structure ClassVectorResponse where
  size : Except GoError Nat
  get : Nat → Except GoError ResponseElement

/-- Dynamic value (`embind.ClassBase`) returned by `BlockingService.Translate`. -/
inductive ClassBase where
  | vectorResponse (v : ClassVectorResponse)
  | foreign

/-- The embedded engine of one Translator, an external collaborator given by
the outcome of each call the Go code makes into it. -/
structure Engine where
  /-- error of `gen.NewClassVectorString` -/
  newVectorString : Option GoError
  /-- error of `gen.NewClassVectorResponseOptions` -/
  newVectorResponseOptions : Option GoError
  /-- error of `input.Push_back(text)` on a vector that holds `k` texts -/
  pushString : (k : Nat) → String → Option GoError
  /-- error of `options.Push_back(record)` on a vector that holds `k` records -/
  pushOptions : (k : Nat) → ResponseOptions → Option GoError
  /-- result of `svc.Translate(ctx, model, input, options)` -/
  translate : List String → List ResponseOptions → Except GoError ClassBase
  /-- error of `t.model.Delete` -/
  deleteModel : Option GoError
  /-- error of `t.svc.Delete` -/
  deleteService : Option GoError
  /-- error of `t.wasmRuntime.Close` -/
  closeRuntime : Option GoError

/-- Go `Translator` (translator.go:98-107). -/
structure Translator where
  engine : Engine
  cfg : Config

/-- Go `convertToInput` (translator.go:246-269): the two engine vectors afterwards
and the error.  `input` and `options` are the vectors' contents so far. -/
def convertToInput (eng : Engine) :
    List TranslationRequest → List String → List ResponseOptions →
      (List String × List ResponseOptions) × Option GoError
  | [], input, options => ((input, options), none)
  | r :: rs, input, options =>
    match eng.pushString input.length r.Text with
    | some e => ((input, options), some e)
    | none =>
      let requestOptions : ResponseOptions :=
        { qualityScores := false, alignment := false, html := r.Options.HTML }
      match eng.pushOptions options.length requestOptions with
      | some e => ((input ++ [r.Text], options), some e)
      | none => convertToInput eng rs (input ++ [r.Text]) (options ++ [requestOptions])

/-- The loop `for i := uint32(0); i < n; i++` of `processResponse`
(translator.go:282-296); `remaining` is `n - i`.  (`i < n ≤ 2^32 - 1`, so
`i++` does not wrap.) -/
def processResponseLoop (v : ClassVectorResponse) :
    (remaining : Nat) → (i : Nat) → (output : List String) → Except GoError (List String)
  | 0, _, output => .ok output
  | remaining + 1, i, output =>
    match v.get i with
    | .error e => .error e
    | .ok .foreign =>
      .error (.leaf (.text "expected response vector element to be a Response but got %T"))
    | .ok (.response translatedText) =>
      match translatedText with
      | .error e => .error e
      | .ok text => processResponseLoop v remaining (i + 1) (output ++ [text])

/-- Go `processResponse` (translator.go:271-298); an error return carries a nil slice. -/
def processResponse (resp : ClassBase) : Except GoError (List String) :=
  match resp with
  | .foreign => .error (.leaf (.text "expected response to be a Response vector but got %T"))
  | .vectorResponse responseVector =>
    match responseVector.size with
    | .error e => .error e
    | .ok n => processResponseLoop responseVector n 0 []

/-- Go `Translator.TranslateMultiple` (translator.go:214-233). -/
def Translator.TranslateMultiple (t : Translator) (requests : List TranslationRequest) :
    Except GoError (List String) :=
  match t.engine.newVectorString with
  | some e => .error e
  | none =>
    match t.engine.newVectorResponseOptions with
    | some e => .error e
    | none =>
      match convertToInput t.engine requests [] [] with
      | (_, some e) => .error e
      | ((input, options), none) =>
        match t.engine.translate input options with
        | .error e => .error e
        | .ok resp => processResponse resp

/-- The tail shared by `Translator.Translate` (translator.go:204-210) and
`Pool.Translate` (pool.go:96-102), applied to the pair the batch call returned. -/
def firstTranslatedText (translatedTexts : List String) (err : Option GoError) :
    String × Option GoError :=
  match err with
  | some e => ("", some e)
  | none =>
    match translatedTexts with
    | [] => ("", some (.leaf (.text "expected translated texts to have at least 1 element")))
    | first :: _ => (first, none)

/-- The pair `([]string, error)` a batch call returns, from its `Except` form. -/
def batchPair : Except GoError (List String) → List String × Option GoError
  | .error e => ([], some e)
  | .ok outputs => (outputs, none)

/-- Go `Translator.Translate` (translator.go:202-211). -/
def Translator.Translate (t : Translator) (request : TranslationRequest) :
    String × Option GoError :=
  let r := batchPair (t.TranslateMultiple [request])
  firstTranslatedText r.1 r.2

/-- Go `Translator.Close` (translator.go:236-244). -/
def Translator.Close (t : Translator) : Option GoError :=
  match t.engine.deleteModel with
  | some e => some e
  | none =>
    match t.engine.deleteService with
    | some e => some e
    | none => t.engine.closeRuntime

/-- A teardown call of `Translator.Close`. -/
inductive CloseStep where
  /-- call of `t.model.Delete(ctx)` -/
  | deleteModel
  /-- call of `t.svc.Delete(ctx)` -/
  | deleteService
  /-- call of `t.wasmRuntime.Close(ctx)` -/
  | closeRuntime
  deriving DecidableEq, Repr

/-- Go `Translator.Close` (translator.go:236-244) together with the teardown
calls it makes, in the order it makes them. -/
def Translator.closeSteps (t : Translator) : List CloseStep × Option GoError :=
  match t.engine.deleteModel with
  | some e => ([.deleteModel], some e)
  | none =>
    match t.engine.deleteService with
    | some e => ([.deleteModel, .deleteService], some e)
    | none => ([.deleteModel, .deleteService, .closeRuntime], t.engine.closeRuntime)

/-- Go `New` (translator.go:111-181).  `build` is the outcome of everything after
validation (compiling the module, loading the bundle, creating the service
and the model): the engine, or the error `New` returns for the failing step.
The Translator keeps the Config with the options map filled in
(`tr.cfg = cfg` after translator.go:116-118). -/
def New (cfg : Config) (build : Except GoError Engine) : Option Translator × Option GoError :=
  match cfg.Validate with
  | some e => (none, some e)
  | none =>
    let cfg := cfg.withDefaultOptions
    match build with
    | .error e => (none, some e)
    | .ok engine => (some { engine := engine, cfg := cfg }, none)

/-! ## pool.go -/

/-- Go `PoolConfig` (pool.go:16-19). -/
structure PoolConfig extends Config where
  PoolSize : Nat

/-- Go `PoolConfig.Validate` (pool.go:21-27). -/
def PoolConfig.Validate (cfg : PoolConfig) : Option GoError :=
  let err : Option GoError := none
  let err :=
    if cfg.PoolSize = 0 then errorsJoin [err, some (.leaf (.text "zero pool size"))] else err
  errorsJoin [err, cfg.toConfig.Validate]

/-- A `context.Context` at the moment it is looked at: `err = some e` when its
`Done` channel is closed, `e` being `ctx.Err()`. -/
structure Context where
  err : Option GoError

/-- Where the goroutine of a dispatch loop (`Pool.runWorker`, pool.go:147-158) stands. -/
inductive WorkerState where
  /-- parked in the `select` over `p.done` and `p.reqChan` -/
  | waiting
  /-- inside `translator.TranslateMultiple` for a request it received -/
  | translating
  /-- returned from `runWorker` through the `p.done` case -/
  | stopped
  deriving DecidableEq, Repr

/-- One dispatch loop with the Translator it owns. -/
structure Worker where
  translator : Translator
  state : WorkerState

/-- Go `Pool` (pool.go:68-79).  `done` tells whether the channel `p.done` is
closed; `workers` are the goroutines registered in `p.eg`. -/
structure Pool where
  cfg : PoolConfig
  done : Bool
  workers : List Worker
  modelBytes : List Byte
  shortlistBytes : List Byte
  vocabularyBytes : List Byte

/-- Go `workerResponse` (pool.go:87-90). -/
structure workerResponse where
  outputs : List String
  err : Option GoError

/-- How a call ends: it returns, it stays blocked in a `select` none of whose
cases can proceed, or it panics. -/
inductive Outcome (α : Type) where
  | returned (value : α)
  | blocked
  | panicked (msg : String)

/-- Go `select`: every case comes with whether it can proceed; among those
that can, one is taken pseudo-randomly, here by `choice`; `none` when no case
can proceed. -/
def goSelect {α : Type} (cases : List (Bool × α)) (choice : Nat) : Option α :=
  match (cases.filter (fun c => c.1)).map (fun c => c.2) with
  | [] => none
  | r :: rs => some ((r :: rs).getD (choice % (rs.length + 1)) r)

/-- The cases of the two `select`s of `Pool.TranslateMultiple` and of the one
of `Pool.Close`. -/
inductive SelectCase where
  /-- case `<-p.done` -/
  | done
  /-- case `<-ctx.Done()` -/
  | ctxDone
  /-- case `p.reqChan <- req`, `<-req.respChan`, or `<-errCh` in `Close` -/
  | comm
  deriving DecidableEq, Repr

/-- The dispatch loops parked in their `select`: the receivers ready on `p.reqChan`. -/
def Pool.waiting (p : Pool) : List Worker :=
  p.workers.filter (fun w => decide (w.state = .waiting))

/-- What the scheduler and the surroundings decide during one call of
`Pool.TranslateMultiple`. -/
structure TranslateEnv where
  /-- pick of the first `select` among its ready cases -/
  choice1 : Nat
  /-- which of the waiting dispatch loops receives the request -/
  worker : Nat
  /-- whether `p.done` is closed by the time of the second `select` -/
  doneLater : Bool
  /-- value of `ctx.Err()` by the time of the second `select`, if the context
  is done by then -/
  ctxLater : Option GoError
  /-- the dispatch loop has put its reply into `req.respChan` by then -/
  replied : Bool
  /-- pick of the second `select` among its ready cases -/
  choice2 : Nat

/-- Go `Pool.TranslateMultiple` (pool.go:107-129), evaluated on the pool as it is
when the first `select` runs.  The send on the unbuffered `p.reqChan` can
proceed when a dispatch loop is parked in its `select`; the reply is what
that loop's own Translator returns for the batch (pool.go:153-155). -/
def Pool.TranslateMultiple (p : Pool) (ctx : Context) (requests : List TranslationRequest)
    (env : TranslateEnv) : Outcome (List String × Option GoError) :=
  match goSelect
      [(p.done, SelectCase.done), (ctx.err.isSome, SelectCase.ctxDone),
        (!p.waiting.isEmpty, SelectCase.comm)] env.choice1 with
  | none => .blocked
  | some .done =>
    .returned ([], some (fmtErrorfW "did not found available worker" (.leaf .ErrClosed)))
  | some .ctxDone =>
    match ctx.err with
    | some e => .returned ([], some (fmtErrorfW "did not found available worker" e))
    | none => .blocked
  | some .comm =>
    match p.waiting with
    | [] => .blocked
    | w :: ws =>
      let worker := (w :: ws).getD (env.worker % (ws.length + 1)) w
      let reply := batchPair (worker.translator.TranslateMultiple requests)
      let resp : workerResponse := { outputs := reply.1, err := reply.2 }
      let ctxErr := ctx.err.orElse (fun _ => env.ctxLater)
      match goSelect
          [(p.done || env.doneLater, SelectCase.done), (ctxErr.isSome, SelectCase.ctxDone),
            (env.replied, SelectCase.comm)] env.choice2 with
      | none => .blocked
      | some .done =>
        .returned ([], some (fmtErrorfW "failed to wait response" (.leaf .ErrClosed)))
      | some .ctxDone =>
        match ctxErr with
        | some e => .returned ([], some (fmtErrorfW "failed to wait response" e))
        | none => .blocked
      | some .comm => .returned (resp.outputs, resp.err)

/-- Go `Pool.Translate` (pool.go:94-103). -/
def Pool.Translate (p : Pool) (ctx : Context) (request : TranslationRequest)
    (env : TranslateEnv) : Outcome (String × Option GoError) :=
  match p.TranslateMultiple ctx [request] env with
  | .blocked => .blocked
  | .panicked msg => .panicked msg
  | .returned (output, err) => .returned (firstTranslatedText output err)

/-- The case the first `select` of `Pool.TranslateMultiple` takes (pool.go:113-119,
the hand-off race); `none` when no case can proceed. -/
def Pool.handOffSelect (p : Pool) (ctx : Context) (env : TranslateEnv) : Option SelectCase :=
  goSelect
    [(p.done, SelectCase.done), (ctx.err.isSome, SelectCase.ctxDone),
      (!p.waiting.isEmpty, SelectCase.comm)] env.choice1

/-- The case the second `select` of `Pool.TranslateMultiple` takes (pool.go:121-128,
the reply race); `none` when no case can proceed. -/
def Pool.replySelect (p : Pool) (ctx : Context) (env : TranslateEnv) : Option SelectCase :=
  goSelect
    [(p.done || env.doneLater, SelectCase.done),
      ((ctx.err.orElse (fun _ => env.ctxLater)).isSome, SelectCase.ctxDone),
      (env.replied, SelectCase.comm)] env.choice2

/-- The `return` statement through which a call of `Pool.TranslateMultiple` ends. -/
inductive ReturnPath where
  /-- `return resp.outputs, resp.err` (pool.go:127) -/
  | reply
  /-- one of the two returns wrapping `ErrClosed` (pool.go:115, 123) -/
  | closed
  /-- one of the two returns wrapping `ctx.Err()` (pool.go:117, 125) -/
  | cancelled
  deriving DecidableEq, Repr

/-- The `return` a call of `Pool.TranslateMultiple` takes, from the cases its
two `select`s take; `none` when the call stays blocked. -/
def Pool.returnPath (p : Pool) (ctx : Context) (env : TranslateEnv) : Option ReturnPath :=
  match p.handOffSelect ctx env with
  | none => none
  | some .done => some .closed
  | some .ctxDone => some .cancelled
  | some .comm =>
    match p.replySelect ctx env with
    | none => none
    | some .done => some .closed
    | some .ctxDone => some .cancelled
    | some .comm => some .reply

/-- A dispatch loop parked in its `select` when `p.done` is closed takes the
`p.done` case: it closes its Translator and returns.  A loop inside a
translation is not interrupted. -/
def Worker.wake (w : Worker) : Worker :=
  match w.state with
  | .waiting => { w with state := .stopped }
  | _ => w

/-- The dispatch loop at index `i` comes back from `translator.TranslateMultiple`
and has delivered its reply: it is in its `select` again, where it parks if
`p.done` is open and takes the `p.done` case if it is closed. -/
def Pool.finishRequest (p : Pool) (i : Nat) : Pool :=
  let loopAgain : Worker → Worker := fun w =>
    match w.state with
    | .translating => { w with state := if p.done then .stopped else .waiting }
    | _ => w
  { p with workers := List.modify loopAgain i p.workers }

/-- What the scheduler and the surroundings decide during one call of `Pool.Close`. -/
structure CloseEnv where
  /-- every dispatch loop has returned, so `p.eg.Wait()` has a result to
  send on `errCh`, by the time the `select` runs -/
  workersReturned : Bool
  /-- order in which the dispatch loops hand their results to `p.eg.Wait()` -/
  sched : List Nat
  /-- pick of the `select` among its ready cases -/
  choice : Nat

/-- The error group `p.eg` of the pool: one goroutine per dispatch loop, each
returning what `translator.Close` returns (pool.go:151). -/
def Pool.eg (p : Pool) : Errgroup :=
  Errgroup.ofTasks (p.workers.map (fun w => w.translator.Close))

/-- Go `Pool.Close` (pool.go:132-145): the pool afterwards and the error.
`close(p.done)` panics on a channel that is already closed. -/
def Pool.Close (p : Pool) (ctx : Context) (env : CloseEnv) :
    Outcome (Pool × Option GoError) :=
  if p.done then
    .panicked "close of closed channel"
  else
    let p : Pool := { p with done := true, workers := p.workers.map Worker.wake }
    match goSelect
        [(ctx.err.isSome, SelectCase.ctxDone), (env.workersReturned, SelectCase.comm)]
        env.choice with
    | some .ctxDone => .returned (p, ctx.err)
    | some .comm =>
      .returned
        ({ p with workers := p.workers.map (fun w => { w with state := .stopped }) },
          p.eg.Wait env.sched)
    | _ => .blocked

/-- Go `filesToBytes` (pool.go:182-206). -/
def filesToBytes (p : Pool) : Pool × Option GoError :=
  let wrappingFile : alignedMemoryFile := { Reader := p.cfg.Model, Alignment := 0 }
  match wrappingFile.readAll with
  | ((data, some e), _) =>
    ({ p with modelBytes := data }, some (fmtErrorfW "failed to read model" e))
  | ((data, none), wrappingFile) =>
    let p := { p with modelBytes := data }
    let wrappingFile := { wrappingFile with Reader := p.cfg.LexicalShortlist }
    match wrappingFile.readAll with
    | ((data, some e), _) =>
      ({ p with shortlistBytes := data }, some (fmtErrorfW "failed to read shortlist" e))
    | ((data, none), wrappingFile) =>
      let p := { p with shortlistBytes := data }
      let wrappingFile := { wrappingFile with Reader := p.cfg.Vocabulary }
      match wrappingFile.readAll with
      | ((data, some e), _) =>
        ({ p with vocabularyBytes := data }, some (fmtErrorfW "failed to read vocabulary" e))
      | ((data, none), _) => ({ p with vocabularyBytes := data }, none)

/-- What the surroundings decide during `NewPool`: the outcome of the
engine-side construction in the `i`-th call of `New`, and the order in which
the construction goroutines complete. -/
structure NewPoolEnv where
  build : Nat → Except GoError Engine
  sched : List Nat

/-- The body of the goroutine `i` of `Pool.buildTranslators` (pool.go:166-175):
`New` on the pool's Config with the three sources replaced by buffers over
the shared bytes. -/
def Pool.buildTranslator (p : Pool) (env : NewPoolEnv) (i : Nat) :
    Option Translator × Option GoError :=
  let cfg : Config :=
    { p.cfg.toConfig with
      Model := some (bytesNewBuffer p.modelBytes),
      LexicalShortlist := some (bytesNewBuffer p.shortlistBytes),
      Vocabulary := some (bytesNewBuffer p.vocabularyBytes) }
  New cfg (env.build i)

/-- Go `Pool.buildTranslators` (pool.go:160-180): the slice of translators (a
nil entry where `New` failed) and the joined error. -/
def Pool.buildTranslators (p : Pool) (env : NewPoolEnv) :
    List (Option Translator) × Option GoError :=
  let results := (List.range p.cfg.PoolSize).map (p.buildTranslator env)
  let eg := Errgroup.ofTasks (results.map (fun r => r.2))
  (results.map (fun r => r.1), eg.Wait env.sched)

/-- What `NewPool` returns, and what it has done by then: the number of
dispatch loops it has started, whether it has called `filesToBytes` (which
reads the resources), and the number of calls of `New` it has spawned. -/
structure NewPoolResult where
  pool : Option Pool
  err : Option GoError
  launched : Nat
  filesRead : Bool := false
  constructions : Nat := 0

/-- The `p := &Pool{...}` of `NewPool` (pool.go:42-47), made from the Config
after the nil options map has been replaced by the defaults (pool.go:35-37):
channels open, no dispatch loop yet, the byte slices nil. -/
def Pool.initial (cfg : PoolConfig) : Pool :=
  { cfg := { cfg with toConfig := cfg.toConfig.withDefaultOptions },
    done := false, workers := [],
    modelBytes := [], shortlistBytes := [], vocabularyBytes := [] }

/-- Go `NewPool` (pool.go:30-66). -/
def NewPool (cfg : PoolConfig) (env : NewPoolEnv) : NewPoolResult :=
  match cfg.Validate with
  | some e => { pool := none, err := some e, launched := 0 }
  | none =>
    match filesToBytes (Pool.initial cfg) with
    | (_, some e) => { pool := none, err := some e, launched := 0, filesRead := true }
    | (p, none) =>
      match p.buildTranslators env with
      | (_, some e) =>
        { pool := none, err := some (fmtErrorfW "failed to setup translators" e),
          launched := 0, filesRead := true, constructions := p.cfg.PoolSize }
      | (translators, none) =>
        let workers : List Worker :=
          (translators.filterMap id).map (fun t => { translator := t, state := .waiting })
        { pool := some { p with workers := workers }, err := none,
          launched := workers.length, filesRead := true, constructions := p.cfg.PoolSize }

/-! ## pool.go: callers, dispatch loops and Close running together

A run of the pool is a sequence of atomic steps of its goroutines: the
callers inside `Pool.TranslateMultiple`, the dispatch loops inside
`Pool.runWorker`, and `Pool.Close`.  The scheduler picks the steps; a step
that cannot be taken in the current state is not enabled. -/

/-- Where a call of `Pool.TranslateMultiple` stands. -/
inductive CallState where
  /-- in the first `select` (pool.go:113-119): the request is not handed off yet -/
  | handingOff
  /-- in the second `select` (pool.go:121-128): a dispatch loop has received the request -/
  | awaitingReply
  /-- the call has returned these outputs and this error -/
  | returned (outputs : List String) (err : Option GoError)

/-- One call of `Pool.TranslateMultiple` with its `workerRequest` (pool.go:108-112),
and the bookkeeping of what has happened to the request. -/
structure Call where
  /-- the caller's context, as it is now -/
  ctx : Context
  /-- the batch, `req.reqs` -/
  requests : List TranslationRequest
  state : CallState
  /-- content of the buffer of `req.respChan`, a channel of capacity 1 -/
  respChan : List workerResponse
  /-- the dispatch loops that have received the request from `p.reqChan` -/
  receivedBy : List Nat
  /-- number of calls of `translator.TranslateMultiple` made for the request -/
  invocations : Nat
  /-- the replies sent on `req.respChan` -/
  sent : List workerResponse

/-- Where the goroutine of a dispatch loop (`Pool.runWorker`, pool.go:147-158) stands. -/
inductive LoopState where
  /-- in the `select` over `p.done` and `p.reqChan` -/
  | waiting
  /-- has received the request of the call `call`, before the return of
  `translator.TranslateMultiple` (pool.go:154) -/
  | translating (call : Nat)
  /-- at the send `req.respChan <- resp` (pool.go:155) -/
  | replying (call : Nat) (resp : workerResponse)
  /-- returned through the `p.done` case (pool.go:150-151) -/
  | stopped

/-- The call a dispatch loop is working for, if any. -/
def LoopState.serving : LoopState → Option Nat
  | .translating call => some call
  | .replying call _ => some call
  | _ => none

/-- A dispatch loop with the Translator it owns. -/
structure Loop where
  translator : Translator
  state : LoopState

/-- The pool at one moment of a run: whether `p.done` is closed, the dispatch
loops, and all calls of `Pool.TranslateMultiple` made so far. -/
structure PoolRun where
  done : Bool
  loops : List Loop
  calls : List Call

/-- The pool as `NewPool` leaves it (pool.go:59-63): `p.done` open, one
dispatch loop per Translator, in its `select`; no call yet.  The closure given
to `p.eg.Go` reads `translators[i]` with the `i` of its own iteration, the
meaning of a `for` variable from Go 1.22 on. -/
def PoolRun.start (translators : List Translator) : PoolRun :=
  { done := false
    loops := translators.map (fun t => { translator := t, state := .waiting })
    calls := [] }

/-- An atomic step of a run. -/
inductive PoolEvent where
  /-- a caller enters `Pool.TranslateMultiple` and builds its `workerRequest`
  with an empty reply channel of capacity 1 (pool.go:108-112) -/
  | call (ctx : Context) (requests : List TranslationRequest)
  /-- the context of the call becomes done, `ctx.Err()` being `err` -/
  | cancel (call : Nat) (err : GoError)
  /-- the send `p.reqChan <- req` of the call (pool.go:118) meets the receive
  `req := <-p.reqChan` of the loop (pool.go:152) -/
  | handOff (call loop : Nat)
  /-- the first `select` of the call takes `<-p.done` or `<-ctx.Done()` (pool.go:114-117) -/
  | failHandOff (call : Nat) (case : SelectCase)
  /-- the loop gets the result of `translator.TranslateMultiple(req.ctx, req.reqs...)`
  (pool.go:154) -/
  | translate (loop : Nat)
  /-- the loop sends `req.respChan <- resp` (pool.go:155) and goes back to its `select` -/
  | reply (loop : Nat)
  /-- the second `select` of the call takes `resp := <-req.respChan` (pool.go:126-127) -/
  | receiveReply (call : Nat)
  /-- the second `select` of the call takes `<-p.done` or `<-ctx.Done()` (pool.go:122-125) -/
  | failReply (call : Nat) (case : SelectCase)
  /-- the statement `close(p.done)` of `Pool.Close` (pool.go:133) -/
  | close
  /-- the `select` of the loop takes `<-p.done`: the loop closes its Translator
  and returns (pool.go:150-151) -/
  | stop (loop : Nat)

/-- The reply a dispatch loop builds for a batch (pool.go:153-154). -/
def Loop.replyFor (loop : Loop) (requests : List TranslationRequest) : workerResponse :=
  let r := batchPair (loop.translator.TranslateMultiple requests)
  { outputs := r.1, err := r.2 }

/-- The error of a `select` of `Pool.TranslateMultiple` that takes `<-p.done`
or `<-ctx.Done()`; `none` when that case cannot proceed. -/
def PoolRun.raceLost (s : PoolRun) (call : Call) (msg : String) : SelectCase → Option GoError
  | .done => if s.done then some (fmtErrorfW msg (.leaf .ErrClosed)) else none
  | .ctxDone => call.ctx.err.map (fmtErrorfW msg)
  | .comm => none

/-- One step of a run: the state after the event, or `none` when the event is
not enabled (a send or receive that cannot proceed, a `select` case that is
not ready, a goroutine that is not at that statement; a second
`close(p.done)` is not enabled either, it panics). -/
def PoolRun.step (s : PoolRun) : PoolEvent → Option PoolRun
  | .call ctx requests =>
    some { s with
      calls := s.calls ++
        [{ ctx := ctx, requests := requests, state := .handingOff, respChan := [],
           receivedBy := [], invocations := 0, sent := [] }] }
  | .cancel c err =>
    match s.calls[c]? with
    | none => none
    | some call =>
      match call.ctx.err with
      | some _ => none
      | none => some { s with calls := s.calls.set c { call with ctx := { err := some err } } }
  | .handOff c w =>
    match s.calls[c]?, s.loops[w]? with
    | some call, some loop =>
      match call.state, loop.state with
      | .handingOff, .waiting =>
        some { s with
          calls := s.calls.set c
            { call with state := .awaitingReply, receivedBy := call.receivedBy ++ [w] },
          loops := s.loops.set w { loop with state := .translating c } }
      | _, _ => none
    | _, _ => none
  | .failHandOff c case =>
    match s.calls[c]? with
    | none => none
    | some call =>
      match call.state, s.raceLost call "did not found available worker" case with
      | .handingOff, some e =>
        some { s with calls := s.calls.set c { call with state := .returned [] (some e) } }
      | _, _ => none
  | .translate w =>
    match s.loops[w]? with
    | none => none
    | some loop =>
      match loop.state with
      | .translating c =>
        match s.calls[c]? with
        | none => none
        | some call =>
          some { s with
            calls := s.calls.set c { call with invocations := call.invocations + 1 },
            loops := s.loops.set w
              { loop with state := .replying c (loop.replyFor call.requests) } }
      | _ => none
  | .reply w =>
    match s.loops[w]? with
    | none => none
    | some loop =>
      match loop.state with
      | .replying c resp =>
        match s.calls[c]? with
        | none => none
        | some call =>
          if call.respChan.length < 1 then
            some { s with
              calls := s.calls.set c
                { call with respChan := call.respChan ++ [resp], sent := call.sent ++ [resp] },
              loops := s.loops.set w { loop with state := .waiting } }
          else none
      | _ => none
  | .receiveReply c =>
    match s.calls[c]? with
    | none => none
    | some call =>
      match call.state, call.respChan with
      | .awaitingReply, resp :: rest =>
        some { s with
          calls := s.calls.set c
            { call with state := .returned resp.outputs resp.err, respChan := rest } }
      | _, _ => none
  | .failReply c case =>
    match s.calls[c]? with
    | none => none
    | some call =>
      match call.state, s.raceLost call "failed to wait response" case with
      | .awaitingReply, some e =>
        some { s with calls := s.calls.set c { call with state := .returned [] (some e) } }
      | _, _ => none
  | .close => if s.done then none else some { s with done := true }
  | .stop w =>
    match s.loops[w]? with
    | none => none
    | some loop =>
      match s.done, loop.state with
      | true, .waiting => some { s with loops := s.loops.set w { loop with state := .stopped } }
      | _, _ => none

/-- A run: the events taken one after the other; `none` when one of them is
not enabled where it comes. -/
def PoolRun.run (s : PoolRun) : List PoolEvent → Option PoolRun
  | [] => some s
  | event :: rest =>
    match s.step event with
    | none => none
    | some next => next.run rest

/-- What the bookkeeping of the call number `c` says at every moment of a run.
Either no dispatch loop has received the request: then no Translator was
invoked for it, no reply was sent, and the call is still in its first
`select` or has returned, without output, the closed-pool error or the
error of its context.  Or exactly one dispatch loop `w` has received it, and
that loop is before the return of its Translator (nothing invoked or sent
yet), or at the send of the reply its own Translator gave for the batch
(one invocation, nothing sent yet), or past it (one invocation, exactly that
one reply sent, still in the reply channel or taken out by the caller). -/
def PoolRun.CallOk (s : PoolRun) (c : Nat) (call : Call) : Prop :=
  (call.receivedBy = [] ∧ call.invocations = 0 ∧ call.sent = [] ∧ call.respChan = [] ∧
    (call.state = .handingOff ∨
      ∃ e : GoError, call.state = .returned [] (some e) ∧
        (e.is .ErrClosed = true ∨
          ∃ x, call.ctx.err = some x ∧ e = fmtErrorfW "did not found available worker" x))) ∨
  (∃ (w : Nat) (loop : Loop), call.receivedBy = [w] ∧ s.loops[w]? = some loop ∧
    call.state ≠ .handingOff ∧
    ((loop.state = .translating c ∧ call.invocations = 0 ∧ call.sent = [] ∧
        call.respChan = []) ∨
      (loop.state = .replying c (loop.replyFor call.requests) ∧ call.invocations = 1 ∧
        call.sent = [] ∧ call.respChan = []) ∨
      (loop.state.serving ≠ some c ∧ call.invocations = 1 ∧
        call.sent = [loop.replyFor call.requests] ∧
        (call.respChan = [] ∨ call.respChan = [loop.replyFor call.requests]))))

/-- A dispatch loop works only for a call whose request it has received, and
it is the only loop that has. -/
def PoolRun.LoopOk (s : PoolRun) (w : Nat) (loop : Loop) : Prop :=
  ∀ c, loop.state.serving = some c →
    ∃ call, s.calls[c]? = some call ∧ call.receivedBy = [w]

/-- The invariant of a run: the bookkeeping of every call and of every
dispatch loop is as `CallOk` and `LoopOk` say. -/
def PoolRun.Inv (s : PoolRun) : Prop :=
  (∀ (c : Nat) (call : Call), s.calls[c]? = some call → s.CallOk c call) ∧
  (∀ (w : Nat) (loop : Loop), s.loops[w]? = some loop → s.LoopOk w loop)

/-- Modelled from the spec: the contract of the engine's batch translate
(`gen.ClassBlockingService.Translate`, a generated binding that is not among
the sources; spec 1: "translate a batch of strings, get a batch of strings
back", spec 3: "one per request, order preserved").  The response vector it
returns holds one response per input text. -/
def Engine.OneResponsePerInput (eng : Engine) : Prop :=
  ∀ (input : List String) (options : List ResponseOptions) (v : ClassVectorResponse),
    eng.translate input options = .ok (.vectorResponse v) → v.size = .ok input.length

/-- A pool on which `Close` has run: `p.done` is closed and no dispatch loop
is parked on `p.reqChan` any more. -/
def Pool.Closed (p : Pool) : Prop :=
  p.done = true ∧ p.waiting = []

/-! ## Concrete values used in the examples -/

/-- An engine whose every call succeeds and which answers a batch with one
response per input, the text unchanged. -/
def echoEngine : Engine :=
  { newVectorString := none
    newVectorResponseOptions := none
    pushString := fun _ _ => none
    pushOptions := fun _ _ => none
    translate := fun input _ =>
      .ok (.vectorResponse
        { size := .ok input.length
          get := fun i => .ok (.response (.ok (input.getD i "")))})
    deleteModel := none
    deleteService := none
    closeRuntime := none }

/-- A Config with three empty buffers as sources. -/
def exampleConfig : Config :=
  { Model := some (bytesNewBuffer [])
    LexicalShortlist := some (bytesNewBuffer [])
    Vocabulary := some (bytesNewBuffer []) }

/-- A Translator over `echoEngine`. -/
def echoTranslator : Translator := { engine := echoEngine, cfg := exampleConfig }

/-- A running pool of one dispatch loop, parked in its `select`. -/
def examplePool : Pool :=
  { Pool.initial { toConfig := exampleConfig, PoolSize := 1 } with
    workers := [{ translator := echoTranslator, state := .waiting }] }

/-- The pool `examplePool` after `Close`. -/
def closedExamplePool : Pool :=
  { examplePool with
    done := true, workers := [{ translator := echoTranslator, state := .stopped }] }

/-- Go `context.Background()`: never done. -/
def Context.background : Context := { err := none }

/-- The sentinel `context.Canceled`. -/
def contextCanceled : GoError := .leaf (.other 0)

/-- A context that has been cancelled. -/
def Context.canceled : Context := { err := some contextCanceled }

/-- A `Close` during which every dispatch loop returns before the `select` runs. -/
def promptCloseEnv : CloseEnv := { workersReturned := true, sched := [], choice := 0 }

/-- A scheduler that takes the second ready case of the first `select`. -/
def secondCaseEnv : TranslateEnv :=
  { choice1 := 1, worker := 0, doneLater := false, ctxLater := none, replied := true,
    choice2 := 0 }

/-- The source `reader` yields the length `L` without a read or seek failure,
in the way the type switch of `alignedMemoryFile.size` obtains it: from
`Len()`; else as the offset of `Seek(0, io.SeekEnd)`, the seek back to the
start succeeding too; else as the number of bytes read to the end. -/
inductive Reader.ResolvesLength (reader : Reader) (L : Int) : Prop where
  | len (h : reader.lenMethod = some L)
  | seek (s : Seeker) (hlen : reader.lenMethod = none) (hs : reader.seeker = some s)
      (hend : s.seekEnd = .ok L) (hstart : s.seekStart = none)
  | read (hlen : reader.lenMethod = none) (hs : reader.seeker = none)
      (herr : reader.readErr = none) (hL : L = (reader.unread.length : Int))

/-- A source that reports `Len() = 100` while its `Bytes()` holds 90 bytes. -/
def shortBytesSource : Reader :=
  { lenMethod := some 100, bytesMethod := some (List.replicate 90 1), seeker := none,
    unread := List.replicate 90 1, readErr := none }

/-- A source that reports `Len() = 100`, has no `Bytes()`, and delivers 90 bytes. -/
def shortStreamSource : Reader :=
  { lenMethod := some 100, bytesMethod := none, seeker := none,
    unread := List.replicate 90 1, readErr := none }

/-- A PoolConfig asking for two workers over three empty buffers. -/
def examplePoolConfig : PoolConfig := { toConfig := exampleConfig, PoolSize := 2 }

/-- The error with which the first construction of `failingBuildEnv` fails. -/
def constructionFailure : GoError := .leaf (.other 7)

/-- Surroundings in which the construction of worker 0 fails and every other
one succeeds. -/
def failingBuildEnv : NewPoolEnv :=
  { build := fun i => if i = 0 then .error constructionFailure else .ok echoEngine
    sched := [] }

/-- The sources for which size resolution and fill are meant to agree: a
`*bytes.Buffer`; a reader that reports the number of its unread bytes through
`Len()` and has no `Bytes()` (such as a `*bytes.Reader`); a seekable stream
(no `Len`, no `Bytes`) whose `Seek(0, io.SeekEnd)` reports the length of its
whole content, at whatever position it currently is (`unread` is arbitrary);
a plain reader with neither `Len` nor `Seek`.  The lengths are Go `int`s,
below 2^63. -/
inductive Reader.Consistent (r : Reader) : Prop where
  | buffer (data : List Byte) (h : r = bytesNewBuffer data) (hint : data.length < 2 ^ 63)
  | lenReader (hlen : r.lenMethod = some (r.unread.length : Int)) (hbytes : r.bytesMethod = none)
      (herr : r.readErr = none) (hint : r.unread.length < 2 ^ 63)
  | seekable (s : Seeker) (hlen : r.lenMethod = none) (hbytes : r.bytesMethod = none)
      (hs : r.seeker = some s) (hend : s.seekEnd = .ok (s.content.length : Int))
      (hstart : s.seekStart = none) (herr : r.readErr = none)
      (hint : s.content.length < 2 ^ 63)
  | plain (hlen : r.lenMethod = none) (hs : r.seeker = none) (herr : r.readErr = none)
      (hint : r.unread.length < 2 ^ 63)

/-- An engine whose service object cannot be deleted. -/
def stuckServiceEngine : Engine :=
  { echoEngine with deleteService := some (.leaf (.other 3)) }

/-- A seekable stream of four bytes (no `Len`, no `Bytes`), two of them
already read. -/
def halfReadStream : Reader :=
  { lenMethod := none, bytesMethod := none,
    seeker := some { seekEnd := .ok 4, seekStart := none, content := [1, 2, 3, 4] },
    unread := [3, 4], readErr := none }

/-- A PoolConfig with pool size 0 and no vocabulary. -/
def zeroSizePoolConfig : PoolConfig :=
  { toConfig := { exampleConfig with Vocabulary := none }, PoolSize := 0 }

/-- A bundle whose three entries are non-empty and carry the resolved sizes
`s1`, `s2`, `s3`. -/
def bundleOfSizes (s1 s2 s3 : Nat) : alignedMemoriesBundle :=
  (newAlignedMemoryDataBundle none none none).zipWith
    (fun info size => { info with size := size }) [s1, s2, s3]

/-- A bundle of three buffers holding 3, 2 and 1 bytes. -/
def exampleBundle : alignedMemoriesBundle :=
  newAlignedMemoryDataBundle (some (bytesNewBuffer [1, 2, 3])) (some (bytesNewBuffer [4, 5]))
    (some (bytesNewBuffer [6]))

/-- An engine with one page of memory whose allocations succeed (the handle
is the index of the entry) and whose views are the zeroed regions of 3, 2 and
1 bytes. -/
def exampleLoaderEngine : LoaderEngine :=
  { memorySize := 65536
    newAlignedMemory := fun index _ _ => .ok index
    getByteArrayView := fun memory => .ok (some (List.replicate (3 - memory) 0)) }

/-- The engine `exampleLoaderEngine`, except that the allocation for the
shortlist (index 1) fails. -/
def shortlistFailsEngine : LoaderEngine :=
  { exampleLoaderEngine with
    newAlignedMemory := fun index _ _ =>
      if index = 1 then .error (.leaf (.other 5)) else .ok index }

/-- A run of a pool of one dispatch loop in which one call is made, handed
off, translated, replied to, and returns. -/
def servedRun : List PoolEvent :=
  [.call Context.background [{ Text := "Hello" }], .handOff 0 0, .translate 0, .reply 0,
    .receiveReply 0]

/-- The call of `servedRun` at the end of the run. -/
def servedCall : Call :=
  { ctx := Context.background
    requests := [{ Text := "Hello" }]
    state := .returned ["Hello"] none
    respChan := []
    receivedBy := [0]
    invocations := 1
    sent := [{ outputs := ["Hello"], err := none }] }

/-- The pool at the end of `servedRun`. -/
def servedRunEnd : PoolRun :=
  { done := false
    loops := [{ translator := echoTranslator, state := .waiting }]
    calls := [servedCall] }

/-- A run of a pool of one dispatch loop in which the caller gives up: the
request is handed off, the context of the call is cancelled, the second
`select` of the call takes `<-ctx.Done()`, and only then the Translator of the
loop returns. -/
def abandonedRun : List PoolEvent :=
  [.call Context.background [{ Text := "Hello" }], .handOff 0 0, .cancel 0 contextCanceled,
    .failReply 0 .ctxDone, .translate 0]

/-- The call of `abandonedRun` at the end of the run: returned with the
cancellation error, its reply channel empty. -/
def abandonedCall : Call :=
  { ctx := Context.canceled
    requests := [{ Text := "Hello" }]
    state := .returned [] (some (fmtErrorfW "failed to wait response" contextCanceled))
    respChan := []
    receivedBy := [0]
    invocations := 1
    sent := [] }

/-- The dispatch loop of `abandonedRun` at the end of the run: at the send of
its reply. -/
def abandonedLoop : Loop :=
  { translator := echoTranslator
    state := .replying 0 { outputs := ["Hello"], err := none } }

/-- The pool at the end of `abandonedRun`. -/
def abandonedRunEnd : PoolRun :=
  { done := false
    loops := [abandonedLoop]
    calls := [abandonedCall] }

/-- A source of 1000 bytes that reports `Len() = 1000`, has neither `Bytes()`
nor `WriteTo`, and hands over at most 300 bytes per `Read`. -/
def shortReadsSource : Reader :=
  { lenMethod := some 1000, bytesMethod := none, seeker := none,
    unread := List.replicate 1000 1, readErr := none, readLimit := some 300 }

/-! ## Properties -/

/-! ### errors.Join and errors.Is -/

theorem errorsJoin_pair_eq_none (a b : Option GoError) :
    errorsJoin [a, b] = none ↔ a = none ∧ b = none := by
  cases a <;> cases b <;> simp [errorsJoin]

theorem errorsIs_errorsJoin_pair (a b : Option GoError) (target : ErrorValue) :
    errorsIs (errorsJoin [a, b]) target = (errorsIs a target || errorsIs b target) := by
  cases a <;> cases b <;> simp [errorsJoin, errorsIs, GoError.is, GoError.isAny]

theorem foldl_errorsJoin_eq_none (l : List (Option GoError)) :
    ∀ j : Option GoError,
      l.foldl (fun joinedErr err => errorsJoin [joinedErr, err]) j = none ↔
        j = none ∧ ∀ t ∈ l, t = none := by
  induction l with
  | nil => intro j; simp
  | cons x xs ih =>
    intro j
    simp only [List.foldl_cons, ih, errorsJoin_pair_eq_none, List.mem_cons, forall_eq_or_imp]
    tauto

theorem errorsIs_foldl_errorsJoin (l : List (Option GoError)) (target : ErrorValue) :
    ∀ j : Option GoError,
      errorsIs (l.foldl (fun joinedErr err => errorsJoin [joinedErr, err]) j) target = true ↔
        errorsIs j target = true ∨ ∃ t ∈ l, errorsIs t target = true := by
  induction l with
  | nil => intro j; simp
  | cons x xs ih =>
    intro j
    simp only [List.foldl_cons, ih, errorsIs_errorsJoin_pair, Bool.or_eq_true, List.mem_cons,
      exists_eq_or_imp]
    tauto

/-! ### internal/errgroup -/

theorem getD_cons_eraseIdx_perm {α : Type} (d : α) :
    ∀ (l : List α) (i : Nat), i < l.length → (l.getD i d :: l.eraseIdx i).Perm l := by
  intro l
  induction l with
  | nil => intro i h; simp at h
  | cons x xs ih =>
    intro i h
    cases i with
    | zero => simp
    | succ j =>
      have hj : j < xs.length := by simpa using h
      have h1 := ih j hj
      simp only [List.getD_cons_succ, List.eraseIdx_cons_succ]
      exact (List.Perm.swap _ _ _).trans (List.Perm.cons x h1)

/-- Whatever the schedule, `Wait` receives the result of every spawned goroutine
exactly once. -/
theorem Errgroup.received_perm : ∀ (sched : List Nat) (pending : List (Option GoError)),
    (Errgroup.received pending sched).Perm pending := by
  intro sched
  induction sched with
  | nil => intro pending; cases pending <;> simp [Errgroup.received]
  | cons s sched ih =>
    intro pending
    cases pending with
    | nil => simp [Errgroup.received]
    | cons p ps =>
      simp only [Errgroup.received]
      have hi : s % (ps.length + 1) < (p :: ps).length := by
        simp only [List.length_cons]; exact Nat.mod_lt _ (Nat.succ_pos _)
      generalize s % (ps.length + 1) = i at hi
      exact (List.Perm.cons _ (ih ((p :: ps).eraseIdx i))).trans
        (getD_cons_eraseIdx_perm none (p :: ps) i hi)

/-- Every completion order is the one of some schedule. -/
theorem Errgroup.received_complete : ∀ (order pending : List (Option GoError)),
    order.Perm pending → ∃ sched, Errgroup.received pending sched = order := by
  intro order
  induction order with
  | nil =>
    intro pending h
    have : pending = [] := by simpa using h.symm
    exact ⟨[], by simp [this, Errgroup.received]⟩
  | cons x order ih =>
    intro pending h
    have hx : x ∈ pending := h.subset (List.mem_cons_self _ _)
    obtain ⟨l₁, l₂, rfl⟩ := List.append_of_mem hx
    have h2 : order.Perm (l₁ ++ l₂) :=
      List.Perm.cons_inv (h.trans List.perm_middle)
    obtain ⟨sched, hs⟩ := ih (l₁ ++ l₂) h2
    refine ⟨l₁.length :: sched, ?_⟩
    cases hl : l₁ ++ x :: l₂ with
    | nil => simp at hl
    | cons p ps =>
      have hlen : ps.length + 1 = (l₁ ++ x :: l₂).length := by rw [hl]; simp
      have hmod : l₁.length % (ps.length + 1) = l₁.length := by
        apply Nat.mod_eq_of_lt
        rw [hlen]; simp
      simp only [Errgroup.received, hmod]
      rw [← hl]
      have he : (l₁ ++ x :: l₂).eraseIdx l₁.length = l₁ ++ l₂ := by
        rw [List.eraseIdx_append_of_length_le (Nat.le_refl _)]; simp
      have hg : (l₁ ++ x :: l₂).getD l₁.length none = x := by
        rw [List.getD_eq_getElem?_getD, List.getElem?_append_right (Nat.le_refl _)]; simp
      rw [he, hg, hs]

theorem Errgroup.ofTasks_spawned (tasks : List (Option GoError)) :
    (Errgroup.ofTasks tasks).spawned = tasks := by
  have h : ∀ (l : List (Option GoError)) (eg : Errgroup),
      (l.foldl Errgroup.Go eg).spawned = eg.spawned ++ l := by
    intro l
    induction l with
    | nil => intro eg; simp
    | cons t ts ih => intro eg; simp [ih, Errgroup.Go]
  simpa [Errgroup.ofTasks, Errgroup.New] using h tasks Errgroup.New

theorem Errgroup.Wait_eq_none (eg : Errgroup) (sched : List Nat) :
    eg.Wait sched = none ↔ ∀ t ∈ eg.spawned, t = none := by
  unfold Errgroup.Wait
  rw [foldl_errorsJoin_eq_none]
  have hp := Errgroup.received_perm sched eg.spawned
  constructor
  · rintro ⟨_, h⟩ t ht
    exact h t (hp.mem_iff.mpr ht)
  · intro h
    exact ⟨rfl, fun t ht => h t (hp.mem_iff.mp ht)⟩

theorem Errgroup.errorsIs_Wait (eg : Errgroup) (sched : List Nat) (target : ErrorValue) :
    errorsIs (eg.Wait sched) target = true ↔
      ∃ e, some e ∈ eg.spawned ∧ e.is target = true := by
  unfold Errgroup.Wait
  rw [errorsIs_foldl_errorsJoin]
  have hp := Errgroup.received_perm sched eg.spawned
  constructor
  · rintro (h | ⟨t, ht, h⟩)
    · simp [errorsIs] at h
    · cases t with
      | none => simp [errorsIs] at h
      | some e => exact ⟨e, hp.mem_iff.mp ht, by simpa [errorsIs] using h⟩
  · rintro ⟨e, he, h⟩
    exact Or.inr ⟨some e, hp.mem_iff.mpr he, by simpa [errorsIs] using h⟩

/-! ### pool.go: closing -/

theorem Worker.wake_state_ne_waiting (w : Worker) : (Worker.wake w).state ≠ .waiting := by
  unfold Worker.wake
  cases h : w.state <;> simp [h]

theorem Pool.waiting_eq_nil_iff (p : Pool) :
    p.waiting = [] ↔ ∀ w ∈ p.workers, w.state ≠ .waiting := by
  simp [Pool.waiting, List.filter_eq_nil_iff]

/-- A `Close` that returns leaves the pool closed. -/
theorem Pool.Close_returned_Closed (p p' : Pool) (ctx : Context) (env : CloseEnv)
    (err : Option GoError) (h : p.Close ctx env = .returned (p', err)) : p'.Closed := by
  unfold Pool.Close at h
  by_cases hd : p.done = true
  · simp [hd] at h
  · simp only [hd, Bool.false_eq_true, if_false] at h
    split at h
    · injection h with h
      injection h with h1 _
      subst h1
      refine ⟨rfl, ?_⟩
      rw [Pool.waiting_eq_nil_iff]
      intro w hw
      simp only [List.mem_map] at hw
      obtain ⟨w0, _, rfl⟩ := hw
      exact Worker.wake_state_ne_waiting w0
    · injection h with h
      injection h with h1 _
      subst h1
      refine ⟨rfl, ?_⟩
      rw [Pool.waiting_eq_nil_iff]
      intro w hw
      simp only [List.mem_map] at hw
      obtain ⟨w1, _, rfl⟩ := hw
      simp
    · cases h

/-- A closed pool stays closed when a dispatch loop finishes its request. -/
theorem Pool.finishRequest_Closed (p : Pool) (i : Nat) (h : p.Closed) :
    (p.finishRequest i).Closed := by
  obtain ⟨hd, hw⟩ := h
  refine ⟨hd, ?_⟩
  rw [Pool.waiting_eq_nil_iff] at hw ⊢
  intro w hmem
  simp only [Pool.finishRequest] at hmem
  rw [List.mem_iff_getElem] at hmem
  obtain ⟨n, hn, rfl⟩ := hmem
  rw [List.getElem_modify]
  have hn2 : n < p.workers.length := by simpa using hn
  have hw0 := hw _ (List.getElem_mem hn2)
  split
  · cases hs : (p.workers[n]).state <;> simp_all
  · exact hw0

theorem Pool.foldl_finishRequest_Closed (finished : List Nat) :
    ∀ p : Pool, p.Closed → (finished.foldl Pool.finishRequest p).Closed := by
  induction finished with
  | nil => intro p h; exact h
  | cons i rest ih => intro p h; exact ih _ (Pool.finishRequest_Closed p i h)

/-- On a closed pool `TranslateMultiple` ends in its first `select`, with the
closed-pool error or, if the caller's context is done, possibly with the
context's error. -/
theorem Pool.TranslateMultiple_of_Closed (p : Pool) (h : p.Closed) (ctx : Context)
    (requests : List TranslationRequest) (env : TranslateEnv) :
    p.TranslateMultiple ctx requests env =
        .returned ([], some (fmtErrorfW "did not found available worker" (.leaf .ErrClosed))) ∨
      ∃ c, ctx.err = some c ∧
        p.TranslateMultiple ctx requests env =
          .returned ([], some (fmtErrorfW "did not found available worker" c)) := by
  obtain ⟨hd, hw⟩ := h
  unfold Pool.TranslateMultiple
  cases hc : ctx.err with
  | none => left; simp [goSelect, hd, hw]
  | some c =>
    rcases Nat.mod_two_eq_zero_or_one env.choice1 with h2 | h2
    · left; simp [goSelect, hd, hw, h2]
    · right; exact ⟨c, rfl, by simp [goSelect, hd, hw, h2]⟩

/-! ### translator.go: batches -/

/-- The loop of `processResponse` succeeds exactly when each of the remaining
elements is a Response whose text can be read, and it then appends those
texts in index order. -/
theorem processResponseLoop_eq_ok (v : ClassVectorResponse) :
    ∀ (remaining i : Nat) (output out : List String),
      processResponseLoop v remaining i output = .ok out ↔
        ∃ texts : List String, texts.length = remaining ∧ out = output ++ texts ∧
          ∀ k, k < remaining → v.get (i + k) = .ok (.response (.ok (texts.getD k ""))) := by
  intro remaining
  induction remaining with
  | zero =>
    intro i output out
    simp only [processResponseLoop, Except.ok.injEq]
    constructor
    · intro h
      exact ⟨[], rfl, by simp [h], fun k hk => absurd hk (Nat.not_lt_zero k)⟩
    · rintro ⟨texts, hlen, hout, _⟩
      have : texts = [] := List.length_eq_zero.mp hlen
      simp [hout, this]
  | succ n ih =>
    intro i output out
    simp only [processResponseLoop]
    constructor
    · intro h
      cases hget : v.get i with
      | error e => simp [hget] at h
      | ok element =>
        cases element with
        | foreign => simp [hget] at h
        | response translatedText =>
          cases translatedText with
          | error e => simp [hget] at h
          | ok text =>
            simp only [hget] at h
            obtain ⟨texts, hlen, hout, hall⟩ := (ih (i + 1) (output ++ [text]) out).mp h
            refine ⟨text :: texts, by simp [hlen], by simp [hout], ?_⟩
            intro k hk
            cases k with
            | zero => simpa using hget
            | succ j =>
              have := hall j (by omega)
              simpa [Nat.add_assoc, Nat.add_comm 1 j] using this
    · rintro ⟨texts, hlen, hout, hall⟩
      cases texts with
      | nil => simp at hlen
      | cons text rest =>
        have h0 := hall 0 (Nat.succ_pos n)
        simp only [Nat.add_zero, List.getD_cons_zero] at h0
        rw [h0]
        simp only
        apply (ih (i + 1) (output ++ [text]) out).mpr
        refine ⟨rest, by simpa using hlen, by simp [hout], ?_⟩
        intro k hk
        have := hall (k + 1) (by omega)
        simpa [Nat.add_assoc, Nat.add_comm 1 k] using this

/-- Go `processResponse` succeeds exactly on a Response vector whose `Size` and
whose every element can be read, and then returns the elements' translated
texts in index order. -/
theorem processResponse_eq_ok (resp : ClassBase) (out : List String) :
    processResponse resp = .ok out ↔
      ∃ (v : ClassVectorResponse) (n : Nat), resp = .vectorResponse v ∧ v.size = .ok n ∧
        out.length = n ∧
        ∀ i, i < n → v.get i = .ok (.response (.ok (out.getD i ""))) := by
  unfold processResponse
  cases resp with
  | foreign => simp
  | vectorResponse v =>
    cases hs : v.size with
    | error e => simp [hs]
    | ok n =>
      simp only [hs, processResponseLoop_eq_ok, List.nil_append, Nat.zero_add]
      constructor
      · rintro ⟨texts, hlen, rfl, hall⟩
        exact ⟨v, n, rfl, hs, hlen, hall⟩
      · rintro ⟨v2, n2, hv, hn, hlen, hall⟩
        cases hv
        rw [hs] at hn
        cases hn
        exact ⟨out, hlen, rfl, hall⟩

/-- When `convertToInput` succeeds it has appended the text of every request
and one option record per request, in request order. -/
theorem convertToInput_eq_ok (eng : Engine) :
    ∀ (requests : List TranslationRequest) (input input2 : List String)
      (options options2 : List ResponseOptions),
      convertToInput eng requests input options = ((input2, options2), none) →
        input2 = input ++ requests.map (fun r => r.Text) ∧
        options2 = options ++ requests.map
          (fun r => { qualityScores := false, alignment := false, html := r.Options.HTML }) := by
  intro requests
  induction requests with
  | nil =>
    intro input input2 options options2 h
    simp only [convertToInput, Prod.mk.injEq, and_true] at h
    simp [h.1, h.2]
  | cons r rs ih =>
    intro input input2 options options2 h
    simp only [convertToInput] at h
    split at h
    · simp at h
    · split at h
      · simp at h
      · obtain ⟨h1, h2⟩ := ih _ _ _ _ h
        simp [h1, h2]

/-! ### pool.go: construction -/

/-- Go `filesToBytes` fills the byte slices and leaves the configuration alone. -/
theorem filesToBytes_cfg (p : Pool) : (filesToBytes p).1.cfg = p.cfg := by
  unfold filesToBytes
  simp only
  split
  · rfl
  · split
    · rfl
    · split <;> rfl

/-- The joined error of `buildTranslators` is nil exactly when every
construction succeeded, and it matches what some failing construction's error
matches. -/
theorem Pool.buildTranslators_err (p : Pool) (env : NewPoolEnv) :
    ((p.buildTranslators env).2 = none ↔
      ∀ i, i < p.cfg.PoolSize → (p.buildTranslator env i).2 = none) ∧
    (∀ X : ErrorValue, errorsIs (p.buildTranslators env).2 X = true ↔
      ∃ i e, i < p.cfg.PoolSize ∧ (p.buildTranslator env i).2 = some e ∧ e.is X = true) := by
  unfold Pool.buildTranslators
  simp only
  constructor
  · rw [Errgroup.Wait_eq_none, Errgroup.ofTasks_spawned]
    simp only [List.mem_map, List.mem_range, forall_exists_index, and_imp]
    constructor
    · intro h i hi
      exact h _ _ i hi rfl rfl
    · rintro h t r i hi rfl rfl
      exact h i hi
  · intro X
    rw [Errgroup.errorsIs_Wait, Errgroup.ofTasks_spawned]
    simp only [List.mem_map, List.mem_range]
    constructor
    · rintro ⟨e, ⟨r, ⟨i, hi, rfl⟩, hr⟩, he⟩
      exact ⟨i, e, hi, hr, he⟩
    · rintro ⟨i, e, hi, hr, he⟩
      exact ⟨e, ⟨_, ⟨i, hi, rfl⟩, hr⟩, he⟩

/-! ### Claims -/

/-- C1. `Config.Validate` returns nil exactly when Model, Vocabulary and
LexicalShortlist are all non-nil, and for each of the three sentinels the
returned error matches it (`errors.Is`) exactly when the corresponding
resource is nil, so all missing resources are reported at once. -/
theorem Config.Validate_reports_every_missing_resource (cfg : Config) :
    (cfg.Validate = none ↔
      (cfg.Model.isSome ∧ cfg.Vocabulary.isSome ∧ cfg.LexicalShortlist.isSome)) ∧
    errorsIs cfg.Validate .ErrModelMissing = cfg.Model.isNone ∧
    errorsIs cfg.Validate .ErrVocabularyMissing = cfg.Vocabulary.isNone ∧
    errorsIs cfg.Validate .ErrLexicalShortlistMissing = cfg.LexicalShortlist.isNone := by
  rcases cfg with ⟨⟨m, l, v⟩, _, _⟩
  cases m <;> cases l <;> cases v <;>
    simp [Config.Validate, errorsJoin, errorsIs, GoError.is, GoError.isAny]

/-- C2. For every list of tasks started with `Errgroup.Go` and every order in
which they complete, `Errgroup.Wait` returns nil if and only if every task
returned nil. -/
theorem Errgroup.Wait_nil_iff_all_tasks_nil (tasks : List (Option GoError))
    (sched : List Nat) :
    (Errgroup.ofTasks tasks).Wait sched = none ↔ ∀ t ∈ tasks, t = none := by
  rw [Errgroup.Wait_eq_none, Errgroup.ofTasks_spawned]

/-- C3. For every list of tasks, every completion order and every target X, the
error returned by `Errgroup.Wait` matches X if and only if some task returned a
non-nil error that matches X.  In particular the tasks `[nil, E1, nil, E2, nil]`
give an error that matches E1 and E2 and nothing else, and a single failing
task gives an error that matches exactly what the task's error matches. -/
theorem Errgroup.Wait_matches_iff_some_task_matches (tasks : List (Option GoError))
    (sched : List Nat) (X : ErrorValue) :
    (errorsIs ((Errgroup.ofTasks tasks).Wait sched) X = true ↔
      ∃ e, some e ∈ tasks ∧ e.is X = true) ∧
    (∀ E1 E2 : ErrorValue,
      errorsIs ((Errgroup.ofTasks
        [none, some (.leaf E1), none, some (.leaf E2), none]).Wait sched) X = true ↔
          (X = E1 ∨ X = E2)) ∧
    (∀ e : GoError, errorsIs ((Errgroup.ofTasks [some e]).Wait sched) X = e.is X) := by
  refine ⟨?_, ?_, ?_⟩
  · rw [Errgroup.errorsIs_Wait, Errgroup.ofTasks_spawned]
  · intro E1 E2
    rw [Errgroup.errorsIs_Wait, Errgroup.ofTasks_spawned]
    constructor
    · rintro ⟨e, he, h⟩
      simp only [List.mem_cons, Option.some.injEq, List.mem_singleton, reduceCtorEq,
        false_or, or_false, List.not_mem_nil] at he
      rcases he with rfl | rfl
      · left; simpa [GoError.is, eq_comm] using h
      · right; simpa [GoError.is, eq_comm] using h
    · rintro (rfl | rfl)
      · exact ⟨.leaf X, by simp, by simp [GoError.is]⟩
      · exact ⟨.leaf X, by simp, by simp [GoError.is]⟩
  · intro e
    rw [Bool.eq_iff_iff, Errgroup.errorsIs_Wait, Errgroup.ofTasks_spawned]
    simp

/-- C4, counterexample. On a pool that `Close` has closed, a `TranslateMultiple`
whose context is already cancelled can take the `<-ctx.Done()` case of the
first `select`: the error wraps `context.Canceled` and does not match
`ErrClosed`. -/
theorem Pool.TranslateMultiple_after_Close_may_report_cancellation :
    examplePool.Close Context.background promptCloseEnv =
        .returned (closedExamplePool, none) ∧
      closedExamplePool.TranslateMultiple Context.canceled [{ Text := "Hello" }]
          secondCaseEnv =
        .returned ([], some (fmtErrorfW "did not found available worker" contextCanceled)) ∧
      errorsIs (some (fmtErrorfW "did not found available worker" contextCanceled))
          .ErrClosed = false :=
  ⟨rfl, rfl, by decide⟩

/-- C4, as amended. After a `Close` that returned, and whatever in-flight
requests the dispatch loops finish afterwards, every `Pool.TranslateMultiple`
and every `Pool.Translate` returns a non-nil error and no output; the error
matches `ErrClosed` or, when the caller's context is done, wraps the context's
error; it matches `ErrClosed` whenever the caller's context is not done. -/
theorem Pool.Translate_after_Close_fails (p p' : Pool) (cctx : Context) (cenv : CloseEnv)
    (cerr : Option GoError) (hclose : p.Close cctx cenv = .returned (p', cerr))
    (finished : List Nat) (ctx : Context) (requests : List TranslationRequest)
    (request : TranslationRequest) (env : TranslateEnv) :
    (∃ e : GoError,
      (finished.foldl Pool.finishRequest p').TranslateMultiple ctx requests env =
          .returned ([], some e) ∧
        (e.is .ErrClosed = true ∨
          ∃ c, ctx.err = some c ∧ e = fmtErrorfW "did not found available worker" c) ∧
        (ctx.err = none → e.is .ErrClosed = true)) ∧
    (∃ e : GoError,
      (finished.foldl Pool.finishRequest p').Translate ctx request env =
          .returned ("", some e) ∧
        (e.is .ErrClosed = true ∨
          ∃ c, ctx.err = some c ∧ e = fmtErrorfW "did not found available worker" c) ∧
        (ctx.err = none → e.is .ErrClosed = true)) := by
  have hq := Pool.foldl_finishRequest_Closed finished p'
    (Pool.Close_returned_Closed p p' cctx cenv cerr hclose)
  have key : ∀ reqs : List TranslationRequest, ∃ e : GoError,
      (finished.foldl Pool.finishRequest p').TranslateMultiple ctx reqs env =
          .returned ([], some e) ∧
        (e.is .ErrClosed = true ∨
          ∃ c, ctx.err = some c ∧ e = fmtErrorfW "did not found available worker" c) ∧
        (ctx.err = none → e.is .ErrClosed = true) := by
    intro reqs
    rcases Pool.TranslateMultiple_of_Closed _ hq ctx reqs env with h | ⟨c, hc, h⟩
    · exact ⟨_, h, Or.inl (by simp [fmtErrorfW, GoError.is]),
        fun _ => by simp [fmtErrorfW, GoError.is]⟩
    · exact ⟨_, h, Or.inr ⟨c, hc, rfl⟩, fun hn => by simp [hn] at hc⟩
  refine ⟨key requests, ?_⟩
  obtain ⟨e, h, h1, h2⟩ := key [request]
  exact ⟨e, by simp [Pool.Translate, h, firstTranslatedText], h1, h2⟩

/-- C4, the amended statement at a concrete pool: after `Close`, a call with a
live context fails with an error matching `ErrClosed`. -/
theorem Pool.Translate_after_Close_fails_witness :
    examplePool.Close Context.background promptCloseEnv =
        .returned (closedExamplePool, none) ∧
      ∃ e : GoError,
        closedExamplePool.TranslateMultiple Context.background [{ Text := "Hello" }]
            secondCaseEnv = .returned ([], some e) ∧
          e.is .ErrClosed = true := by
  refine ⟨rfl, ?_⟩
  obtain ⟨⟨e, h1, _, h3⟩, _⟩ :=
    Pool.Translate_after_Close_fails examplePool closedExamplePool Context.background
      promptCloseEnv none rfl [] Context.background [{ Text := "Hello" }] { Text := "Hello" }
      secondCaseEnv
  exact ⟨e, h1, h3 rfl⟩

/-- C5, counterexample. A second `Close` does not return: `close(p.done)` on the
channel the first `Close` closed panics. -/
theorem Pool.Close_twice_panics :
    examplePool.Close Context.background promptCloseEnv =
        .returned (closedExamplePool, none) ∧
      closedExamplePool.Close Context.background promptCloseEnv =
        .panicked "close of closed channel" :=
  ⟨rfl, rfl⟩

/-- C5, as amended. A first `Close` on an open pool returns once the dispatch
loops have returned or the context is done, and it flips the closed flag from
not-closed to closed; `Close` is not idempotent: every later `Close` panics in
`close(p.done)`, before anything else happens, so the flag makes no second
transition. -/
theorem Pool.Close_returns_once_then_panics (p : Pool) (ctx : Context) (env : CloseEnv)
    (hopen : p.done = false)
    (hready : ctx.err.isSome = true ∨ env.workersReturned = true) :
    ∃ (p' : Pool) (err : Option GoError),
      p.Close ctx env = .returned (p', err) ∧ p'.done = true ∧
        ∀ (ctx2 : Context) (env2 : CloseEnv),
          p'.Close ctx2 env2 = .panicked "close of closed channel" := by
  have hpanic : ∀ q : Pool, q.done = true → ∀ (ctx2 : Context) (env2 : CloseEnv),
      q.Close ctx2 env2 = .panicked "close of closed channel" := by
    intro q hq ctx2 env2
    simp [Pool.Close, hq]
  unfold Pool.Close
  simp only [hopen, Bool.false_eq_true, if_false]
  cases hc : ctx.err.isSome <;> cases hw : env.workersReturned
  · simp [hc, hw] at hready
  · exact ⟨_, _, by simp [goSelect]; exact ⟨rfl, rfl⟩, rfl, hpanic _ rfl⟩
  · exact ⟨_, _, by simp [goSelect]; exact ⟨rfl, rfl⟩, rfl, hpanic _ rfl⟩
  · rcases Nat.mod_two_eq_zero_or_one env.choice with h2 | h2
    · exact ⟨_, _, by simp [goSelect, h2]; exact ⟨rfl, rfl⟩, rfl, hpanic _ rfl⟩
    · exact ⟨_, _, by simp [goSelect, h2]; exact ⟨rfl, rfl⟩, rfl, hpanic _ rfl⟩

/-- C5, the amended statement at a concrete pool. -/
theorem Pool.Close_returns_once_then_panics_witness :
    examplePool.done = false ∧ promptCloseEnv.workersReturned = true ∧
      ∃ (p' : Pool) (err : Option GoError),
        examplePool.Close Context.background promptCloseEnv = .returned (p', err) ∧
          p'.done = true ∧
          ∀ (ctx2 : Context) (env2 : CloseEnv),
            p'.Close ctx2 env2 = .panicked "close of closed channel" :=
  ⟨rfl, rfl,
    Pool.Close_returns_once_then_panics examplePool Context.background promptCloseEnv rfl
      (Or.inr rfl)⟩

/-- C6, the code at the failing input. The source reports `Len() = 100`, so
`size` resolves 100; its `Bytes()` holds 90 bytes.  `fillByteArrayView` on a
view of 100 bytes takes the `readerWithBytes` branch, copies 90 bytes, leaves
the last 10 bytes of the view as they were and returns nil.  The same data
without `Bytes()` goes through `io.Copy` and is reported as a short write. -/
theorem fillByteArrayView_direct_copy_is_unchecked :
    (alignedMemoryFile.size { Reader := some shortBytesSource, Alignment := 64 }).1.size = 100 ∧
      (alignedMemoryFile.size { Reader := some shortBytesSource, Alignment := 64 }).1.err = none ∧
      (fillByteArrayView (List.replicate 100 0) shortBytesSource 100).err = none ∧
      (fillByteArrayView (List.replicate 100 0) shortBytesSource 100).copied = 90 ∧
      (fillByteArrayView (List.replicate 100 0) shortBytesSource 100).view =
        List.replicate 90 1 ++ List.replicate 10 0 ∧
      (fillByteArrayView (List.replicate 100 0) shortStreamSource 100).err =
        some (.leaf (.text "only wrote %d/%d bytes")) := by
  refine ⟨by decide, rfl, rfl, by decide, by decide, rfl⟩

theorem toUint64_of_nonneg (L : Int) (h0 : 0 ≤ L) (h63 : L < 2 ^ 63) :
    toUint64 L = L.toNat := by
  unfold toUint64
  rw [Int.emod_eq_of_lt h0 (by omega)]

theorem alignedMemoryFile.sizeCheck_too_large (n : Nat) (h : maxUint32 < n) :
    (alignedMemoryFile.sizeCheck n).err = some (.leaf (.text "file with size %d too large")) := by
  simp [alignedMemoryFile.sizeCheck, h]

theorem alignedMemoryFile.sizeCheck_fits (n : Nat) (h : n ≤ maxUint32) :
    (alignedMemoryFile.sizeCheck n).size = n ∧ (alignedMemoryFile.sizeCheck n).err = none := by
  have h1 : ¬ n > maxUint32 := by omega
  have h3 : n < 4294967296 := by
    unfold maxUint32 at h
    omega
  have h2 : n % 4294967296 = n := Nat.mod_eq_of_lt h3
  simp [alignedMemoryFile.sizeCheck, h1, toUint32, h2]

/-- The result pair of `size` on a source whose length resolves to `L`. -/
theorem alignedMemoryFile.size_of_ResolvesLength (f : alignedMemoryFile)
    (reader : Gobergamot.Reader)
    (L : Int) (hr : f.Reader = some reader) (hL : reader.ResolvesLength L)
    (h0 : 0 ≤ L) (h63 : L < 2 ^ 63) :
    f.size.1 = alignedMemoryFile.sizeCheck L.toNat := by
  unfold alignedMemoryFile.size
  cases hL with
  | len h => simp [hr, h, toUint64_of_nonneg L h0 h63]
  | seek s hlen hs hend hstart =>
    simp [hr, hlen, hs, hend, hstart, toUint64_of_nonneg L h0 h63]
  | read hlen hs herr hL =>
    subst hL
    simp [hr, hlen, hs, herr, toUint64_of_nonneg _ h0 h63]

/-- C7. For a non-nil source whose length `L` is obtained without read or seek
failure, `alignedMemoryFile.size` returns the "file too large" error when
`L > 2^32 - 1`, and otherwise exactly `L` with a nil error (no truncation
modulo 2^32); a nil Reader always gives an error. -/
theorem alignedMemoryFile.size_exact_or_too_large (f : alignedMemoryFile)
    (reader : Gobergamot.Reader)
    (L : Int) (hr : f.Reader = some reader) (hL : reader.ResolvesLength L)
    (h0 : 0 ≤ L) (h63 : L < 2 ^ 63) :
    ((maxUint32 : Int) < L →
      f.size.1.err = some (.leaf (.text "file with size %d too large"))) ∧
    (L ≤ (maxUint32 : Int) → f.size.1.size = L.toNat ∧ f.size.1.err = none) ∧
    (∀ alignment : Nat,
      (alignedMemoryFile.size { Reader := none, Alignment := alignment }).1.err ≠ none) := by
  rw [alignedMemoryFile.size_of_ResolvesLength f reader L hr hL h0 h63]
  refine ⟨fun h => ?_, fun h => ?_, fun a => ?_⟩
  · exact alignedMemoryFile.sizeCheck_too_large _ (by omega)
  · exact alignedMemoryFile.sizeCheck_fits _ (by omega)
  · simp [alignedMemoryFile.size]

/-- C7 at a concrete source: a buffer of three bytes resolves to size 3. -/
theorem alignedMemoryFile.size_exact_or_too_large_witness :
    (alignedMemoryFile.size { Reader := some (bytesNewBuffer [1, 2, 3]), Alignment := 64 }).1.size
        = 3 ∧
      (alignedMemoryFile.size { Reader := some (bytesNewBuffer [1, 2, 3]), Alignment := 64 }).1.err
        = none :=
  (alignedMemoryFile.size_exact_or_too_large
    { Reader := some (bytesNewBuffer [1, 2, 3]), Alignment := 64 } (bytesNewBuffer [1, 2, 3]) 3
    rfl (.len rfl) (by decide) (by decide)).2.1 (by decide)

/-- C8. Under the engine's contract of one response per input, a
`Translator.TranslateMultiple` that succeeds on N requests returns exactly N
strings, the i-th being the translated text of the i-th element of the
response vector the engine gave for the N texts in request order; for
`processResponse` succeeds exactly on a readable Response vector and returns
its elements' translated texts in index order 0..n-1, none dropped,
duplicated or reordered. -/
theorem Translator.TranslateMultiple_one_output_per_request_in_order (t : Translator)
    (requests : List TranslationRequest) (out : List String)
    (hengine : t.engine.OneResponsePerInput)
    (h : t.TranslateMultiple requests = .ok out) :
    out.length = requests.length ∧
    (∃ v : ClassVectorResponse,
      t.engine.translate (requests.map (fun r => r.Text))
          (requests.map (fun r =>
            { qualityScores := false, alignment := false, html := r.Options.HTML })) =
        .ok (.vectorResponse v) ∧
      ∀ i, i < requests.length → v.get i = .ok (.response (.ok (out.getD i "")))) ∧
    (∀ (resp : ClassBase) (texts : List String),
      processResponse resp = .ok texts ↔
        ∃ (v : ClassVectorResponse) (n : Nat), resp = .vectorResponse v ∧ v.size = .ok n ∧
          texts.length = n ∧
          ∀ i, i < n → v.get i = .ok (.response (.ok (texts.getD i "")))) := by
  refine ⟨?_, ?_, processResponse_eq_ok⟩
  all_goals
    unfold Translator.TranslateMultiple at h
    cases h1 : t.engine.newVectorString with
    | some e => simp [h1] at h
    | none =>
      cases h2 : t.engine.newVectorResponseOptions with
      | some e => simp [h1, h2] at h
      | none =>
        simp only [h1, h2] at h
        cases hc : convertToInput t.engine requests [] [] with
        | mk vectors cerr =>
          obtain ⟨input, options⟩ := vectors
          cases cerr with
          | some e => simp [hc] at h
          | none =>
            obtain ⟨hin, hopt⟩ := convertToInput_eq_ok t.engine requests [] input [] options hc
            simp only [List.nil_append] at hin hopt
            simp only [hc] at h
            cases ht : t.engine.translate input options with
            | error e => simp [ht] at h
            | ok resp =>
              simp only [ht] at h
              obtain ⟨v, n, hv, hn, hlen, hall⟩ := (processResponse_eq_ok resp out).mp h
              subst hv
              have hsz := hengine input options v ht
              rw [hn] at hsz
              have hn2 : n = requests.length := by
                have := Except.ok.inj hsz
                simpa [hin] using this
              subst hin hopt
              first
                | exact hlen.trans hn2
                | exact ⟨v, ht, fun i hi => hall i (by omega)⟩

/-- C8 at a concrete engine: two requests, two outputs, in order. -/
theorem Translator.TranslateMultiple_one_output_per_request_in_order_witness :
    echoTranslator.engine.OneResponsePerInput ∧
      echoTranslator.TranslateMultiple [{ Text := "Hello" }, { Text := "World" }] =
        .ok ["Hello", "World"] ∧
      ["Hello", "World"].length = 2 := by
  have hengine : echoTranslator.engine.OneResponsePerInput := by
    intro input options v hv
    simp only [echoTranslator, echoEngine, Except.ok.injEq, ClassBase.vectorResponse.injEq] at hv
    rw [← hv]
  exact ⟨hengine, rfl,
    (Translator.TranslateMultiple_one_output_per_request_in_order echoTranslator
      [{ Text := "Hello" }, { Text := "World" }] ["Hello", "World"] hengine rfl).1⟩

/-- C9. `Translator.Translate` and `Pool.Translate` return the first element of
the batch result when the batch call succeeds with at least one output, the
batch error unchanged (with an empty string) when it fails, and a non-nil
error with an empty string when the batch call succeeds with zero outputs. -/
theorem Translate_returns_first_of_batch (request : TranslationRequest) :
    (∀ t : Translator,
      t.Translate request =
        match t.TranslateMultiple [request] with
        | .error e => ("", some e)
        | .ok [] =>
          ("", some (.leaf (.text "expected translated texts to have at least 1 element")))
        | .ok (first :: _) => (first, none)) ∧
    (∀ (p : Pool) (ctx : Context) (env : TranslateEnv),
      p.Translate ctx request env =
        match p.TranslateMultiple ctx [request] env with
        | .returned (_, some e) => .returned ("", some e)
        | .returned ([], none) =>
          .returned
            ("", some (.leaf (.text "expected translated texts to have at least 1 element")))
        | .returned (first :: _, none) => .returned (first, none)
        | .blocked => .blocked
        | .panicked msg => .panicked msg) := by
  constructor
  · intro t
    unfold Translator.Translate
    cases h : t.TranslateMultiple [request] with
    | error e => simp [batchPair, firstTranslatedText]
    | ok outputs => cases outputs <;> simp [batchPair, firstTranslatedText]
  · intro p ctx env
    unfold Pool.Translate
    cases h : p.TranslateMultiple ctx [request] env with
    | blocked => simp
    | panicked msg => simp
    | returned value =>
      obtain ⟨outputs, err⟩ := value
      cases err with
      | some e => simp [firstTranslatedText]
      | none => cases outputs <;> simp [firstTranslatedText]

/-- C10. Once validation has passed and the three resources have been read, so
that the PoolSize constructions run: if at least one construction fails, then
whatever the order of completion `NewPool` returns a nil Pool and a non-nil
error, starts no dispatch loop, and the error matches (`errors.Is`) everything
that the error of any failing construction matches; a non-nil Pool is returned
only when all PoolSize constructions succeeded. -/
theorem NewPool_fails_with_every_construction_error (cfg : PoolConfig) (env : NewPoolEnv)
    (hval : cfg.Validate = none) (hfiles : (filesToBytes (Pool.initial cfg)).2 = none) :
    ((∃ i, i < cfg.PoolSize ∧
        ((filesToBytes (Pool.initial cfg)).1.buildTranslator env i).2 ≠ none) →
      (NewPool cfg env).pool = none ∧ (NewPool cfg env).launched = 0 ∧
        (NewPool cfg env).err ≠ none ∧
        ∀ (i : Nat) (e : GoError), i < cfg.PoolSize →
          ((filesToBytes (Pool.initial cfg)).1.buildTranslator env i).2 = some e →
            ∀ X : ErrorValue, e.is X = true → errorsIs (NewPool cfg env).err X = true) ∧
    ((NewPool cfg env).pool ≠ none →
      ∀ i, i < cfg.PoolSize →
        ((filesToBytes (Pool.initial cfg)).1.buildTranslator env i).2 = none) := by
  have hcfg := filesToBytes_cfg (Pool.initial cfg)
  cases hf : filesToBytes (Pool.initial cfg) with
  | mk p ferr =>
    rw [hf] at hfiles hcfg
    simp only at hfiles hcfg
    subst hfiles
    have hsize : p.cfg.PoolSize = cfg.PoolSize := by rw [hcfg]; rfl
    obtain ⟨hnil, hmatch⟩ := Pool.buildTranslators_err p env
    rw [hsize] at hnil
    simp only [hsize] at hmatch
    cases hb : p.buildTranslators env with
    | mk translators berr =>
      rw [hb] at hnil hmatch
      simp only at hnil hmatch
      cases berr with
      | none =>
        constructor
        · rintro ⟨i, hi, hne⟩
          exact absurd (hnil.mp rfl i hi) hne
        · intro _ i hi
          exact hnil.mp rfl i hi
      | some e0 =>
        have hnew : NewPool cfg env =
            { pool := none, err := some (fmtErrorfW "failed to setup translators" e0),
              launched := 0, filesRead := true, constructions := p.cfg.PoolSize } := by
          unfold NewPool
          simp only [hval, hf, hb]
        rw [hnew]
        constructor
        · intro _
          refine ⟨rfl, rfl, by simp, ?_⟩
          intro i e hi he X hX
          have := (hmatch X).mpr ⟨i, e, hi, he, hX⟩
          simpa [errorsIs, fmtErrorfW, GoError.is] using this
        · intro h
          simp at h

/-- C10 at a concrete configuration: two workers, the construction of the
first one fails; no Pool, no dispatch loop, and the error matches the failure. -/
theorem NewPool_fails_with_every_construction_error_witness :
    examplePoolConfig.Validate = none ∧
      (filesToBytes (Pool.initial examplePoolConfig)).2 = none ∧
      (NewPool examplePoolConfig failingBuildEnv).pool = none ∧
      (NewPool examplePoolConfig failingBuildEnv).launched = 0 ∧
      errorsIs (NewPool examplePoolConfig failingBuildEnv).err (.other 7) = true := by
  have hfail : ((filesToBytes (Pool.initial examplePoolConfig)).1.buildTranslator
      failingBuildEnv 0).2 = some constructionFailure := rfl
  have h := (NewPool_fails_with_every_construction_error examplePoolConfig failingBuildEnv
    rfl rfl).1 ⟨0, by decide, by rw [hfail]; simp⟩
  exact ⟨rfl, rfl, h.1, h.2.1,
    h.2.2.2 0 constructionFailure (by decide) hfail (.other 7) (by decide)⟩

/-- C12. `PoolConfig.Validate` returns nil if and only if `PoolSize >= 1` and
the embedded `Config.Validate` returns nil; with `PoolSize = 0` the error is
non-nil and matches everything the error of `Config.Validate` matches (so
every missing-resource sentinel it reports), and `NewPool` then returns a nil
Pool with that error, having neither called `filesToBytes` nor spawned a
construction nor started a dispatch loop. -/
theorem PoolConfig.Validate_nil_iff_and_zero_size (cfg : PoolConfig) (env : NewPoolEnv) :
    (cfg.Validate = none ↔ (1 ≤ cfg.PoolSize ∧ cfg.toConfig.Validate = none)) ∧
    (cfg.PoolSize = 0 →
      cfg.Validate ≠ none ∧
      (∀ X : ErrorValue,
        errorsIs cfg.toConfig.Validate X = true → errorsIs cfg.Validate X = true) ∧
      (NewPool cfg env).pool = none ∧ (NewPool cfg env).err = cfg.Validate ∧
      (NewPool cfg env).filesRead = false ∧ (NewPool cfg env).constructions = 0 ∧
      (NewPool cfg env).launched = 0) := by
  constructor
  · unfold PoolConfig.Validate
    by_cases h0 : cfg.PoolSize = 0
    · simp [h0, errorsJoin]
    · have h1 : 1 ≤ cfg.PoolSize := Nat.one_le_iff_ne_zero.mpr h0
      simp only [h0, if_false, errorsJoin_pair_eq_none, true_and, h1]
  · intro h0
    have hne : cfg.Validate ≠ none := by
      unfold PoolConfig.Validate
      simp [h0, errorsJoin]
    refine ⟨hne, ?_, ?_⟩
    · intro X hX
      unfold PoolConfig.Validate
      simp only [errorsIs_errorsJoin_pair, hX, Bool.or_true]
    · cases hv : cfg.Validate with
      | none => exact absurd hv hne
      | some e => simp [NewPool, hv]

/-- C12 at a concrete configuration: pool size 0 and no vocabulary. -/
theorem PoolConfig.Validate_nil_iff_and_zero_size_witness :
    zeroSizePoolConfig.PoolSize = 0 ∧
      zeroSizePoolConfig.Validate ≠ none ∧
      errorsIs zeroSizePoolConfig.Validate .ErrVocabularyMissing = true ∧
      (NewPool zeroSizePoolConfig failingBuildEnv).pool = none ∧
      (NewPool zeroSizePoolConfig failingBuildEnv).filesRead = false := by
  have h := (PoolConfig.Validate_nil_iff_and_zero_size zeroSizePoolConfig failingBuildEnv).2 rfl
  exact ⟨rfl, h.1, h.2.1 .ErrVocabularyMissing (by decide), h.2.2.1, h.2.2.2.2.1⟩

/-- C14. `Translator.Close` makes its teardown calls in the fixed order delete
model, delete service, close runtime; it returns the error of the first call
that fails and makes none of the calls after it; it returns nil only if all
three calls succeeded. -/
theorem Translator.Close_steps_in_order (t : Translator) :
    t.closeSteps.2 = t.Close ∧
    t.closeSteps.1 <+: [CloseStep.deleteModel, CloseStep.deleteService, CloseStep.closeRuntime] ∧
    (∀ e, t.engine.deleteModel = some e →
      t.Close = some e ∧ t.closeSteps.1 = [CloseStep.deleteModel]) ∧
    (∀ e, t.engine.deleteModel = none → t.engine.deleteService = some e →
      t.Close = some e ∧ t.closeSteps.1 = [CloseStep.deleteModel, CloseStep.deleteService]) ∧
    (t.engine.deleteModel = none → t.engine.deleteService = none →
      t.Close = t.engine.closeRuntime ∧
      t.closeSteps.1 =
        [CloseStep.deleteModel, CloseStep.deleteService, CloseStep.closeRuntime]) ∧
    (t.Close = none ↔
      (t.engine.deleteModel = none ∧ t.engine.deleteService = none ∧
        t.engine.closeRuntime = none)) := by
  unfold Translator.Close Translator.closeSteps
  cases hm : t.engine.deleteModel with
  | some e =>
    simp only [Option.some.injEq, reduceCtorEq, false_and, iff_false, not_false_eq_true,
      and_true, forall_eq', IsEmpty.forall_iff, implies_true, true_and]
    exact ⟨[CloseStep.deleteService, CloseStep.closeRuntime], rfl⟩
  | none =>
    cases hs : t.engine.deleteService with
    | some e =>
      simp only [Option.some.injEq, reduceCtorEq, false_and, and_false, iff_false,
        not_false_eq_true, and_true, forall_eq', IsEmpty.forall_iff, implies_true, true_and,
        forall_const]
      exact ⟨[CloseStep.closeRuntime], rfl⟩
    | none => simp

/-- C14 at a concrete engine: deleting the service fails, the runtime is not closed. -/
theorem Translator.Close_steps_in_order_witness :
    ({ engine := stuckServiceEngine, cfg := exampleConfig } : Translator).Close =
        some (.leaf (.other 3)) ∧
      ({ engine := stuckServiceEngine, cfg := exampleConfig } : Translator).closeSteps.1 =
        [CloseStep.deleteModel, CloseStep.deleteService] :=
  (Translator.Close_steps_in_order { engine := stuckServiceEngine, cfg := exampleConfig }).2.2.2.1
    (.leaf (.other 3)) rfl rfl

/-- Every Translator `buildTranslators` hands out keeps the options map of the
pool's Config when that map is non-nil. -/
theorem Pool.buildTranslator_options (p : Pool) (env : NewPoolEnv) (i : Nat) (t : Translator)
    (m : BergamotOptionsMap) (hm : p.cfg.BergamotOptions = some m)
    (h : (p.buildTranslator env i).1 = some t) : t.cfg.BergamotOptions = some m := by
  unfold Pool.buildTranslator New at h
  simp only at h
  split at h
  · cases h
  · split at h
    · cases h
    · simp only [Option.some.injEq] at h
      subst h
      simp [Config.withDefaultOptions, hm]

/-- C15, counterexample. The map of `DefaultBergamotOptions` does not disable
alignment: its entry `alignment` is the string `soft` (marian then returns
soft alignments), neither absent nor `false`. -/
theorem DefaultBergamotOptions_alignment_is_soft :
    DefaultBergamotOptions.lookup "alignment" = some (.string "soft") ∧
      DefaultBergamotOptions.lookup "alignment" ≠ none ∧
      DefaultBergamotOptions.lookup "alignment" ≠ some (.bool false) := by
  have h : DefaultBergamotOptions.lookup "alignment" = some (.string "soft") := by decide
  exact ⟨h, by rw [h]; simp, by rw [h]; simp⟩

/-- C15, as amended. The map returned by `DefaultBergamotOptions` has beam size
1, normalization 1.0, max length break 128, mini-batch words 1024, workspace
128, gemm precision `int8shiftAll`, tied embeddings enabled, alignment set to
`soft`, word penalty 0, max length factor 2.0 and skip-cost true, and no
other entry (none for quality scoring); `New` and `NewPool` use exactly this
map when `Config.BergamotOptions` is nil: it is the map of the Config the
Translator keeps, of the pool's Config and of every worker's Translator. -/
theorem DefaultBergamotOptions_values_and_use :
    DefaultBergamotOptions.lookup "beam-size" = some (.uint32 1) ∧
    DefaultBergamotOptions.lookup "normalize" = some (.float64 1) ∧
    DefaultBergamotOptions.lookup "max-length-break" = some (.uint32 128) ∧
    DefaultBergamotOptions.lookup "mini-batch-words" = some (.uint32 1024) ∧
    DefaultBergamotOptions.lookup "workspace" = some (.uint32 128) ∧
    DefaultBergamotOptions.lookup "gemm-precision" = some (.string "int8shiftAll") ∧
    DefaultBergamotOptions.lookup "tied-embedding-all" = some (.bool true) ∧
    DefaultBergamotOptions.lookup "alignment" = some (.string "soft") ∧
    DefaultBergamotOptions.lookup "word-penalty" = some (.uint32 0) ∧
    DefaultBergamotOptions.lookup "max-length-factor" = some (.float64 2) ∧
    DefaultBergamotOptions.lookup "skip-cost" = some (.bool true) ∧
    DefaultBergamotOptions.map (fun entry => entry.1) =
      ["beam-size", "normalize", "word-penalty", "alignment", "max-length-break",
        "mini-batch-words", "workspace", "max-length-factor", "skip-cost", "gemm-precision",
        "tied-embedding-all"] ∧
    (∀ (cfg : Config) (build : Except GoError Engine) (t : Translator),
      cfg.BergamotOptions = none → (New cfg build).1 = some t →
        t.cfg.BergamotOptions = some DefaultBergamotOptions) ∧
    (∀ (cfg : PoolConfig) (env : NewPoolEnv) (p : Pool),
      cfg.BergamotOptions = none → (NewPool cfg env).pool = some p →
        p.cfg.BergamotOptions = some DefaultBergamotOptions ∧
        ∀ w ∈ p.workers, w.translator.cfg.BergamotOptions = some DefaultBergamotOptions) := by
  refine ⟨by decide, by decide, by decide, by decide, by decide, by decide, by decide,
    by decide, by decide, by decide, by decide, by decide, ?_, ?_⟩
  · intro cfg build t hnil h
    unfold New at h
    simp only at h
    split at h
    · cases h
    · split at h
      · cases h
      · simp only [Option.some.injEq] at h
        subst h
        simp [Config.withDefaultOptions, hnil]
  · intro cfg env p hnil h
    have hinit : (Pool.initial cfg).cfg.BergamotOptions = some DefaultBergamotOptions := by
      simp [Pool.initial, Config.withDefaultOptions, hnil]
    unfold NewPool at h
    split at h
    · cases h
    · split at h
      · cases h
      · rename_i q hf
        have hq : q.cfg.BergamotOptions = some DefaultBergamotOptions := by
          have := filesToBytes_cfg (Pool.initial cfg)
          rw [hf] at this
          simp only at this
          rw [this]; exact hinit
        split at h
        · cases h
        · rename_i translators hb
          simp only [Option.some.injEq] at h
          subst h
          refine ⟨hq, ?_⟩
          intro w hw
          simp only [List.mem_map, List.mem_filterMap, id_eq, exists_eq_right] at hw
          obtain ⟨t, ht, rfl⟩ := hw
          have htr : translators = (List.range q.cfg.PoolSize).map
              (fun i => (q.buildTranslator env i).1) := by
            have := congrArg Prod.fst hb
            simpa [Pool.buildTranslators] using this.symm
          rw [htr] at ht
          simp only [List.mem_map, List.mem_range] at ht
          obtain ⟨i, _, hi⟩ := ht
          exact Pool.buildTranslator_options q env i t _ hq hi

/-- C15 at a concrete configuration: a Translator built from a Config without
options keeps the default map. -/
theorem DefaultBergamotOptions_values_and_use_witness :
    exampleConfig.BergamotOptions = none ∧
      (New exampleConfig (.ok echoEngine)).1 =
        some { engine := echoEngine, cfg := exampleConfig.withDefaultOptions } ∧
      exampleConfig.withDefaultOptions.BergamotOptions = some DefaultBergamotOptions :=
  ⟨rfl, rfl,
    DefaultBergamotOptions_values_and_use.2.2.2.2.2.2.2.2.2.2.2.2.1 exampleConfig
      (.ok echoEngine) _ rfl rfl⟩

/-- C18. `alignedMemoryFile.size` picks its strategy by strict preference.  A
source with `Len()` is sized from `Len()` and only `Len` is called: the file
and its source are left as they were.  Otherwise a seekable source is sized
as the offset of `Seek(0, io.SeekEnd)` and then sought back to the start,
nothing being read: it delivers its whole content afterwards.  Only a source
with neither capability is read to the end into a fresh buffer: the size is
the number of bytes buffered and `f.Reader` is that buffer.  (The size is
the value named whenever it fits 32 bits, as `sizeCheck` tells.) -/
theorem alignedMemoryFile.size_strategy_by_preference (f : alignedMemoryFile)
    (reader : Gobergamot.Reader) (hr : f.Reader = some reader) :
    (∀ l : Int, reader.lenMethod = some l →
      f.size.1 = alignedMemoryFile.sizeCheck (toUint64 l) ∧
      f.sizeCalls = [SourceCall.Len] ∧ f.size.2 = f) ∧
    (∀ (s : Seeker) (n : Int), reader.lenMethod = none → reader.seeker = some s →
      s.seekEnd = .ok n → s.seekStart = none →
      f.size.1 = alignedMemoryFile.sizeCheck (toUint64 n) ∧
      f.sizeCalls = [SourceCall.SeekEnd, SourceCall.SeekStart] ∧
      f.size.2.Reader = some { reader with unread := s.content } ∧
      (0 ≤ n → n ≤ (maxUint32 : Int) → f.size.1.size = n.toNat ∧ f.size.1.err = none)) ∧
    (reader.lenMethod = none → reader.seeker = none → reader.readErr = none →
      f.size.1 = alignedMemoryFile.sizeCheck (toUint64 (reader.unread.length : Int)) ∧
      f.sizeCalls = [SourceCall.ReadAll] ∧
      f.size.2.Reader = some (bytesNewBuffer reader.unread) ∧
      (reader.unread.length ≤ maxUint32 →
        f.size.1.size = reader.unread.length ∧ f.size.1.err = none)) := by
  refine ⟨?_, ?_, ?_⟩
  · intro l hl
    simp [alignedMemoryFile.size, alignedMemoryFile.sizeCalls, hr, hl]
  · intro s n hl hs hend hstart
    refine ⟨by simp [alignedMemoryFile.size, hr, hl, hs, hend, hstart],
      by simp [alignedMemoryFile.sizeCalls, hr, hl, hs, hend],
      by simp [alignedMemoryFile.size, hr, hl, hs, hend, hstart], ?_⟩
    intro h0 hmax
    have h63 : n < 2 ^ 63 := by
      unfold maxUint32 at hmax
      omega
    have hsz : f.size.1 = alignedMemoryFile.sizeCheck (toUint64 n) := by
      simp [alignedMemoryFile.size, hr, hl, hs, hend, hstart]
    rw [hsz, toUint64_of_nonneg n h0 h63]
    exact alignedMemoryFile.sizeCheck_fits _ (by omega)
  · intro hl hs herr
    refine ⟨by simp [alignedMemoryFile.size, hr, hl, hs, herr],
      by simp [alignedMemoryFile.sizeCalls, hr, hl, hs],
      by simp [alignedMemoryFile.size, hr, hl, hs, herr], ?_⟩
    intro hmax
    have hsz : f.size.1 =
        alignedMemoryFile.sizeCheck (toUint64 (reader.unread.length : Int)) := by
      simp [alignedMemoryFile.size, hr, hl, hs, herr]
    have h63 : (reader.unread.length : Int) < 2 ^ 63 := by
      unfold maxUint32 at hmax
      omega
    rw [hsz, toUint64_of_nonneg _ (Int.natCast_nonneg _) h63]
    simpa using alignedMemoryFile.sizeCheck_fits reader.unread.length hmax

/-- C18 at a concrete source: a seekable stream of four bytes that has been
half read is sized 4 by two seeks and delivers all four bytes afterwards. -/
theorem alignedMemoryFile.size_strategy_by_preference_witness :
    (alignedMemoryFile.size { Reader := some halfReadStream, Alignment := 64 }).1.size = 4 ∧
      (alignedMemoryFile.size { Reader := some halfReadStream, Alignment := 64 }).1.err = none :=
  ((alignedMemoryFile.size_strategy_by_preference
    { Reader := some halfReadStream, Alignment := 64 } halfReadStream rfl).2.1
      { seekEnd := .ok 4, seekStart := none, content := [1, 2, 3, 4] } 4 rfl rfl rfl rfl).2.2.2
    (by decide) (by decide)

/-- When every push succeeds, `convertToInput` appends the text of every request
and one option record per request, in request order, and returns nil. -/
theorem convertToInput_all_pushed (eng : Engine)
    (hstr : ∀ (k : Nat) (text : String), eng.pushString k text = none)
    (hopt : ∀ (k : Nat) (o : ResponseOptions), eng.pushOptions k o = none) :
    ∀ (requests : List TranslationRequest) (input : List String)
      (options : List ResponseOptions),
      convertToInput eng requests input options =
        ((input ++ requests.map (fun r => r.Text),
          options ++ requests.map
            (fun r => { qualityScores := false, alignment := false, html := r.Options.HTML })),
          none) := by
  intro requests
  induction requests with
  | nil => intro input options; simp [convertToInput]
  | cons r rs ih =>
    intro input options
    simp [convertToInput, hstr, hopt, ih]

/-- When `convertToInput` returns an error, it is the error of the first push
that failed, and nothing was pushed after it. -/
theorem convertToInput_first_failure (eng : Engine) :
    ∀ (requests : List TranslationRequest) (input input2 : List String)
      (options options2 : List ResponseOptions) (e : GoError),
      convertToInput eng requests input options = ((input2, options2), some e) →
        ∃ (k : Nat) (r : TranslationRequest), requests.get? k = some r ∧
          (∀ (j : Nat) (rj : TranslationRequest), j < k → requests.get? j = some rj →
            eng.pushString (input.length + j) rj.Text = none ∧
            eng.pushOptions (options.length + j)
              { qualityScores := false, alignment := false, html := rj.Options.HTML } = none) ∧
          options2 = options ++ (requests.take k).map
            (fun r => { qualityScores := false, alignment := false, html := r.Options.HTML }) ∧
          ((eng.pushString (input.length + k) r.Text = some e ∧
              input2 = input ++ (requests.take k).map (fun r => r.Text)) ∨
            (eng.pushString (input.length + k) r.Text = none ∧
              eng.pushOptions (options.length + k)
                { qualityScores := false, alignment := false, html := r.Options.HTML } = some e ∧
              input2 = input ++ (requests.take (k + 1)).map (fun r => r.Text))) := by
  intro requests
  induction requests with
  | nil =>
    intro input input2 options options2 e h
    simp [convertToInput] at h
  | cons r rs ih =>
    intro input input2 options options2 e h
    simp only [convertToInput] at h
    cases hs : eng.pushString input.length r.Text with
    | some e1 =>
      simp only [hs, Prod.mk.injEq, Option.some.injEq] at h
      obtain ⟨⟨rfl, rfl⟩, rfl⟩ := h
      exact ⟨0, r, rfl, fun j rj hj => absurd hj (Nat.not_lt_zero j), by simp,
        Or.inl ⟨by simpa using hs, by simp⟩⟩
    | none =>
      simp only [hs] at h
      cases ho : eng.pushOptions options.length
          { qualityScores := false, alignment := false, html := r.Options.HTML } with
      | some e1 =>
        simp only [ho, Prod.mk.injEq, Option.some.injEq] at h
        obtain ⟨⟨rfl, rfl⟩, rfl⟩ := h
        exact ⟨0, r, rfl, fun j rj hj => absurd hj (Nat.not_lt_zero j), by simp,
          Or.inr ⟨by simpa using hs, by simpa using ho, by simp⟩⟩
      | none =>
        simp only [ho] at h
        obtain ⟨k, rk, hk, hbefore, hopts, hcase⟩ := ih _ _ _ _ _ h
        refine ⟨k + 1, rk, by simpa using hk, ?_, ?_, ?_⟩
        · intro j rj hj hget
          cases j with
          | zero =>
            simp only [List.get?_cons_zero, Option.some.injEq] at hget
            subst hget
            exact ⟨by simpa using hs, by simpa using ho⟩
          | succ i =>
            have := hbefore i rj (by omega) (by simpa using hget)
            simpa [Nat.add_assoc, Nat.add_comm 1 i] using this
        · simp [hopts]
        · rcases hcase with ⟨h1, h2⟩ | ⟨h1, h2, h3⟩
          · left
            exact ⟨by simpa [Nat.add_assoc, Nat.add_comm 1 k] using h1, by simp [h2]⟩
          · right
            exact ⟨by simpa [Nat.add_assoc, Nat.add_comm 1 k] using h1,
              by simpa [Nat.add_assoc, Nat.add_comm 1 k] using h2, by simp [h3]⟩

/-- C19. With all engine push operations succeeding, `convertToInput` on N
requests appends exactly N texts to the input vector and exactly N option
records to the options vector, in request order, the i-th text being
`requests[i].Text` and the i-th record having `qualityScores = false`,
`alignment = false` and `html = requests[i].Options.HTML`, and returns nil.
When it returns an error, that error is the one of the first push that
failed (the text push or the record push of some request `k`, every push
before it having succeeded), and nothing was pushed after it. -/
theorem convertToInput_appends_in_order (eng : Engine) (requests : List TranslationRequest)
    (input : List String) (options : List ResponseOptions) :
    ((∀ (k : Nat) (text : String), eng.pushString k text = none) →
      (∀ (k : Nat) (o : ResponseOptions), eng.pushOptions k o = none) →
      convertToInput eng requests input options =
        ((input ++ requests.map (fun r => r.Text),
          options ++ requests.map
            (fun r => { qualityScores := false, alignment := false, html := r.Options.HTML })),
          none)) ∧
    (∀ (input2 : List String) (options2 : List ResponseOptions) (e : GoError),
      convertToInput eng requests input options = ((input2, options2), some e) →
        ∃ (k : Nat) (r : TranslationRequest), requests.get? k = some r ∧
          (∀ (j : Nat) (rj : TranslationRequest), j < k → requests.get? j = some rj →
            eng.pushString (input.length + j) rj.Text = none ∧
            eng.pushOptions (options.length + j)
              { qualityScores := false, alignment := false, html := rj.Options.HTML } = none) ∧
          options2 = options ++ (requests.take k).map
            (fun r => { qualityScores := false, alignment := false, html := r.Options.HTML }) ∧
          ((eng.pushString (input.length + k) r.Text = some e ∧
              input2 = input ++ (requests.take k).map (fun r => r.Text)) ∨
            (eng.pushString (input.length + k) r.Text = none ∧
              eng.pushOptions (options.length + k)
                { qualityScores := false, alignment := false, html := r.Options.HTML } = some e ∧
              input2 = input ++ (requests.take (k + 1)).map (fun r => r.Text)))) :=
  ⟨fun hstr hopt => convertToInput_all_pushed eng hstr hopt requests input options,
    fun input2 options2 e h =>
      convertToInput_first_failure eng requests input input2 options options2 e h⟩

/-- C19 at a concrete engine: two requests, the second one with HTML. -/
theorem convertToInput_appends_in_order_witness :
    convertToInput echoEngine
        [{ Text := "Hello" }, { Text := "<b>World</b>", Options := { HTML := true } }] [] [] =
      ((["Hello", "<b>World</b>"],
        [{ qualityScores := false, alignment := false, html := false },
          { qualityScores := false, alignment := false, html := true }]), none) :=
  (convertToInput_appends_in_order echoEngine
    [{ Text := "Hello" }, { Text := "<b>World</b>", Options := { HTML := true } }] [] []).1
    (fun _ _ => rfl) (fun _ _ => rfl)

theorem goCopy_same_length (dst src : List Byte) (h : dst.length = src.length) :
    goCopy dst src = src := by
  unfold goCopy
  rw [h, List.take_length, List.drop_eq_nil_of_le (Nat.le_of_eq h)]
  simp

/-- A length below 2^63 that passes the check of `size` is returned unchanged. -/
theorem alignedMemoryFile.sizeCheck_length (len n : Nat) (hint : len < 2 ^ 63)
    (herr : (alignedMemoryFile.sizeCheck (toUint64 (len : Int))).err = none)
    (hn : (alignedMemoryFile.sizeCheck (toUint64 (len : Int))).size = n) : len = n := by
  have h63 : (len : Int) < 2 ^ 63 := by exact_mod_cast hint
  rw [toUint64_of_nonneg _ (Int.natCast_nonneg _) h63] at herr hn
  simp only [Int.toNat_ofNat] at herr hn
  by_cases hlt : len ≤ maxUint32
  · rw [← hn, (alignedMemoryFile.sizeCheck_fits len hlt).1]
  · have := alignedMemoryFile.sizeCheck_too_large len (by omega)
    rw [this] at herr
    cases herr

theorem Reader.piece_le (r : Gobergamot.Reader) (rem : Nat) : r.piece rem ≤ rem := by
  unfold Reader.piece
  split
  · exact Nat.le_refl _
  · exact Nat.min_le_left _ _

theorem Reader.piece_pos (r : Gobergamot.Reader) (rem : Nat) (h : rem ≠ 0) : 0 < r.piece rem := by
  unfold Reader.piece
  split
  · omega
  · rename_i k _
    have : 1 ≤ max k 1 := Nat.le_max_right _ _
    omega

/-- At the end of the source nothing more is written. -/
theorem ioCopyInPlace_rem_zero (cap : Nat) (input : Gobergamot.Reader) (fuel len : Nat) :
    ioCopyInPlace cap input fuel len 0 = len := by
  cases fuel with
  | zero => rfl
  | succ fuel => simp [ioCopyInPlace]

theorem ioCopyInPlace_fuel_irrelevant (cap : Nat) (input : Gobergamot.Reader)
    (fuel1 fuel2 len rem : Nat) (h1 : rem ≤ fuel1) (h2 : rem ≤ fuel2) :
    ioCopyInPlace cap input fuel1 len rem = ioCopyInPlace cap input fuel2 len rem := by
  induction fuel1 generalizing fuel2 len rem with
  | zero =>
    have hrem : rem = 0 := by omega
    subst hrem
    rw [ioCopyInPlace_rem_zero, ioCopyInPlace_rem_zero]
  | succ fuel1 ih =>
    cases fuel2 with
    | zero =>
      have hrem : rem = 0 := by omega
      subst hrem
      rw [ioCopyInPlace_rem_zero, ioCopyInPlace_rem_zero]
    | succ fuel2 =>
      by_cases hrem : rem = 0
      · subst hrem
        rw [ioCopyInPlace_rem_zero, ioCopyInPlace_rem_zero]
      · have hpos := input.piece_pos rem hrem
        have hle := input.piece_le rem
        simp only [ioCopyInPlace, hrem, if_false]
        split
        · split
          · exact ih fuel2 _ _ (by omega) (by omega)
          · rfl
        · split
          · rename_i hroom
            have hm : 0 < min (cap - len) (input.piece rem) := by
              simp only [bytesMinRead] at hroom
              omega
            exact ih fuel2 _ _ (by omega) (by omega)
          · rfl

/-- The fuel of `ioCopyInPlace` never runs out: with at least `rem` of it the
result is the same as with `rem`. -/
theorem ioCopyInPlace_fuel (cap : Nat) (input : Gobergamot.Reader) (fuel len rem : Nat)
    (h : rem ≤ fuel) :
    ioCopyInPlace cap input fuel len rem = ioCopyInPlace cap input rem len rem :=
  ioCopyInPlace_fuel_irrelevant cap input fuel rem len rem h (Nat.le_refl _)

/-- Without `WriteTo`, a storage of fewer than `bytes.MinRead` bytes receives
nothing: the first `grow(MinRead)` of `ReadFrom` moves the buffer. -/
theorem ioCopyInPlace_of_small (cap : Nat) (input : Gobergamot.Reader) (fuel rem : Nat)
    (hw : input.writerTo = false) (hcap : cap < bytesMinRead) :
    ioCopyInPlace cap input fuel 0 rem = 0 := by
  cases fuel with
  | zero => rfl
  | succ fuel =>
    simp only [ioCopyInPlace, hw, Bool.false_eq_true, if_false]
    rw [if_neg (by omega)]

/-- A source that hands over all it is given room for fills the storage with
all its bytes, when they fit, if it has `WriteTo` or if the storage has at
least `bytes.MinRead` bytes. -/
theorem ioCopyInPlace_of_room (cap : Nat) (input : Gobergamot.Reader) (rem : Nat)
    (hlimit : input.readLimit = none) (hfit : rem ≤ cap)
    (hroom : input.writerTo = true ∨ bytesMinRead ≤ cap) :
    ioCopyInPlace cap input rem 0 rem = rem := by
  cases rem with
  | zero => rfl
  | succ k =>
    have hpiece : input.piece (k + 1) = k + 1 := by simp [Reader.piece, hlimit]
    by_cases hw : input.writerTo = true
    · simp only [ioCopyInPlace, hw, if_true, hpiece]
      rw [if_neg (by omega), if_pos (by omega)]
      simp [ioCopyInPlace_rem_zero]
    · have hmin : bytesMinRead ≤ cap := by
        rcases hroom with h | h
        · exact absurd h hw
        · exact h
      have hm : min (cap - 0) (k + 1) = k + 1 := by
        rw [Nat.sub_zero]
        exact Nat.min_eq_right hfit
      have h0 : 0 + bytesMinRead ≤ cap := by omega
      simp only [ioCopyInPlace, hw, if_false, hpiece, h0, if_true, hm]
      simp [ioCopyInPlace_rem_zero]

/-- The view after the `io.Copy` branch of `fillByteArrayView`. -/
theorem fillByteArrayView_stream_view (view : List Byte) (input : Gobergamot.Reader)
    (size spare : Nat) (hb : input.bytesMethod = none) :
    (fillByteArrayView view input size spare).view =
      goCopy view (input.unread.take
        (ioCopyInPlace (view.length + spare) input input.unread.length 0
          input.unread.length)) := by
  simp only [fillByteArrayView, hb]
  split
  · rfl
  · split <;> rfl

/-- A `*bytes.Buffer` holding as many bytes as the view: the direct copy
fills the view with them and nil is returned. -/
theorem fillByteArrayView_of_buffer (view data : List Byte) (size spare : Nat)
    (hview : view.length = data.length) :
    (fillByteArrayView view (bytesNewBuffer data) size spare).err = none ∧
      (fillByteArrayView view (bytesNewBuffer data) size spare).copied = data.length ∧
      (fillByteArrayView view (bytesNewBuffer data) size spare).view = data := by
  refine ⟨?_, ?_, ?_⟩
  · simp [fillByteArrayView, bytesNewBuffer]
  · simp [fillByteArrayView, bytesNewBuffer, hview]
  · simp only [fillByteArrayView, bytesNewBuffer]
    exact goCopy_same_length view data hview

/-- A source without `Bytes()` that delivers exactly `n` bytes, copied through
`io.Copy` over a view of `n` bytes: `written` equals `n` and nil is returned.
The view holds all the bytes when the source hands over all it is given room
for and either has `WriteTo` or the view has a capacity of at least
`bytes.MinRead`; without `WriteTo` and with a capacity below `bytes.MinRead`
the view is left as it was. -/
theorem fillByteArrayView_of_stream (view : List Byte) (input : Gobergamot.Reader)
    (n spare : Nat) (hb : input.bytesMethod = none) (herr : input.readErr = none)
    (hl : input.unread.length = n) (hview : view.length = n) :
    (fillByteArrayView view input n spare).err = none ∧
      (fillByteArrayView view input n spare).copied = n ∧
      (input.readLimit = none → (input.writerTo = true ∨ bytesMinRead ≤ n + spare) →
        (fillByteArrayView view input n spare).view = input.unread) ∧
      (input.writerTo = false → n + spare < bytesMinRead →
        (fillByteArrayView view input n spare).view = view) := by
  refine ⟨?_, ?_, ?_, ?_⟩
  · simp [fillByteArrayView, hb, herr, hl]
  · simp [fillByteArrayView, hb, herr, hl]
  · intro hlimit hroom
    rw [fillByteArrayView_stream_view view input n spare hb, hl, hview,
      ioCopyInPlace_of_room (n + spare) input n hlimit (by omega) hroom, ← hl,
      List.take_length]
    exact goCopy_same_length view input.unread (by rw [hview, hl])
  · intro hw hsmall
    rw [fillByteArrayView_stream_view view input n spare hb, hl, hview,
      ioCopyInPlace_of_small (n + spare) input n n hw hsmall]
    simp [goCopy]

/-- Size resolution and fill agree on the count.  For a `*bytes.Buffer`, a
reader reporting its unread length through `Len()`, a seekable stream at any
current position, or a plain reader: when `alignedMemoryFile.size` succeeds
with result `n`, the source `f.Reader` then holds delivers exactly `n` bytes,
and a following `fillByteArrayView` over a view of length `n` takes `n` bytes
out of it and reports no short write.  The view holds exactly those bytes
when the source has `Bytes()` (the direct copy), and on the `io.Copy` path when
the source hands over all it is given room for and either has `WriteTo` or
the view has a capacity of at least `bytes.MinRead`.  On the `io.Copy` path
without `WriteTo`, a view of a capacity below `bytes.MinRead` is left as it
was. -/
theorem alignedMemoryFile.size_then_fill_no_short_write (f : alignedMemoryFile)
    (reader : Gobergamot.Reader) (n : Nat) (view : List Byte) (spare : Nat)
    (hr : f.Reader = some reader) (hkind : reader.Consistent)
    (herr : f.size.1.err = none) (hn : f.size.1.size = n) (hview : view.length = n) :
    ∃ source : Gobergamot.Reader, f.size.2.Reader = some source ∧
      source.unread.length = n ∧
      (fillByteArrayView view source n spare).err = none ∧
      (fillByteArrayView view source n spare).copied = n ∧
      (source.bytesMethod ≠ none →
        (fillByteArrayView view source n spare).view = source.unread) ∧
      (source.bytesMethod = none → source.readLimit = none →
        (source.writerTo = true ∨ bytesMinRead ≤ n + spare) →
        (fillByteArrayView view source n spare).view = source.unread) ∧
      (source.bytesMethod = none → source.writerTo = false → n + spare < bytesMinRead →
        (fillByteArrayView view source n spare).view = view) := by
  cases hkind with
  | buffer data h hint =>
    subst h
    have hsz : f.size = (alignedMemoryFile.sizeCheck (toUint64 (data.length : Int)), f) := by
      simp [alignedMemoryFile.size, hr, bytesNewBuffer]
    rw [hsz] at herr hn
    have hlen := alignedMemoryFile.sizeCheck_length data.length n hint herr hn
    obtain ⟨h1, h2, h3⟩ := fillByteArrayView_of_buffer view data n spare (by rw [hview, hlen])
    exact ⟨bytesNewBuffer data, by rw [hsz]; exact hr, hlen, h1, by rw [h2, hlen],
      fun _ => h3, fun hb => by simp [bytesNewBuffer] at hb,
      fun hb => by simp [bytesNewBuffer] at hb⟩
  | lenReader hlen hbytes herr2 hint =>
    have hsz : f.size =
        (alignedMemoryFile.sizeCheck (toUint64 (reader.unread.length : Int)), f) := by
      simp [alignedMemoryFile.size, hr, hlen]
    rw [hsz] at herr hn
    have hl := alignedMemoryFile.sizeCheck_length reader.unread.length n hint herr hn
    obtain ⟨h1, h2, h3, h4⟩ := fillByteArrayView_of_stream view reader n spare hbytes herr2 hl hview
    exact ⟨reader, by rw [hsz]; exact hr, hl, h1, h2, fun hb => absurd hbytes hb,
      fun _ => h3, fun _ => h4⟩
  | seekable s hlen hbytes hs hend hstart herr2 hint =>
    have hsz : f.size =
        (alignedMemoryFile.sizeCheck (toUint64 (s.content.length : Int)),
          { f with Reader := some { reader with unread := s.content } }) := by
      simp [alignedMemoryFile.size, hr, hlen, hs, hend, hstart]
    rw [hsz] at herr hn
    have hl := alignedMemoryFile.sizeCheck_length s.content.length n hint herr hn
    obtain ⟨h1, h2, h3, h4⟩ := fillByteArrayView_of_stream view
      { reader with unread := s.content } n spare hbytes herr2 hl hview
    exact ⟨{ reader with unread := s.content }, by rw [hsz], hl, h1, h2,
      fun hb => absurd hbytes hb, fun _ => h3, fun _ => h4⟩
  | plain hlen hs herr2 hint =>
    have hsz : f.size =
        (alignedMemoryFile.sizeCheck (toUint64 (reader.unread.length : Int)),
          { f with Reader := some (bytesNewBuffer reader.unread) }) := by
      simp [alignedMemoryFile.size, hr, hlen, hs, herr2]
    rw [hsz] at herr hn
    have hl := alignedMemoryFile.sizeCheck_length reader.unread.length n hint herr hn
    obtain ⟨h1, h2, h3⟩ :=
      fillByteArrayView_of_buffer view reader.unread n spare (by rw [hview, hl])
    exact ⟨bytesNewBuffer reader.unread, by rw [hsz], hl, h1, by rw [h2, hl],
      fun _ => h3, fun hb => by simp [bytesNewBuffer] at hb,
      fun hb => by simp [bytesNewBuffer] at hb⟩

/-- C20. The fill of a view by `io.Copy` can leave the view unfilled while nil
is returned.  For the seekable stream of four bytes `halfReadStream` (no
`Len`, no `Bytes`, no `WriteTo`), `alignedMemoryFile.size` succeeds with 4 and
leaves the source at its start, where it delivers the four bytes 1, 2, 3, 4.
The following `fillByteArrayView` over a view of four zero bytes (capacity 4)
reads the four bytes and returns nil, and the view still holds four zero
bytes: the first `grow(MinRead)` of `ReadFrom` finds fewer than 512 free bytes
and moves the buffer off the view. -/
theorem fillByteArrayView_stream_copy_leaves_small_view_unfilled :
    (alignedMemoryFile.size { Reader := some halfReadStream, Alignment := 64 }).1.size = 4 ∧
      (alignedMemoryFile.size { Reader := some halfReadStream, Alignment := 64 }).1.err = none ∧
      ∃ source : Gobergamot.Reader,
        (alignedMemoryFile.size { Reader := some halfReadStream, Alignment := 64 }).2.Reader =
          some source ∧
        source.unread = [1, 2, 3, 4] ∧
        (fillByteArrayView [0, 0, 0, 0] source 4).err = none ∧
        (fillByteArrayView [0, 0, 0, 0] source 4).copied = 4 ∧
        (fillByteArrayView [0, 0, 0, 0] source 4).view = [0, 0, 0, 0] :=
  ⟨rfl, rfl, _, rfl, rfl, rfl, rfl, rfl⟩

/-- A view of 1000 bytes filled through `io.Copy` from `shortReadsSource`, which
hands over 300 bytes per `Read`: all 1000 bytes are read and nil is returned,
and the view holds the first 600 of them, the buffer having left the view
before the third `Read`. -/
theorem fillByteArrayView_short_reads_fill_part :
    (fillByteArrayView (List.replicate 1000 0) shortReadsSource 1000).err = none ∧
      (fillByteArrayView (List.replicate 1000 0) shortReadsSource 1000).copied = 1000 ∧
      (fillByteArrayView (List.replicate 1000 0) shortReadsSource 1000).view =
        List.replicate 600 1 ++ List.replicate 400 0 := by
  have hunread : shortReadsSource.unread = List.replicate 1000 1 := rfl
  have hlen : shortReadsSource.unread.length = 1000 := by
    rw [hunread, List.length_replicate]
  have hin : ioCopyInPlace 1000 shortReadsSource 1000 0 1000 = 600 := by decide
  have hcount := fillByteArrayView_of_stream (List.replicate 1000 0) shortReadsSource 1000 0
    rfl rfl hlen (List.length_replicate 1000 0)
  refine ⟨hcount.1, hcount.2.1, ?_⟩
  · rw [fillByteArrayView_stream_view _ _ _ _ rfl, hlen, List.length_replicate, Nat.add_zero,
      hin, hunread, goCopy, List.take_replicate, List.take_replicate, List.drop_replicate,
      List.length_replicate, List.length_replicate]
    rfl

theorem goSelect_mem {α : Type} (cases : List (Bool × α)) (choice : Nat) (a : α)
    (h : goSelect cases choice = some a) : (true, a) ∈ cases := by
  unfold goSelect at h
  split at h
  · cases h
  · rename_i r rs hready
    simp only [Option.some.injEq] at h
    have hmem : a ∈ r :: rs := by
      rw [← h, List.getD_eq_getElem?_getD]
      have hlt : choice % (rs.length + 1) < (r :: rs).length := by
        simp only [List.length_cons]; exact Nat.mod_lt _ (Nat.succ_pos _)
      rw [List.getElem?_eq_getElem hlt]
      exact List.getElem_mem hlt
    rw [← hready] at hmem
    simp only [List.mem_map, List.mem_filter] at hmem
    obtain ⟨⟨b, a2⟩, ⟨hm, hb⟩, rfl⟩ := hmem
    simp only at hb
    subst hb
    exact hm

/-- C11. Every return of `Pool.TranslateMultiple` goes through exactly one of
three returns, the one `Pool.returnPath` names: (a) the reply, which is the
pair of outputs and error that the Translator of one dispatch loop of the
pool returned for this very batch, unchanged; (b) an error matching
`ErrClosed` with no output, only if the closed signal was raised; (c) an
error matching what the caller context's error matches with no output, only
if the caller's context was done.  Losing the hand-off race or the reply race
to pool-closed gives (b), losing it to cancellation gives (c); the call stays
blocked exactly when no case of the `select` it is in can proceed. -/
theorem Pool.TranslateMultiple_returns_reply_closed_or_cancelled (p : Pool) (ctx : Context)
    (requests : List TranslationRequest) (env : TranslateEnv) :
    (∀ (outputs : List String) (err : Option GoError),
      p.TranslateMultiple ctx requests env = .returned (outputs, err) →
        (p.returnPath ctx env = some .reply ∧
          ∃ w ∈ p.waiting,
            (outputs, err) = batchPair (w.translator.TranslateMultiple requests)) ∨
        (p.returnPath ctx env = some .closed ∧ outputs = [] ∧
          errorsIs err .ErrClosed = true ∧ (p.done = true ∨ env.doneLater = true)) ∨
        (p.returnPath ctx env = some .cancelled ∧ outputs = [] ∧
          ∃ c : GoError, (ctx.err = some c ∨ env.ctxLater = some c) ∧
            ∀ X : ErrorValue, c.is X = true → errorsIs err X = true)) ∧
    ((p.handOffSelect ctx env = some .done ∨
        (p.handOffSelect ctx env = some .comm ∧ p.replySelect ctx env = some .done)) →
      p.returnPath ctx env = some .closed ∧
      ∃ e : GoError, p.TranslateMultiple ctx requests env = .returned ([], some e) ∧
        e.is .ErrClosed = true) ∧
    ((p.handOffSelect ctx env = some .ctxDone ∨
        (p.handOffSelect ctx env = some .comm ∧ p.replySelect ctx env = some .ctxDone)) →
      p.returnPath ctx env = some .cancelled ∧
      ∃ (msg : String) (c : GoError), (ctx.err = some c ∨ env.ctxLater = some c) ∧
        p.TranslateMultiple ctx requests env = .returned ([], some (fmtErrorfW msg c))) ∧
    (p.TranslateMultiple ctx requests env = .blocked ↔ p.returnPath ctx env = none) := by
  have hcomm : p.handOffSelect ctx env = some .comm → ∃ w ws, p.waiting = w :: ws := by
    intro h
    have := goSelect_mem _ _ _ h
    simp only [List.mem_cons, Prod.mk.injEq, reduceCtorEq, and_false, false_or,
      List.mem_singleton, and_true, List.not_mem_nil, or_false] at this
    cases hw : p.waiting with
    | nil => simp [hw] at this
    | cons w ws => exact ⟨w, ws, rfl⟩
  have hctx1 : p.handOffSelect ctx env = some .ctxDone → ∃ c, ctx.err = some c := by
    intro h
    have := goSelect_mem _ _ _ h
    simp only [List.mem_cons, Prod.mk.injEq, reduceCtorEq, and_false, false_or,
      List.mem_singleton, and_true, List.not_mem_nil, or_false] at this
    exact Option.isSome_iff_exists.mp this.symm
  have hdone1 : p.handOffSelect ctx env = some .done → p.done = true := by
    intro h
    have := goSelect_mem _ _ _ h
    simp only [List.mem_cons, Prod.mk.injEq, reduceCtorEq, and_false, false_or,
      List.mem_singleton, and_true, List.not_mem_nil, or_false] at this
    exact this.symm
  have hctx2 : p.replySelect ctx env = some .ctxDone →
      ∃ c, ctx.err.orElse (fun _ => env.ctxLater) = some c ∧
        (ctx.err = some c ∨ env.ctxLater = some c) := by
    intro h
    have := goSelect_mem _ _ _ h
    simp only [List.mem_cons, Prod.mk.injEq, reduceCtorEq, and_false, false_or,
      List.mem_singleton, and_true, List.not_mem_nil, or_false] at this
    obtain ⟨c, hc⟩ := Option.isSome_iff_exists.mp this.symm
    refine ⟨c, hc, ?_⟩
    cases hce : ctx.err with
    | none => right; simpa [hce, Option.orElse] using hc
    | some c2 => left; simpa [hce, Option.orElse] using hc
  have hdone2 : p.replySelect ctx env = some .done → (p.done = true ∨ env.doneLater = true) := by
    intro h
    have := goSelect_mem _ _ _ h
    simp only [List.mem_cons, Prod.mk.injEq, reduceCtorEq, and_false, false_or,
      List.mem_singleton, and_true, List.not_mem_nil, or_false] at this
    simpa [Bool.or_eq_true] using this.symm
  have hunfold : p.TranslateMultiple ctx requests env =
      match p.handOffSelect ctx env with
      | none => .blocked
      | some .done =>
        .returned ([], some (fmtErrorfW "did not found available worker" (.leaf .ErrClosed)))
      | some .ctxDone =>
        match ctx.err with
        | some e => .returned ([], some (fmtErrorfW "did not found available worker" e))
        | none => .blocked
      | some .comm =>
        match p.waiting with
        | [] => .blocked
        | w :: ws =>
          match p.replySelect ctx env with
          | none => .blocked
          | some .done =>
            .returned ([], some (fmtErrorfW "failed to wait response" (.leaf .ErrClosed)))
          | some .ctxDone =>
            match ctx.err.orElse (fun _ => env.ctxLater) with
            | some e => .returned ([], some (fmtErrorfW "failed to wait response" e))
            | none => .blocked
          | some .comm =>
            .returned (batchPair
              (((w :: ws).getD (env.worker % (ws.length + 1)) w).translator.TranslateMultiple
                requests)) := by
    unfold Pool.TranslateMultiple Pool.handOffSelect Pool.replySelect
    rfl
  have hgetD : ∀ (w : Worker) (ws : List Worker) (k : Nat),
      (w :: ws).getD (k % (ws.length + 1)) w ∈ w :: ws := by
    intro w ws k
    rw [List.getD_eq_getElem?_getD]
    have hlt : k % (ws.length + 1) < (w :: ws).length := by
      simp only [List.length_cons]; exact Nat.mod_lt _ (Nat.succ_pos _)
    rw [List.getElem?_eq_getElem hlt]
    exact List.getElem_mem hlt
  rw [hunfold]
  unfold Pool.returnPath
  cases h1 : p.handOffSelect ctx env with
  | none => simp
  | some c1 =>
    cases c1 with
    | done =>
      have hd := hdone1 h1
      simp [hd, errorsIs, fmtErrorfW, GoError.is]
    | ctxDone =>
      obtain ⟨c, hc⟩ := hctx1 h1
      simp only [hc]
      refine ⟨?_, by simp, ?_, by simp⟩
      · intro outputs err h
        simp only [Outcome.returned.injEq, Prod.mk.injEq] at h
        obtain ⟨rfl, rfl⟩ := h
        right; right
        exact ⟨trivial, rfl, c, Or.inl rfl, fun X hX => by simpa [errorsIs, fmtErrorfW, GoError.is]⟩
      · intro _
        exact ⟨trivial, _, c, Or.inl rfl, rfl⟩
    | comm =>
      obtain ⟨w, ws, hw⟩ := hcomm h1
      simp only [hw]
      cases h2 : p.replySelect ctx env with
      | none => simp
      | some c2 =>
        cases c2 with
        | done =>
          have hd := hdone2 h2
          simp [hd, errorsIs, fmtErrorfW, GoError.is]
        | ctxDone =>
          obtain ⟨c, hc, hsrc⟩ := hctx2 h2
          simp only [hc]
          refine ⟨?_, by simp, ?_, by simp⟩
          · intro outputs err h
            simp only [Outcome.returned.injEq, Prod.mk.injEq] at h
            obtain ⟨rfl, rfl⟩ := h
            right; right
            exact ⟨trivial, rfl, c, hsrc,
              fun X hX => by simpa [errorsIs, fmtErrorfW, GoError.is]⟩
          · intro _
            exact ⟨trivial, _, c, hsrc, rfl⟩
        | comm =>
          refine ⟨?_, by simp, by simp, by simp⟩
          intro outputs err h
          simp only [Outcome.returned.injEq] at h
          left
          exact ⟨rfl, _, hgetD w ws env.worker, h.symm⟩

/-- C11 at a concrete pool: the closed pool loses the hand-off race to
pool-closed. -/
theorem Pool.TranslateMultiple_returns_reply_closed_or_cancelled_witness :
    closedExamplePool.handOffSelect Context.background secondCaseEnv = some .done ∧
      closedExamplePool.returnPath Context.background secondCaseEnv = some .closed ∧
      ∃ e : GoError,
        closedExamplePool.TranslateMultiple Context.background [{ Text := "Hello" }]
            secondCaseEnv = .returned ([], some e) ∧
          e.is .ErrClosed = true :=
  ⟨rfl,
    (Pool.TranslateMultiple_returns_reply_closed_or_cancelled closedExamplePool
      Context.background [{ Text := "Hello" }] secondCaseEnv).2.1 (Or.inl rfl)⟩

theorem growModuleMemory.sum_bundleOfSizes (s1 s2 s3 : Nat) :
    growModuleMemory.sum (bundleOfSizes s1 s2 s3) =
      (((0 + s1) % 2 ^ 32 + s2) % 2 ^ 32 + s3) % 2 ^ 32 := by
  simp [growModuleMemory.sum, bundleOfSizes, newAlignedMemoryDataBundle,
    alignedMemoryInfo.isEmpty]

/-- As long as the sum of the three sizes fits 32 bits, `growModuleMemory`
requests no growth when the memory covers the sum and otherwise the least
number of pages that covers the shortfall. -/
theorem growModuleMemory_exact_without_wrap (s1 s2 s3 A : Nat) (hsum : s1 + s2 + s3 < 2 ^ 32)
    (hA : A < 2 ^ 32) :
    (s1 + s2 + s3 ≤ A → growModuleMemory A (bundleOfSizes s1 s2 s3) = none) ∧
    (A < s1 + s2 + s3 →
      ∃ p, growModuleMemory A (bundleOfSizes s1 s2 s3) = some p ∧
        s1 + s2 + s3 - A ≤ p * 65536 ∧ (p - 1) * 65536 < s1 + s2 + s3 - A) := by
  have hs : growModuleMemory.sum (bundleOfSizes s1 s2 s3) = s1 + s2 + s3 := by
    rw [growModuleMemory.sum_bundleOfSizes]
    norm_num at hsum ⊢
    omega
  unfold growModuleMemory
  simp only [hs, wasmMemoryPageSize]
  constructor
  · intro h
    simp [h]
  · intro h
    have hnot : ¬ A ≥ s1 + s2 + s3 := by omega
    simp only [hnot, if_false]
    norm_num at hsum hA ⊢
    have hr : (s1 + s2 + s3 + 4294967296 - A) % 4294967296 = s1 + s2 + s3 - A := by omega
    rw [hr]
    have hm : (s1 + s2 + s3 - A) / 65536 * 65536 % 4294967296 =
        (s1 + s2 + s3 - A) / 65536 * 65536 := by omega
    rw [hm]
    split
    · refine ⟨?_, ?_⟩ <;> omega
    · refine ⟨?_, ?_⟩ <;> omega

/-- C16, the code at the failing input. With resolved sizes 2^31, 2^31 and 0 the
`uint32` sum of `growModuleMemory` wraps around to 0: on a memory of one page
(65536 bytes) the function requests no growth although the true sum 2^32 is
not covered.  With sizes 3000000000, 3000000000 and 0 on an empty memory it
requests 26017 pages, which cover 1705050112 bytes and not the 6000000000
needed. -/
theorem growModuleMemory_sum_wraps_around :
    growModuleMemory.sum (bundleOfSizes 2147483648 2147483648 0) = 0 ∧
      growModuleMemory 65536 (bundleOfSizes 2147483648 2147483648 0) = none ∧
      65536 < 2147483648 + 2147483648 + 0 ∧
      growModuleMemory 0 (bundleOfSizes 3000000000 3000000000 0) = some 26017 ∧
      26017 * 65536 < 3000000000 + 3000000000 + 0 - 0 := by
  refine ⟨by decide, by decide, by decide, by decide, by decide⟩

/-! ### translator.go: the bundle loader -/

/-- Whatever the schedule, every goroutine completes exactly once. -/
theorem completionOrder_perm {α : Type} : ∀ (sched : List Nat) (pending : List α),
    (completionOrder pending sched).Perm pending := by
  intro sched
  induction sched with
  | nil => intro pending; cases pending <;> simp [completionOrder]
  | cons s sched ih =>
    intro pending
    cases pending with
    | nil => simp [completionOrder]
    | cons p ps =>
      simp only [completionOrder]
      have hi : s % (ps.length + 1) < (p :: ps).length := by
        simp only [List.length_cons]; exact Nat.mod_lt _ (Nat.succ_pos _)
      generalize s % (ps.length + 1) = i at hi
      exact (List.Perm.cons _ (ih ((p :: ps).eraseIdx i))).trans
        (getD_cons_eraseIdx_perm p (p :: ps) i hi)

theorem alignedMemoriesBundle.mem_spawned (bundle : alignedMemoriesBundle) (i : Nat)
    (info : alignedMemoryInfo) :
    (i, info) ∈ bundle.spawned ↔ bundle[i]? = some info ∧ info.isEmpty = false := by
  simp [alignedMemoriesBundle.spawned, List.mk_mem_enum_iff_getElem?]

/-- A list of operations that all belong to one phase is in phase order. -/
theorem pairwise_phase_of_same (k : Nat) (l : List LoaderOp) (h : ∀ op ∈ l, op.phase = k) :
    l.Pairwise (fun a b => a.phase ≤ b.phase) := by
  induction l with
  | nil => exact List.Pairwise.nil
  | cons x xs ih =>
    refine List.Pairwise.cons ?_ (ih (fun op hop => h op (List.mem_cons_of_mem _ hop)))
    intro b hb
    rw [h x (List.mem_cons_self _ _), h b (List.mem_cons_of_mem _ hb)]

theorem enrichBundleWithSizes_log (bundle : alignedMemoriesBundle) (sched : List Nat) :
    (∀ op ∈ (enrichBundleWithSizes bundle sched).log, op.phase = 1) ∧
    ((enrichBundleWithSizes bundle sched).err = none →
      ∀ op ∈ (enrichBundleWithSizes bundle sched).log, op.failed = false) ∧
    (∀ (i : Nat) (info : alignedMemoryInfo), bundle[i]? = some info → info.isEmpty = false →
      ∃ failed, LoaderOp.size i failed ∈ (enrichBundleWithSizes bundle sched).log) := by
  unfold enrichBundleWithSizes
  simp only
  refine ⟨?_, ?_, ?_⟩
  · intro op hop
    simp only [List.mem_map] at hop
    obtain ⟨t, _, rfl⟩ := hop
    rfl
  · intro herr op hop
    rw [Errgroup.Wait_eq_none, Errgroup.ofTasks_spawned] at herr
    simp only [List.mem_map] at hop
    obtain ⟨t, ht, rfl⟩ := hop
    have ht2 := (completionOrder_perm sched _).mem_iff.mp ht
    have := herr t.2 (List.mem_map_of_mem (fun t => t.2) ht2)
    simp [LoaderOp.failed, this]
  · intro i info hget hne
    have hmem := (alignedMemoriesBundle.mem_spawned bundle i info).mpr ⟨hget, hne⟩
    refine ⟨(info.resolveSize.2).isSome, ?_⟩
    simp only [List.mem_map]
    refine ⟨(i, info.resolveSize.2), ?_, rfl⟩
    apply (completionOrder_perm sched _).mem_iff.mpr
    exact List.mem_map_of_mem (fun entry => (entry.1, entry.2.resolveSize.2)) hmem

theorem fillBundleViews_log (bundle : alignedMemoriesBundle) (sched : List Nat) :
    (∀ op ∈ (fillBundleViews bundle sched).log, op.phase = 5) ∧
    ((fillBundleViews bundle sched).err = none →
      ∀ op ∈ (fillBundleViews bundle sched).log, op.failed = false) ∧
    (∀ (i : Nat) (info : alignedMemoryInfo), bundle[i]? = some info → info.isEmpty = false →
      ∃ failed, LoaderOp.fill i failed ∈ (fillBundleViews bundle sched).log) := by
  unfold fillBundleViews
  simp only
  refine ⟨?_, ?_, ?_⟩
  · intro op hop
    simp only [List.mem_map] at hop
    obtain ⟨t, _, rfl⟩ := hop
    rfl
  · intro herr op hop
    rw [Errgroup.Wait_eq_none, Errgroup.ofTasks_spawned] at herr
    simp only [List.mem_map] at hop
    obtain ⟨t, ht, rfl⟩ := hop
    have ht2 := (completionOrder_perm sched _).mem_iff.mp ht
    have := herr t.2 (List.mem_map_of_mem (fun t => t.2) ht2)
    simp [LoaderOp.failed, this]
  · intro i info hget hne
    have hmem := (alignedMemoriesBundle.mem_spawned bundle i info).mpr ⟨hget, hne⟩
    refine ⟨(info.fillView.2).isSome, ?_⟩
    simp only [List.mem_map]
    refine ⟨(i, info.fillView.2), ?_, rfl⟩
    apply (completionOrder_perm sched _).mem_iff.mpr
    exact List.mem_map_of_mem (fun entry => (entry.1, entry.2.fillView.2)) hmem

theorem allocateFrom_log (eng : LoaderEngine) :
    ∀ (rest : alignedMemoriesBundle) (i : Nat),
      (∀ op ∈ (allocateFrom eng i rest).log,
        ∃ idx failed, op = LoaderOp.allocate idx failed ∧ i ≤ idx) ∧
      ((allocateFrom eng i rest).log.filterMap LoaderOp.allocateIndex).Pairwise (· < ·) ∧
      ((allocateFrom eng i rest).err = none →
        (∀ op ∈ (allocateFrom eng i rest).log, op.failed = false) ∧
        ∀ (j : Nat) (info : alignedMemoryInfo), rest[j]? = some info →
          ∃ info2, (allocateFrom eng i rest).bundle[j]? = some info2 ∧
            info2.file = info.file ∧
            (info.file ≠ none → info2.memory ≠ none ∧
              LoaderOp.allocate (i + j) false ∈ (allocateFrom eng i rest).log)) := by
  intro rest
  induction rest with
  | nil =>
    intro i
    simp [allocateFrom]
  | cons info rest ih =>
    intro i
    obtain ⟨ih1, ih2, ih3⟩ := ih (i + 1)
    cases hf : info.file with
    | none =>
      have hdef : allocateFrom eng i (info :: rest) =
          { allocateFrom eng (i + 1) rest with
            bundle := info :: (allocateFrom eng (i + 1) rest).bundle } := by
        simp [allocateFrom, hf]
      rw [hdef]
      refine ⟨?_, ih2, ?_⟩
      · intro op hop
        obtain ⟨idx, failed, h1, h2⟩ := ih1 op hop
        exact ⟨idx, failed, h1, by omega⟩
      · intro herr
        obtain ⟨h3a, h3b⟩ := ih3 herr
        refine ⟨h3a, ?_⟩
        intro j info0 hget
        cases j with
        | zero =>
          simp only [List.getElem?_cons_zero, Option.some.injEq] at hget
          subst hget
          exact ⟨info, by simp, rfl, fun h => absurd hf h⟩
        | succ k =>
          simp only [List.getElem?_cons_succ] at hget
          obtain ⟨info2, hg, hfile, hrest⟩ := h3b k info0 hget
          refine ⟨info2, by simpa using hg, hfile, ?_⟩
          intro hne
          have := hrest hne
          simpa [Nat.add_assoc, Nat.add_comm 1 k] using this
    | some file =>
      cases ha : eng.newAlignedMemory i info.size (toUint32 file.Alignment) with
      | error e =>
        have hdef : allocateFrom eng i (info :: rest) =
            { bundle := info :: rest, err := some e, log := [LoaderOp.allocate i true] } := by
          simp [allocateFrom, hf, ha]
        rw [hdef]
        refine ⟨?_, by simp [LoaderOp.allocateIndex], by simp⟩
        intro op hop
        simp only [List.mem_singleton] at hop
        exact ⟨i, true, hop, Nat.le_refl _⟩
      | ok memory =>
        have hdef : allocateFrom eng i (info :: rest) =
            { bundle := { info with memory := some memory } ::
                (allocateFrom eng (i + 1) rest).bundle,
              err := (allocateFrom eng (i + 1) rest).err,
              log := LoaderOp.allocate i false :: (allocateFrom eng (i + 1) rest).log } := by
          simp [allocateFrom, hf, ha]
        rw [hdef]
        refine ⟨?_, ?_, ?_⟩
        · intro op hop
          simp only [List.mem_cons] at hop
          rcases hop with rfl | hop
          · exact ⟨i, false, rfl, Nat.le_refl _⟩
          · obtain ⟨idx, failed, h1, h2⟩ := ih1 op hop
            exact ⟨idx, failed, h1, by omega⟩
        · simp only [List.filterMap_cons, LoaderOp.allocateIndex]
          refine List.Pairwise.cons ?_ ih2
          intro b hb
          simp only [List.mem_filterMap] at hb
          obtain ⟨op, hop, hidx⟩ := hb
          obtain ⟨idx, failed, rfl, hle⟩ := ih1 op hop
          simp only [LoaderOp.allocateIndex, Option.some.injEq] at hidx
          omega
        · intro herr
          obtain ⟨h3a, h3b⟩ := ih3 herr
          refine ⟨?_, ?_⟩
          · intro op hop
            simp only [List.mem_cons] at hop
            rcases hop with rfl | hop
            · rfl
            · exact h3a op hop
          · intro j info0 hget
            cases j with
            | zero =>
              simp only [List.getElem?_cons_zero, Option.some.injEq] at hget
              subst hget
              exact ⟨{ info with memory := some memory }, by simp, rfl,
                fun _ => ⟨by simp, by simp⟩⟩
            | succ k =>
              simp only [List.getElem?_cons_succ] at hget
              obtain ⟨info2, hg, hfile, hrest⟩ := h3b k info0 hget
              refine ⟨info2, by simpa using hg, hfile, ?_⟩
              intro hne
              obtain ⟨hm, hlog⟩ := hrest hne
              refine ⟨hm, ?_⟩
              have : LoaderOp.allocate (i + (k + 1)) false ∈
                  (allocateFrom eng (i + 1) rest).log := by
                simpa [Nat.add_assoc, Nat.add_comm 1 k] using hlog
              exact List.mem_cons_of_mem _ this

theorem viewsFrom_log (eng : LoaderEngine) :
    ∀ (rest : alignedMemoriesBundle) (i : Nat),
      (∀ op ∈ (viewsFrom eng i rest).log, op.phase = 4) ∧
      ((viewsFrom eng i rest).err = none →
        (∀ op ∈ (viewsFrom eng i rest).log, op.failed = false) ∧
        ∀ (j : Nat) (info : alignedMemoryInfo), rest[j]? = some info →
          ∃ info2, (viewsFrom eng i rest).bundle[j]? = some info2 ∧
            info2.file = info.file ∧
            (info.file ≠ none → info.memory ≠ none →
              LoaderOp.view (i + j) false ∈ (viewsFrom eng i rest).log)) := by
  intro rest
  induction rest with
  | nil =>
    intro i
    simp [viewsFrom]
  | cons info rest ih =>
    intro i
    obtain ⟨ih1, ih3⟩ := ih (i + 1)
    have hskip : (info.file = none ∨ info.memory = none) →
        viewsFrom eng i (info :: rest) =
          { viewsFrom eng (i + 1) rest with
            bundle := info :: (viewsFrom eng (i + 1) rest).bundle } := by
      intro h
      cases hf : info.file <;> cases hm : info.memory <;> simp_all [viewsFrom]
    by_cases hsk : info.file = none ∨ info.memory = none
    · rw [hskip hsk]
      refine ⟨ih1, ?_⟩
      intro herr
      obtain ⟨h3a, h3b⟩ := ih3 herr
      refine ⟨h3a, ?_⟩
      intro j info0 hget
      cases j with
      | zero =>
        simp only [List.getElem?_cons_zero, Option.some.injEq] at hget
        subst hget
        refine ⟨info, by simp, rfl, ?_⟩
        intro h1 h2
        rcases hsk with h | h
        · exact absurd h h1
        · exact absurd h h2
      | succ k =>
        simp only [List.getElem?_cons_succ] at hget
        obtain ⟨info2, hg, hfile, hrest⟩ := h3b k info0 hget
        refine ⟨info2, by simpa using hg, hfile, ?_⟩
        intro h1 h2
        have := hrest h1 h2
        simpa [Nat.add_assoc, Nat.add_comm 1 k] using this
    · obtain ⟨file, hf⟩ : ∃ file, info.file = some file := by
        cases h : info.file with
        | none => exact absurd (Or.inl h) hsk
        | some file => exact ⟨file, rfl⟩
      obtain ⟨memory, hm⟩ : ∃ memory, info.memory = some memory := by
        cases h : info.memory with
        | none => exact absurd (Or.inr h) hsk
        | some memory => exact ⟨memory, rfl⟩
      cases hv : getAlignedMemoryByteView eng memory with
      | error e =>
        have hdef : viewsFrom eng i (info :: rest) =
            { bundle := info :: rest, err := some e, log := [LoaderOp.view i true] } := by
          simp [viewsFrom, hf, hm, hv]
        rw [hdef]
        refine ⟨?_, by simp⟩
        intro op hop
        simp only [List.mem_singleton] at hop
        subst hop
        rfl
      | ok view =>
        have hdef : viewsFrom eng i (info :: rest) =
            { bundle := { info with view := view } :: (viewsFrom eng (i + 1) rest).bundle,
              err := (viewsFrom eng (i + 1) rest).err,
              log := LoaderOp.view i false :: (viewsFrom eng (i + 1) rest).log } := by
          simp [viewsFrom, hf, hm, hv]
        rw [hdef]
        refine ⟨?_, ?_⟩
        · intro op hop
          simp only [List.mem_cons] at hop
          rcases hop with rfl | hop
          · rfl
          · exact ih1 op hop
        · intro herr
          obtain ⟨h3a, h3b⟩ := ih3 herr
          refine ⟨?_, ?_⟩
          · intro op hop
            simp only [List.mem_cons] at hop
            rcases hop with rfl | hop
            · rfl
            · exact h3a op hop
          · intro j info0 hget
            cases j with
            | zero =>
              simp only [List.getElem?_cons_zero, Option.some.injEq] at hget
              subst hget
              exact ⟨{ info with view := view }, by simp, rfl, fun _ _ => by simp⟩
            | succ k =>
              simp only [List.getElem?_cons_succ] at hget
              obtain ⟨info2, hg, hfile, hrest⟩ := h3b k info0 hget
              refine ⟨info2, by simpa using hg, hfile, ?_⟩
              intro h1 h2
              have : LoaderOp.view (i + (k + 1)) false ∈ (viewsFrom eng (i + 1) rest).log := by
                simpa [Nat.add_assoc, Nat.add_comm 1 k] using hrest h1 h2
              exact List.mem_cons_of_mem _ this

theorem filterMap_allocateIndex_of_phase_ne (l : List LoaderOp) (h : ∀ op ∈ l, op.phase ≠ 3) :
    l.filterMap LoaderOp.allocateIndex = [] := by
  rw [List.filterMap_eq_nil_iff]
  intro op hop
  have := h op hop
  cases op <;> simp_all [LoaderOp.allocateIndex, LoaderOp.phase]

theorem filter_growth_of_phase_ne (l : List LoaderOp) (h : ∀ op ∈ l, op.phase ≠ 2) :
    l.filter (fun op => op.phase == 2) = [] := by
  rw [List.filter_eq_nil_iff]
  intro op hop
  simpa using h op hop

theorem pairwise_phase_append (k : Nat) (l₁ l₂ : List LoaderOp)
    (h₁ : l₁.Pairwise (fun a b => a.phase ≤ b.phase))
    (h₂ : l₂.Pairwise (fun a b => a.phase ≤ b.phase))
    (hb₁ : ∀ a ∈ l₁, a.phase ≤ k) (hb₂ : ∀ b ∈ l₂, k ≤ b.phase) :
    (l₁ ++ l₂).Pairwise (fun a b => a.phase ≤ b.phase) :=
  List.pairwise_append.mpr ⟨h₁, h₂, fun a ha b hb => Nat.le_trans (hb₁ a ha) (hb₂ b hb)⟩

/-- The facts about phase order for a log made of size resolutions, the
growth step, allocations, view acquisitions and fills, in this order. -/
theorem phase_order_of_parts (S A V F : List LoaderOp) (request : Option Nat)
    (hS : ∀ op ∈ S, op.phase = 1 ∧ op.failed = false)
    (hA : ∀ op ∈ A, op.phase = 3)
    (hAidx : (A.filterMap LoaderOp.allocateIndex).Pairwise (· < ·))
    (hV : ∀ op ∈ V, op.phase = 4) (hF : ∀ op ∈ F, op.phase = 5)
    (hAf : (∃ a ∈ A, a.failed = true) → V = [] ∧ F = [])
    (hVf : (∃ a ∈ V, a.failed = true) → F = []) :
    (S ++ [LoaderOp.grow request] ++ A ++ V ++ F).Pairwise (fun a b => a.phase ≤ b.phase) ∧
    (((S ++ [LoaderOp.grow request] ++ A ++ V ++ F).filter
      (fun op => op.phase == 2)).length ≤ 1) ∧
    (((S ++ [LoaderOp.grow request] ++ A ++ V ++ F).filterMap
      LoaderOp.allocateIndex).Pairwise (· < ·)) ∧
    (∀ a ∈ S ++ [LoaderOp.grow request] ++ A ++ V ++ F, a.failed = true →
      ∀ b ∈ S ++ [LoaderOp.grow request] ++ A ++ V ++ F, b.phase ≤ a.phase) := by
  have hphase : ∀ op ∈ S ++ [LoaderOp.grow request] ++ A ++ V ++ F,
      (op ∈ S ∧ op.phase = 1 ∧ op.failed = false) ∨ (op.phase = 2 ∧ op.failed = false) ∨
        (op ∈ A ∧ op.phase = 3) ∨ (op ∈ V ∧ op.phase = 4) ∨ (op ∈ F ∧ op.phase = 5) := by
    intro op hop
    simp only [List.mem_append, List.mem_singleton] at hop
    rcases hop with (((h | h) | h) | h) | h
    · exact Or.inl ⟨h, hS op h⟩
    · subst h; exact Or.inr (Or.inl ⟨rfl, rfl⟩)
    · exact Or.inr (Or.inr (Or.inl ⟨h, hA op h⟩))
    · exact Or.inr (Or.inr (Or.inr (Or.inl ⟨h, hV op h⟩)))
    · exact Or.inr (Or.inr (Or.inr (Or.inr ⟨h, hF op h⟩)))
  refine ⟨?_, ?_, ?_, ?_⟩
  · have hS1 : ∀ op ∈ S, op.phase = 1 := fun op hop => (hS op hop).1
    have p1 := pairwise_phase_append 1 S [LoaderOp.grow request]
      (pairwise_phase_of_same 1 S hS1) (List.pairwise_singleton _ _)
      (fun a ha => Nat.le_of_eq (hS1 a ha))
      (fun b hb => by simp only [List.mem_singleton] at hb; subst hb; simp [LoaderOp.phase])
    have b1 : ∀ a ∈ S ++ [LoaderOp.grow request], a.phase ≤ 2 := by
      intro a ha
      simp only [List.mem_append, List.mem_singleton] at ha
      rcases ha with h | h
      · rw [hS1 a h]; decide
      · subst h; simp [LoaderOp.phase]
    have p2 := pairwise_phase_append 2 _ A p1 (pairwise_phase_of_same 3 A hA) b1
      (fun b hb => by rw [hA b hb]; decide)
    have b2 : ∀ a ∈ S ++ [LoaderOp.grow request] ++ A, a.phase ≤ 3 := by
      intro a ha
      rw [List.mem_append] at ha
      rcases ha with h | h
      · exact Nat.le_trans (b1 a h) (by decide)
      · rw [hA a h]
    have p3 := pairwise_phase_append 3 _ V p2 (pairwise_phase_of_same 4 V hV) b2
      (fun b hb => by rw [hV b hb]; decide)
    have b3 : ∀ a ∈ S ++ [LoaderOp.grow request] ++ A ++ V, a.phase ≤ 4 := by
      intro a ha
      rw [List.mem_append] at ha
      rcases ha with h | h
      · exact Nat.le_trans (b2 a h) (by decide)
      · rw [hV a h]
    exact pairwise_phase_append 4 _ F p3 (pairwise_phase_of_same 5 F hF) b3
      (fun b hb => by rw [hF b hb]; decide)
  · simp only [List.filter_append]
    rw [filter_growth_of_phase_ne S (fun op hop => by rw [(hS op hop).1]; decide),
      filter_growth_of_phase_ne A (fun op hop => by rw [hA op hop]; decide),
      filter_growth_of_phase_ne V (fun op hop => by rw [hV op hop]; decide),
      filter_growth_of_phase_ne F (fun op hop => by rw [hF op hop]; decide)]
    simp [LoaderOp.phase]
  · simp only [List.filterMap_append]
    rw [filterMap_allocateIndex_of_phase_ne S (fun op hop => by rw [(hS op hop).1]; decide),
      filterMap_allocateIndex_of_phase_ne V (fun op hop => by rw [hV op hop]; decide),
      filterMap_allocateIndex_of_phase_ne F (fun op hop => by rw [hF op hop]; decide)]
    simpa [LoaderOp.allocateIndex] using hAidx
  · intro a ha hfail b hb
    rcases hphase a ha with ⟨_, _, h⟩ | ⟨_, h⟩ | ⟨haA, hpa⟩ | ⟨haV, hpa⟩ | ⟨_, hpa⟩
    · rw [h] at hfail; cases hfail
    · rw [h] at hfail; cases hfail
    · obtain ⟨hV0, hF0⟩ := hAf ⟨a, haA, hfail⟩
      rw [hpa]
      rcases hphase b hb with ⟨_, h, _⟩ | ⟨h, _⟩ | ⟨_, h⟩ | ⟨h, _⟩ | ⟨h, _⟩
      · rw [h]; decide
      · rw [h]; decide
      · rw [h]
      · rw [hV0] at h; cases h
      · rw [hF0] at h; cases h
    · have hF0 := hVf ⟨a, haV, hfail⟩
      rw [hpa]
      rcases hphase b hb with ⟨_, h, _⟩ | ⟨h, _⟩ | ⟨_, h⟩ | ⟨_, h⟩ | ⟨h, _⟩
      · rw [h]; decide
      · rw [h]; decide
      · rw [h]; decide
      · rw [h]
      · rw [hF0] at h; cases h
    · rw [hpa]
      rcases hphase b hb with ⟨_, h, _⟩ | ⟨h, _⟩ | ⟨_, h⟩ | ⟨_, h⟩ | ⟨_, h⟩ <;> rw [h] <;> decide

/-- C17. In every execution of `enrichAlignedMemoriesBundle` the operations on
the sources and on the engine occur in strict phase order: the log of the
operations is ordered by phase (size resolutions, then the memory-growth
step, then the aligned allocations, then the view acquisitions, then the
fills); there is at most one growth step; the allocations are issued in
increasing index order (model, shortlist, vocabulary); if an operation
fails, no operation of a later phase is performed; and when the function
returns nil, every non-empty entry has had its size resolution, its
allocation, its view acquisition and its fill, and the growth step has run. -/
theorem enrichAlignedMemoriesBundle_phase_order (eng : LoaderEngine)
    (bundle : alignedMemoriesBundle) (sizeSched fillSched : List Nat) :
    (enrichAlignedMemoriesBundle eng bundle sizeSched fillSched).log.Pairwise
      (fun a b => a.phase ≤ b.phase) ∧
    (((enrichAlignedMemoriesBundle eng bundle sizeSched fillSched).log.filter
      (fun op => op.phase == 2)).length ≤ 1) ∧
    (((enrichAlignedMemoriesBundle eng bundle sizeSched fillSched).log.filterMap
      LoaderOp.allocateIndex).Pairwise (· < ·)) ∧
    (∀ a ∈ (enrichAlignedMemoriesBundle eng bundle sizeSched fillSched).log, a.failed = true →
      ∀ b ∈ (enrichAlignedMemoriesBundle eng bundle sizeSched fillSched).log,
        b.phase ≤ a.phase) ∧
    ((enrichAlignedMemoriesBundle eng bundle sizeSched fillSched).err = none →
      (∃ request, LoaderOp.grow request ∈
        (enrichAlignedMemoriesBundle eng bundle sizeSched fillSched).log) ∧
      ∀ (i : Nat) (info : alignedMemoryInfo), bundle[i]? = some info → info.isEmpty = false →
        LoaderOp.size i false ∈
          (enrichAlignedMemoriesBundle eng bundle sizeSched fillSched).log ∧
        LoaderOp.allocate i false ∈
          (enrichAlignedMemoriesBundle eng bundle sizeSched fillSched).log ∧
        LoaderOp.view i false ∈
          (enrichAlignedMemoriesBundle eng bundle sizeSched fillSched).log ∧
        LoaderOp.fill i false ∈
          (enrichAlignedMemoriesBundle eng bundle sizeSched fillSched).log) := by
  obtain ⟨hS1, hS2, hS3⟩ := enrichBundleWithSizes_log bundle sizeSched
  have hSp := pairwise_phase_of_same 1 _ hS1
  unfold enrichAlignedMemoriesBundle
  simp only
  cases hse : (enrichBundleWithSizes bundle sizeSched).err with
  | some e =>
    simp only
    refine ⟨hSp, ?_, ?_, ?_, by simp⟩
    · rw [filter_growth_of_phase_ne _ (fun op hop => by rw [hS1 op hop]; decide)]
      simp
    · rw [filterMap_allocateIndex_of_phase_ne _ (fun op hop => by rw [hS1 op hop]; decide)]
      exact List.Pairwise.nil
    · intro a ha _ b hb
      rw [hS1 a ha, hS1 b hb]
  | none =>
    simp only
    have hSok := hS2 hse
    have hSall : ∀ op ∈ (enrichBundleWithSizes bundle sizeSched).log,
        op.phase = 1 ∧ op.failed = false := fun op hop => ⟨hS1 op hop, hSok op hop⟩
    obtain ⟨hA1, hA2, hA3⟩ := allocateFrom_log eng (enrichBundleWithSizes bundle sizeSched).bundle 0
    have hAph : ∀ op ∈ (allocateFrom eng 0 (enrichBundleWithSizes bundle sizeSched).bundle).log,
        op.phase = 3 := by
      intro op hop
      obtain ⟨idx, failed, rfl, _⟩ := hA1 op hop
      rfl
    cases hae : (allocateFrom eng 0 (enrichBundleWithSizes bundle sizeSched).bundle).err with
    | some e =>
      simp only
      have := phase_order_of_parts _ _ [] [] (growModuleMemory eng.memorySize
        (enrichBundleWithSizes bundle sizeSched).bundle) hSall hAph hA2 (by simp) (by simp)
        (fun _ => ⟨rfl, rfl⟩) (fun _ => rfl)
      simp only [List.append_nil] at this
      exact ⟨this.1, this.2.1, this.2.2.1, this.2.2.2, by simp⟩
    | none =>
      simp only
      obtain ⟨hAok, hAall⟩ := hA3 hae
      obtain ⟨hV1, hV3⟩ := viewsFrom_log eng
        (allocateFrom eng 0 (enrichBundleWithSizes bundle sizeSched).bundle).bundle 0
      have hAf : (∃ a ∈ (allocateFrom eng 0 (enrichBundleWithSizes bundle sizeSched).bundle).log,
          a.failed = true) → False := by
        rintro ⟨a, ha, hf⟩
        rw [hAok a ha] at hf
        cases hf
      cases hve : (viewsFrom eng 0
          (allocateFrom eng 0 (enrichBundleWithSizes bundle sizeSched).bundle).bundle).err with
      | some e =>
        simp only
        have := phase_order_of_parts _ _ _ [] (growModuleMemory eng.memorySize
          (enrichBundleWithSizes bundle sizeSched).bundle) hSall hAph hA2 hV1 (by simp)
          (fun h => (hAf h).elim) (fun _ => rfl)
        simp only [List.append_nil] at this
        exact ⟨this.1, this.2.1, this.2.2.1, this.2.2.2, by simp⟩
      | none =>
        simp only
        obtain ⟨hVok, hVall⟩ := hV3 hve
        obtain ⟨hF1, hF2, hF3⟩ := fillBundleViews_log (viewsFrom eng 0
          (allocateFrom eng 0 (enrichBundleWithSizes bundle sizeSched).bundle).bundle).bundle
          fillSched
        have := phase_order_of_parts _ _ _ _ (growModuleMemory eng.memorySize
          (enrichBundleWithSizes bundle sizeSched).bundle) hSall hAph hA2 hV1 hF1
          (fun h => (hAf h).elim)
          (fun h => by
            obtain ⟨a, ha, hf⟩ := h
            rw [hVok a ha] at hf
            cases hf)
        refine ⟨this.1, this.2.1, this.2.2.1, this.2.2.2, ?_⟩
        intro hfe
        refine ⟨⟨growModuleMemory eng.memorySize (enrichBundleWithSizes bundle sizeSched).bundle,
          by simp⟩, ?_⟩
        intro i info hget hne
        have hfile : info.file ≠ none := by
          intro h
          simp [alignedMemoryInfo.isEmpty, h] at hne
        -- the entry after size resolution
        have hget1 : (enrichBundleWithSizes bundle sizeSched).bundle[i]? =
            some info.resolveSize.1 := by
          simp [enrichBundleWithSizes, hget]
        have hfile1 : info.resolveSize.1.file ≠ none := by
          unfold alignedMemoryInfo.resolveSize
          cases hf : info.file with
          | none => exact absurd hf hfile
          | some file => simp
        obtain ⟨info2, hget2, hfile2, hrest2⟩ := hAall i _ hget1
        obtain ⟨hmem2, hlogA⟩ := hrest2 hfile1
        obtain ⟨info3, hget3, hfile3, hrest3⟩ := hVall i _ hget2
        have hlogV := hrest3 (by rw [hfile2]; exact hfile1) hmem2
        have hne3 : info3.isEmpty = false := by
          have : info3.file ≠ none := by rw [hfile3, hfile2]; exact hfile1
          cases hf : info3.file with
          | none => exact absurd hf this
          | some file => simp [alignedMemoryInfo.isEmpty, hf]
        obtain ⟨ffailed, hlogF⟩ := hF3 i info3 hget3 hne3
        obtain ⟨sfailed, hlogS⟩ := hS3 i info hget hne
        have hsf : sfailed = false := by simpa [LoaderOp.failed] using hSok _ hlogS
        have hff : ffailed = false := by simpa [LoaderOp.failed] using hF2 hfe _ hlogF
        subst hsf hff
        simp only [Nat.zero_add] at hlogA hlogV
        exact ⟨List.mem_append_left _ (List.mem_append_left _ (List.mem_append_left _
            (List.mem_append_left _ hlogS))),
          List.mem_append_left _ (List.mem_append_left _ (List.mem_append_right _ hlogA)),
          List.mem_append_left _ (List.mem_append_right _ hlogV),
          List.mem_append_right _ hlogF⟩

/-- C17 at a concrete bundle: three buffers are loaded without error, and the
fill of the vocabulary (index 2) is among the operations performed. -/
theorem enrichAlignedMemoriesBundle_phase_order_witness :
    (enrichAlignedMemoriesBundle exampleLoaderEngine exampleBundle [2, 0] [1]).err = none ∧
      LoaderOp.fill 2 false ∈
        (enrichAlignedMemoriesBundle exampleLoaderEngine exampleBundle [2, 0] [1]).log :=
  ⟨rfl,
    (((enrichAlignedMemoriesBundle_phase_order exampleLoaderEngine exampleBundle [2, 0]
      [1]).2.2.2.2 rfl).2 2 _ rfl rfl).2.2.2⟩

/-! ### pool.go: runs -/

theorem getElem?_set_of_some {α : Type} {l : List α} {i j : Nat} {a x : α}
    (h : l[i]? = some x) : (l.set i a)[j]? = if i = j then some a else l[j]? := by
  have hlt : i < l.length := by
    rcases List.getElem?_eq_some_iff.mp h with ⟨hlt, _⟩
    exact hlt
  rw [List.getElem?_set]
  simp [hlt]

theorem PoolRun.start_Inv (translators : List Translator) : (PoolRun.start translators).Inv := by
  constructor
  · intro c call h
    simp [PoolRun.start] at h
  · intro w loop h c hc
    simp only [PoolRun.start, List.getElem?_map, Option.map_eq_some'] at h
    obtain ⟨t, _, rfl⟩ := h
    simp [LoopState.serving] at hc

/-- A call that is in its first `select` has not been received by any loop. -/
theorem PoolRun.CallOk.of_handingOff {s : PoolRun} {c : Nat} {call : Call}
    (h : s.CallOk c call) (hs : call.state = .handingOff) :
    call.receivedBy = [] ∧ call.invocations = 0 ∧ call.sent = [] ∧ call.respChan = [] := by
  rcases h with ⟨h1, h2, h3, h4, _⟩ | ⟨w, loop, _, _, hne, _⟩
  · exact ⟨h1, h2, h3, h4⟩
  · exact absurd hs hne

/-- The bookkeeping of a call does not change when the loops change in a way
that keeps the Translators and does not touch what the loops do for it. -/
theorem PoolRun.CallOk.of_loops {s s2 : PoolRun} {c : Nat} {call : Call}
    (h : s.CallOk c call)
    (hl : ∀ (w : Nat) (loop : Loop), s.loops[w]? = some loop →
      ∃ loop2, s2.loops[w]? = some loop2 ∧ loop2.translator = loop.translator ∧
        (loop2.state = loop.state ∨
          (loop.state.serving ≠ some c ∧ loop2.state.serving ≠ some c))) :
    s2.CallOk c call := by
  rcases h with h | ⟨w, loop, hr, hw, hne, halt⟩
  · exact Or.inl h
  · obtain ⟨loop2, hw2, ht, hst⟩ := hl w loop hw
    have hrep : loop2.replyFor call.requests = loop.replyFor call.requests := by
      simp [Loop.replyFor, ht]
    refine Or.inr ⟨w, loop2, hr, hw2, hne, ?_⟩
    rcases hst with hst | ⟨hs1, hs2⟩
    · rw [hst, hrep]; exact halt
    · rcases halt with ⟨h1, _⟩ | ⟨h1, _⟩ | ⟨_, h2, h3, h4⟩
      · rw [h1] at hs1; exact absurd rfl hs1
      · rw [h1] at hs1; exact absurd rfl hs1
      · exact Or.inr (Or.inr ⟨hs2, h2, by rw [hrep]; exact h3, by rw [hrep]; exact h4⟩)

/-- The invariant survives a step that changes one call and leaves alone who
has received its request. -/
theorem PoolRun.Inv.set_call {s : PoolRun} (hinv : s.Inv) {c0 : Nat} {call0 call2 : Call}
    (h0 : s.calls[c0]? = some call0) (hrec : call2.receivedBy = call0.receivedBy)
    (hok : s.CallOk c0 call0 → s.CallOk c0 call2) :
    ({ s with calls := s.calls.set c0 call2 } : PoolRun).Inv := by
  obtain ⟨hc, hl⟩ := hinv
  constructor
  · intro c call hget
    simp only [getElem?_set_of_some h0] at hget
    by_cases hcc : c0 = c
    · subst hcc
      simp only [if_true, Option.some.injEq] at hget
      subst hget
      exact hok (hc c0 call0 h0)
    · simp only [hcc, if_false] at hget
      exact hc c call hget
  · intro w loop hget c hserv
    obtain ⟨call, hcall, hr⟩ := hl w loop hget c hserv
    simp only [getElem?_set_of_some h0]
    by_cases hcc : c0 = c
    · subst hcc
      rw [h0] at hcall
      simp only [Option.some.injEq] at hcall
      subst hcall
      exact ⟨call2, by simp, by rw [hrec]; exact hr⟩
    · exact ⟨call, by simp [hcc, hcall], hr⟩

/-- The invariant survives a step in which a loop that works for no call
changes to a state in which it still works for none. -/
theorem PoolRun.Inv.set_idle_loop {s : PoolRun} (hinv : s.Inv) {w0 : Nat} {loop0 : Loop}
    {st : LoopState} (h0 : s.loops[w0]? = some loop0) (hold : loop0.state.serving = none)
    (hnew : st.serving = none) :
    ({ s with loops := s.loops.set w0 { loop0 with state := st } } : PoolRun).Inv := by
  obtain ⟨hc, hl⟩ := hinv
  constructor
  · intro c call hget
    refine (hc c call hget).of_loops ?_
    intro w loop hw
    simp only [getElem?_set_of_some h0]
    by_cases hww : w0 = w
    · subst hww
      rw [h0] at hw
      simp only [Option.some.injEq] at hw
      subst hw
      refine ⟨{ loop0 with state := st }, by simp, rfl, Or.inr ⟨?_, ?_⟩⟩
      · rw [hold]; simp
      · show st.serving ≠ some c
        rw [hnew]; simp
    · exact ⟨loop, by simp [hww, hw], rfl, Or.inl rfl⟩
  · intro w loop hget c hserv
    simp only [getElem?_set_of_some h0] at hget
    by_cases hww : w0 = w
    · subst hww
      simp only [if_true, Option.some.injEq] at hget
      subst hget
      simp [hnew] at hserv
    · simp only [hww, if_false] at hget
      exact hl w loop hget c hserv

theorem PoolRun.raceLost_spec {s : PoolRun} {call : Call} {msg : String} {case : SelectCase}
    {e : GoError} (h : s.raceLost call msg case = some e) :
    (s.done = true ∧ e = fmtErrorfW msg (.leaf .ErrClosed)) ∨
      ∃ x, call.ctx.err = some x ∧ e = fmtErrorfW msg x := by
  cases case with
  | done =>
    simp only [PoolRun.raceLost] at h
    split at h
    · rename_i hd
      simp only [Option.some.injEq] at h
      exact Or.inl ⟨hd, h.symm⟩
    · cases h
  | ctxDone =>
    simp only [PoolRun.raceLost, Option.map_eq_some'] at h
    obtain ⟨x, hx, rfl⟩ := h
    exact Or.inr ⟨x, hx, rfl⟩
  | comm => simp [PoolRun.raceLost] at h

/-- The invariant survives a step in which the loop `w0` and the call `c0`
change together, the loop working for `c0` or for no call before and
after, when the bookkeeping of `c0` is right afterwards. -/
theorem PoolRun.Inv.set_call_loop {s : PoolRun} (hinv : s.Inv) {c0 w0 : Nat}
    {call0 call2 : Call} {loop0 : Loop} {st : LoopState}
    (hc0 : s.calls[c0]? = some call0) (hw0 : s.loops[w0]? = some loop0)
    (hrec0 : call0.receivedBy = [] ∨ call0.receivedBy = [w0])
    (hrec2 : call2.receivedBy = [w0])
    (hold : loop0.state.serving = none ∨ loop0.state.serving = some c0)
    (hnew : st.serving = none ∨ st.serving = some c0)
    (hok : ({ s with calls := s.calls.set c0 call2,
                     loops := s.loops.set w0 { loop0 with state := st } } : PoolRun).CallOk
      c0 call2) :
    ({ s with calls := s.calls.set c0 call2,
              loops := s.loops.set w0 { loop0 with state := st } } : PoolRun).Inv := by
  obtain ⟨hc, hl⟩ := hinv
  constructor
  · intro c call hget
    simp only [getElem?_set_of_some hc0] at hget
    by_cases hcc : c0 = c
    · subst hcc
      simp only [if_true, Option.some.injEq] at hget
      subst hget
      exact hok
    · simp only [hcc, if_false] at hget
      refine (hc c call hget).of_loops ?_
      intro w loop hw
      simp only [getElem?_set_of_some hw0]
      by_cases hww : w0 = w
      · subst hww
        rw [hw0] at hw
        simp only [Option.some.injEq] at hw
        subst hw
        refine ⟨{ loop0 with state := st }, by simp, rfl, Or.inr ⟨?_, ?_⟩⟩
        · rcases hold with h | h <;> rw [h] <;> simp [hcc]
        · show st.serving ≠ some c
          rcases hnew with h | h <;> rw [h] <;> simp [hcc]
      · exact ⟨loop, by simp [hww, hw], rfl, Or.inl rfl⟩
  · intro w loop hget c hserv
    simp only [getElem?_set_of_some hw0] at hget
    simp only [getElem?_set_of_some hc0]
    by_cases hww : w0 = w
    · subst hww
      simp only [if_true, Option.some.injEq] at hget
      subst hget
      have hcc : c0 = c := by
        rcases hnew with h | h
        · rw [show ({ loop0 with state := st } : Loop).state.serving = st.serving from rfl,
            h] at hserv
          cases hserv
        · rw [show ({ loop0 with state := st } : Loop).state.serving = st.serving from rfl,
            h] at hserv
          exact Option.some.inj hserv
      subst hcc
      exact ⟨call2, by simp, hrec2⟩
    · simp only [hww, if_false] at hget
      obtain ⟨call, hcall, hr⟩ := hl w loop hget c hserv
      by_cases hcc : c0 = c
      · subst hcc
        rw [hc0] at hcall
        simp only [Option.some.injEq] at hcall
        subst hcall
        rcases hrec0 with h | h
        · rw [h] at hr; cases hr
        · rw [h] at hr
          simp only [List.cons.injEq, and_true] at hr
          exact absurd hr hww
      · exact ⟨call, by simp [hcc, hcall], hr⟩

/-- Every step of a run keeps the invariant. -/
theorem PoolRun.step_Inv {s s2 : PoolRun} (hinv : s.Inv) (event : PoolEvent)
    (h : s.step event = some s2) : s2.Inv := by
  cases event with
  | call ctx requests =>
    simp only [PoolRun.step, Option.some.injEq] at h
    subst h
    obtain ⟨hc, hl⟩ := hinv
    constructor
    · intro c call hget
      simp only [List.getElem?_append] at hget
      split at hget
      · exact (hc c call hget).of_loops (fun w loop hw => ⟨loop, hw, rfl, Or.inl rfl⟩)
      · have : c - s.calls.length = 0 := by
          by_contra hne
          have hlt : 1 ≤ c - s.calls.length := Nat.one_le_iff_ne_zero.mpr hne
          rw [List.getElem?_eq_none (by simpa using hlt)] at hget
          cases hget
        rw [this] at hget
        simp only [List.getElem?_cons_zero, Option.some.injEq] at hget
        subst hget
        exact Or.inl ⟨rfl, rfl, rfl, rfl, Or.inl rfl⟩
    · intro w loop hget c hserv
      obtain ⟨call, hcall, hr⟩ := hl w loop hget c hserv
      refine ⟨call, ?_, hr⟩
      have hlt : c < s.calls.length := (List.getElem?_eq_some_iff.mp hcall).1
      simp only [List.getElem?_append, hlt, if_true]
      exact hcall
  | cancel c err =>
    simp only [PoolRun.step] at h
    split at h
    · cases h
    · rename_i call hcall
      split at h
      · cases h
      · rename_i hctx
        simp only [Option.some.injEq] at h
        subst h
        refine hinv.set_call hcall rfl ?_
        rintro (⟨h1, h2, h3, h4, h5⟩ | ⟨w, loop, hr, hw, hne, halt⟩)
        · refine Or.inl ⟨h1, h2, h3, h4, ?_⟩
          rcases h5 with h5 | ⟨e, he, hcl | ⟨x, hx, _⟩⟩
          · exact Or.inl h5
          · exact Or.inr ⟨e, he, Or.inl hcl⟩
          · rw [hctx] at hx
            cases hx
        · exact Or.inr ⟨w, loop, hr, hw, hne, halt⟩
  | handOff c w =>
    simp only [PoolRun.step] at h
    split at h
    · rename_i call loop hcall hloop
      split at h
      · rename_i hst hlst
        simp only [Option.some.injEq] at h
        subst h
        obtain ⟨h1, h2, h3, h4⟩ := (hinv.1 c call hcall).of_handingOff hst
        have hrec : call.receivedBy ++ [w] = [w] := by rw [h1]; rfl
        refine hinv.set_call_loop hcall hloop (Or.inl h1) hrec
          (Or.inl (by rw [hlst]; rfl)) (Or.inr rfl) ?_
        refine Or.inr ⟨w, { loop with state := .translating c }, hrec,
          by simp [getElem?_set_of_some hloop], by simp, Or.inl ⟨rfl, h2, h3, h4⟩⟩
      · cases h
    · cases h
  | failHandOff c case =>
    simp only [PoolRun.step] at h
    split at h
    · cases h
    · rename_i call hcall
      split at h
      · rename_i e hst hrace
        simp only [Option.some.injEq] at h
        subst h
        refine hinv.set_call hcall rfl ?_
        intro hok
        obtain ⟨h1, h2, h3, h4⟩ := hok.of_handingOff hst
        refine Or.inl ⟨h1, h2, h3, h4, Or.inr ⟨e, rfl, ?_⟩⟩
        rcases PoolRun.raceLost_spec hrace with ⟨_, he⟩ | hx
        · exact Or.inl (by rw [he]; rfl)
        · exact Or.inr hx
      · cases h
  | translate w =>
    simp only [PoolRun.step] at h
    split at h
    · cases h
    · rename_i loop hloop
      split at h
      · rename_i c hlst
        split at h
        · cases h
        · rename_i call hcall
          simp only [Option.some.injEq] at h
          subst h
          have hserv : loop.state.serving = some c := by rw [hlst]; rfl
          obtain ⟨call1, hcall1, hrec⟩ := hinv.2 w loop hloop c hserv
          rw [hcall] at hcall1
          simp only [Option.some.injEq] at hcall1
          subst hcall1
          refine hinv.set_call_loop hcall hloop (Or.inr hrec) hrec (Or.inr hserv)
            (Or.inr rfl) ?_
          rcases hinv.1 c call hcall with ⟨h1, _⟩ | ⟨w1, loop1, hr, hw, hne, halt⟩
          · rw [h1] at hrec
            cases hrec
          · rw [hrec] at hr
            simp only [List.cons.injEq, and_true] at hr
            subst hr
            rw [hloop] at hw
            simp only [Option.some.injEq] at hw
            subst hw
            rcases halt with ⟨_, hi, hsent, hchan⟩ | ⟨hs, _⟩ | ⟨hs, _⟩
            · refine Or.inr ⟨w, { loop with state := .replying c (loop.replyFor call.requests) },
                hrec, by simp [getElem?_set_of_some hloop], hne,
                Or.inr (Or.inl ⟨rfl, ?_, hsent, hchan⟩)⟩
              show call.invocations + 1 = 1
              rw [hi]
            · rw [hlst] at hs
              cases hs
            · exact absurd hserv hs
      · cases h
  | reply w =>
    simp only [PoolRun.step] at h
    split at h
    · cases h
    · rename_i loop hloop
      split at h
      · rename_i c resp hlst
        split at h
        · cases h
        · rename_i call hcall
          split at h
          · simp only [Option.some.injEq] at h
            subst h
            have hserv : loop.state.serving = some c := by rw [hlst]; rfl
            obtain ⟨call1, hcall1, hrec⟩ := hinv.2 w loop hloop c hserv
            rw [hcall] at hcall1
            simp only [Option.some.injEq] at hcall1
            subst hcall1
            refine hinv.set_call_loop hcall hloop (Or.inr hrec) hrec (Or.inr hserv)
              (Or.inl rfl) ?_
            rcases hinv.1 c call hcall with ⟨h1, _⟩ | ⟨w1, loop1, hr, hw, hne, halt⟩
            · rw [h1] at hrec
              cases hrec
            · rw [hrec] at hr
              simp only [List.cons.injEq, and_true] at hr
              subst hr
              rw [hloop] at hw
              simp only [Option.some.injEq] at hw
              subst hw
              rcases halt with ⟨hs, _⟩ | ⟨hs, hi, hsent, hchan⟩ | ⟨hs, _⟩
              · rw [hlst] at hs
                cases hs
              · rw [hlst] at hs
                simp only [LoopState.replying.injEq, true_and] at hs
                subst hs
                refine Or.inr ⟨w, { loop with state := .waiting },
                  hrec, by simp [getElem?_set_of_some hloop], hne,
                  Or.inr (Or.inr ⟨by simp [LoopState.serving], hi, ?_, Or.inr ?_⟩)⟩
                · show call.sent ++ [loop.replyFor call.requests] = _
                  rw [hsent]
                  rfl
                · show call.respChan ++ [loop.replyFor call.requests] = _
                  rw [hchan]
                  rfl
              · exact absurd hserv hs
          · cases h
      · cases h
  | receiveReply c =>
    simp only [PoolRun.step] at h
    split at h
    · cases h
    · rename_i call hcall
      split at h
      · rename_i resp rest hst hchan
        simp only [Option.some.injEq] at h
        subst h
        refine hinv.set_call hcall rfl ?_
        rintro (⟨_, _, _, h4, _⟩ | ⟨w, loop, hr, hw, hne, halt⟩)
        · rw [hchan] at h4
          cases h4
        · refine Or.inr ⟨w, loop, hr, hw, by simp, ?_⟩
          rcases halt with ⟨_, _, _, h4⟩ | ⟨_, _, _, h4⟩ | ⟨hs, hi, hsent, h4⟩
          · rw [hchan] at h4
            cases h4
          · rw [hchan] at h4
            cases h4
          · refine Or.inr (Or.inr ⟨hs, hi, hsent, Or.inl ?_⟩)
            rcases h4 with h4 | h4
            · rw [hchan] at h4
              cases h4
            · rw [hchan] at h4
              simp only [List.cons.injEq] at h4
              exact h4.2
      · cases h
  | failReply c case =>
    simp only [PoolRun.step] at h
    split at h
    · cases h
    · rename_i call hcall
      split at h
      · rename_i e hst hrace
        simp only [Option.some.injEq] at h
        subst h
        refine hinv.set_call hcall rfl ?_
        rintro (⟨_, _, _, _, h5⟩ | ⟨w, loop, hr, hw, hne, halt⟩)
        · rcases h5 with h5 | ⟨e2, h5, _⟩
          · rw [hst] at h5
            cases h5
          · rw [hst] at h5
            cases h5
        · exact Or.inr ⟨w, loop, hr, hw, by simp, halt⟩
      · cases h
  | close =>
    simp only [PoolRun.step] at h
    split at h
    · cases h
    · simp only [Option.some.injEq] at h
      subst h
      exact hinv
  | stop w =>
    simp only [PoolRun.step] at h
    split at h
    · cases h
    · rename_i loop hw
      split at h
      · rename_i hd hst
        simp only [Option.some.injEq] at h
        subst h
        exact hinv.set_idle_loop hw (by rw [hst]; rfl) rfl
      · cases h

/-- Every state a run reaches from the start of a pool satisfies the invariant. -/
theorem PoolRun.run_Inv {s : PoolRun} (hinv : s.Inv) (events : List PoolEvent) {s2 : PoolRun}
    (h : s.run events = some s2) : s2.Inv := by
  induction events generalizing s with
  | nil =>
    simp only [PoolRun.run, Option.some.injEq] at h
    subst h
    exact hinv
  | cons event rest ih =>
    simp only [PoolRun.run] at h
    split at h
    · cases h
    · rename_i next hstep
      exact ih (PoolRun.step_Inv hinv event hstep) h

/-- Changing the state of a loop leaves the Translators of the loops as they are. -/
theorem PoolRun.map_translator_set {loops : List Loop} {w : Nat} {loop : Loop}
    (h : loops[w]? = some loop) (st : LoopState) :
    (loops.set w { loop with state := st }).map (fun l => l.translator) =
      loops.map (fun l => l.translator) := by
  apply List.ext_getElem?
  intro j
  simp only [List.getElem?_map, getElem?_set_of_some h]
  by_cases hj : w = j
  · subst hj
    simp [h]
  · simp [hj]

/-- No step of a run changes which Translator a dispatch loop owns. -/
theorem PoolRun.step_translators {s s2 : PoolRun} (event : PoolEvent)
    (h : s.step event = some s2) :
    s2.loops.map (fun l => l.translator) = s.loops.map (fun l => l.translator) := by
  cases event <;> simp only [PoolRun.step] at h <;> (repeat' split at h) <;>
    first
    | (cases h; rfl)
    | (cases h; exact PoolRun.map_translator_set (by assumption) _)
    | cases h

/-- In every state of a run the dispatch loops own the Translators the pool
was started with, in order. -/
theorem PoolRun.run_translators {s : PoolRun} (events : List PoolEvent) {s2 : PoolRun}
    (h : s.run events = some s2) :
    s2.loops.map (fun l => l.translator) = s.loops.map (fun l => l.translator) := by
  induction events generalizing s with
  | nil =>
    simp only [PoolRun.run, Option.some.injEq] at h
    subst h
    rfl
  | cons event rest ih =>
    simp only [PoolRun.run] at h
    split at h
    · cases h
    · rename_i next hstep
      rw [ih h, PoolRun.step_translators event hstep]

/-- C13. No request handed to `Pool.TranslateMultiple` is silently dropped.
Take any run of a pool started with the Translators `translators`: any
sequence of enabled steps of callers (entering the call, cancellation of a
context, hand-off, either `select` losing to `p.done` or `ctx.Done()`, receipt
of the reply), of dispatch loops (Translator call, send of the reply, exit on
`p.done`) and of `close(p.done)`.  For every call made in the run, in the
state reached, one of two holds.  Either no dispatch loop has received its
request, no Translator was invoked for it and no reply was sent, and the call
is still in its first `select` or has returned no output and an error that
matches `ErrClosed` or wraps the error of its context.  Or exactly one
dispatch loop `w` has received it, that loop owns the Translator number `w`,
and: the loop is at the call of its Translator, which can proceed (nothing
invoked or sent so far); or the loop is at the send of the reply its
Translator gave for the batch, which can proceed (one invocation, nothing sent
so far); or the loop is past both, with exactly one invocation made and
exactly that one reply sent. -/
theorem PoolRun.no_request_dropped (translators : List Translator) (events : List PoolEvent)
    (s : PoolRun) (hrun : (PoolRun.start translators).run events = some s)
    (c : Nat) (call : Call) (hc : s.calls[c]? = some call) :
    (call.receivedBy = [] ∧ call.invocations = 0 ∧ call.sent = [] ∧
      (call.state = .handingOff ∨
        ∃ e : GoError, call.state = .returned [] (some e) ∧
          (errorsIs (some e) .ErrClosed = true ∨
            ∃ x, call.ctx.err = some x ∧
              e = fmtErrorfW "did not found available worker" x))) ∨
    (∃ (w : Nat) (loop : Loop), call.receivedBy = [w] ∧ s.loops[w]? = some loop ∧
      translators[w]? = some loop.translator ∧ call.state ≠ .handingOff ∧
      ((loop.state = .translating c ∧ call.invocations = 0 ∧ call.sent = [] ∧
          (s.step (.translate w)).isSome = true) ∨
        (loop.state = .replying c (loop.replyFor call.requests) ∧ call.invocations = 1 ∧
          call.sent = [] ∧ (s.step (.reply w)).isSome = true) ∨
        (loop.state.serving ≠ some c ∧ call.invocations = 1 ∧
          call.sent = [loop.replyFor call.requests]))) := by
  have hinv : s.Inv := PoolRun.run_Inv (PoolRun.start_Inv translators) events hrun
  have htr : s.loops.map (fun l => l.translator) = translators := by
    rw [PoolRun.run_translators events hrun]
    simp only [PoolRun.start, List.map_map]
    exact List.map_id translators
  rcases hinv.1 c call hc with ⟨h1, h2, h3, _, h5⟩ | ⟨w, loop, hr, hw, hne, halt⟩
  · exact Or.inl ⟨h1, h2, h3, h5⟩
  · refine Or.inr ⟨w, loop, hr, hw, ?_, hne, ?_⟩
    · rw [← htr, List.getElem?_map, hw]
      rfl
    · rcases halt with ⟨hs, hi, hsent, _⟩ | ⟨hs, hi, hsent, hchan⟩ | ⟨hs, hi, hsent, _⟩
      · refine Or.inl ⟨hs, hi, hsent, ?_⟩
        simp [PoolRun.step, hw, hs, hc]
      · refine Or.inr (Or.inl ⟨hs, hi, hsent, ?_⟩)
        simp [PoolRun.step, hw, hs, hc, hchan]
      · exact Or.inr (Or.inr ⟨hs, hi, hsent⟩)

/-- C13 at a concrete run: a pool of one dispatch loop serves one call; at the
end the request has been received by the loop number 0 alone, which invoked
its Translator once and sent its one reply. -/
theorem PoolRun.no_request_dropped_witness :
    (PoolRun.start [echoTranslator]).run servedRun = some servedRunEnd ∧
      servedRunEnd.calls[0]? = some servedCall ∧
      ((servedCall.receivedBy = [] ∧ servedCall.invocations = 0 ∧ servedCall.sent = [] ∧
        (servedCall.state = .handingOff ∨
          ∃ e : GoError, servedCall.state = .returned [] (some e) ∧
            (errorsIs (some e) .ErrClosed = true ∨
              ∃ x, servedCall.ctx.err = some x ∧
                e = fmtErrorfW "did not found available worker" x))) ∨
      (∃ (w : Nat) (loop : Loop), servedCall.receivedBy = [w] ∧
        servedRunEnd.loops[w]? = some loop ∧
        [echoTranslator][w]? = some loop.translator ∧ servedCall.state ≠ .handingOff ∧
        ((loop.state = .translating 0 ∧ servedCall.invocations = 0 ∧ servedCall.sent = [] ∧
            (servedRunEnd.step (.translate w)).isSome = true) ∨
          (loop.state = .replying 0 (loop.replyFor servedCall.requests) ∧
            servedCall.invocations = 1 ∧ servedCall.sent = [] ∧
            (servedRunEnd.step (.reply w)).isSome = true) ∨
          (loop.state.serving ≠ some 0 ∧ servedCall.invocations = 1 ∧
            servedCall.sent = [loop.replyFor servedCall.requests])))) :=
  ⟨rfl, rfl,
    PoolRun.no_request_dropped [echoTranslator] servedRun servedRunEnd rfl 0 servedCall rfl⟩

/-- C21. A dispatch loop never blocks on the send of a reply.  In every state
a run of the pool reaches, by any sequence of enabled steps, a dispatch loop
`w` that stands at the send `req.respChan <- resp` for the request of the call
`c` finds the reply channel of that request empty and nothing sent on it so
far, whatever the state of the call (it may have returned already, through
`<-p.done` or `<-ctx.Done()`): the send step is enabled, it puts `resp` into
the channel of capacity 1 and takes the loop back to its `select`.  And every
request has at any moment at most one reply sent, no more than the number of
loops that received it, and at most one reply in its channel. -/
theorem PoolRun.reply_send_never_blocks (translators : List Translator)
    (events : List PoolEvent) (s : PoolRun)
    (hrun : (PoolRun.start translators).run events = some s) :
    (∀ (w : Nat) (loop : Loop) (c : Nat) (resp : workerResponse),
      s.loops[w]? = some loop → loop.state = .replying c resp →
      ∃ (call : Call) (s2 : PoolRun),
        s.calls[c]? = some call ∧ call.receivedBy = [w] ∧ call.respChan = [] ∧
          call.sent = [] ∧ s.step (.reply w) = some s2 ∧
          s2.loops[w]? = some { loop with state := .waiting } ∧
          s2.calls[c]? = some { call with respChan := [resp], sent := [resp] }) ∧
    (∀ (c : Nat) (call : Call), s.calls[c]? = some call →
      call.sent.length ≤ 1 ∧ call.sent.length ≤ call.receivedBy.length ∧
        call.respChan.length ≤ 1) := by
  have hinv : s.Inv := PoolRun.run_Inv (PoolRun.start_Inv translators) events hrun
  constructor
  · intro w loop c resp hw hst
    have hserv : loop.state.serving = some c := by rw [hst]; rfl
    obtain ⟨call, hc, hrec⟩ := hinv.2 w loop hw c hserv
    rcases hinv.1 c call hc with ⟨h1, _⟩ | ⟨w1, loop1, hr, hw1, _, halt⟩
    · rw [h1] at hrec
      cases hrec
    · rw [hrec] at hr
      simp only [List.cons.injEq, and_true] at hr
      subst hr
      rw [hw] at hw1
      simp only [Option.some.injEq] at hw1
      subst hw1
      rcases halt with ⟨hs, _⟩ | ⟨_, _, hsent, hchan⟩ | ⟨hs, _⟩
      · rw [hst] at hs
        cases hs
      · have hstep : ∃ s2 : PoolRun, s.step (.reply w) = some s2 ∧
            s2.loops = s.loops.set w { loop with state := .waiting } ∧
            s2.calls = s.calls.set c
              { call with respChan := call.respChan ++ [resp], sent := call.sent ++ [resp] } := by
          simp [PoolRun.step, hw, hst, hc, hchan]
        obtain ⟨s2, hs2, hl2, hc2⟩ := hstep
        refine ⟨call, s2, hc, hrec, hchan, hsent, hs2, ?_, ?_⟩
        · rw [hl2, getElem?_set_of_some hw, if_pos rfl]
        · rw [hc2, getElem?_set_of_some hc, if_pos rfl, hchan, hsent]
          rfl
      · exact absurd hserv hs
  · intro c call hc
    rcases hinv.1 c call hc with ⟨_, _, h3, h4, _⟩ | ⟨w, loop, hr, _, _, halt⟩
    · simp [h3, h4]
    · rcases halt with ⟨_, _, hsent, hchan⟩ | ⟨_, _, hsent, hchan⟩ | ⟨_, _, hsent, hchan⟩
      · simp [hsent, hchan]
      · simp [hsent, hchan]
      · rcases hchan with hchan | hchan <;> simp [hsent, hchan, hr]

/-- C21 at a concrete run: the caller has returned with the cancellation
error before the Translator of the loop answers; the loop still sends its
reply and is back in its `select`. -/
theorem PoolRun.reply_send_never_blocks_witness :
    (PoolRun.start [echoTranslator]).run abandonedRun = some abandonedRunEnd ∧
      abandonedRunEnd.loops[0]? = some abandonedLoop ∧
      abandonedLoop.state = .replying 0 { outputs := ["Hello"], err := none } ∧
      ∃ (call : Call) (s2 : PoolRun),
        abandonedRunEnd.calls[0]? = some call ∧ call.receivedBy = [0] ∧ call.respChan = [] ∧
          call.sent = [] ∧ abandonedRunEnd.step (.reply 0) = some s2 ∧
          s2.loops[0]? = some { abandonedLoop with state := .waiting } ∧
          s2.calls[0]? = some
            { call with
              respChan := [{ outputs := ["Hello"], err := none }]
              sent := [{ outputs := ["Hello"], err := none }] } :=
  ⟨rfl, rfl, rfl,
    (PoolRun.reply_send_never_blocks [echoTranslator] abandonedRun abandonedRunEnd rfl).1
      0 abandonedLoop 0 { outputs := ["Hello"], err := none } rfl rfl⟩

/-! ### translator.go: page count of `growModuleMemory` -/

/-- The running sum of `growModuleMemory` stays a `uint32`. -/
theorem growModuleMemory.foldl_lt (bundle : alignedMemoriesBundle) (init : Nat)
    (h : init < 2 ^ 32) :
    bundle.foldl
      (fun size info => if info.isEmpty then size else (size + info.size) % 2 ^ 32) init <
      2 ^ 32 := by
  induction bundle generalizing init with
  | nil => exact h
  | cons info rest ih =>
    simp only [List.foldl_cons]
    apply ih
    split
    · exact h
    · exact Nat.mod_lt _ (by norm_num)

theorem growModuleMemory.sum_lt (bundle : alignedMemoriesBundle) :
    growModuleMemory.sum bundle < 2 ^ 32 :=
  growModuleMemory.foldl_lt bundle 0 (by norm_num)

/-- C22. Whenever `growModuleMemory` computes a shortfall, that is, whenever
the memory size `availableSize` is below the 32-bit sum of the sizes, the
shortfall `r` it computes in `uint32` is the true difference, it is positive
and below `2 ^ 32`; the intermediate product `(r / 65536) * 65536` is below
`2 ^ 32`, so it does not wrap; and the page count `p` passed to `Grow` is the
ceiling of `r / 65536`: `(p - 1) * 65536 < r ≤ p * 65536`, with `p` at least 1
and at most 65536. -/
theorem growModuleMemory_pages_is_ceiling (availableSize : Nat) (bundle : alignedMemoriesBundle)
    (h : availableSize < growModuleMemory.sum bundle) :
    (growModuleMemory.sum bundle + 2 ^ 32 - availableSize) % 2 ^ 32 =
      growModuleMemory.sum bundle - availableSize ∧
    0 < growModuleMemory.sum bundle - availableSize ∧
    growModuleMemory.sum bundle - availableSize < 2 ^ 32 ∧
    (growModuleMemory.sum bundle - availableSize) / wasmMemoryPageSize * wasmMemoryPageSize <
      2 ^ 32 ∧
    ∃ p, growModuleMemory availableSize bundle = some p ∧
      p = (growModuleMemory.sum bundle - availableSize + 65535) / 65536 ∧
      (p - 1) * 65536 < growModuleMemory.sum bundle - availableSize ∧
      growModuleMemory.sum bundle - availableSize ≤ p * 65536 ∧
      1 ≤ p ∧ p ≤ 65536 := by
  have hlt := growModuleMemory.sum_lt bundle
  generalize hS : growModuleMemory.sum bundle = S at h hlt
  have hr : (S + 2 ^ 32 - availableSize) % 2 ^ 32 = S - availableSize := by
    have : S + 2 ^ 32 - availableSize = (S - availableSize) + 2 ^ 32 := by omega
    rw [this, Nat.add_mod_right]
    exact Nat.mod_eq_of_lt (by omega)
  have hdiv : (S - availableSize) / 65536 * 65536 ≤ S - availableSize :=
    Nat.div_mul_le_self _ _
  refine ⟨hr, by omega, by omega, ?_, ?_⟩
  · simp only [wasmMemoryPageSize]
    omega
  · simp only [growModuleMemory, hS, wasmMemoryPageSize, hr]
    rw [if_neg (by omega)]
    have hmod : (S - availableSize) / 65536 * 65536 % 2 ^ 32 =
        (S - availableSize) / 65536 * 65536 := Nat.mod_eq_of_lt (by omega)
    rw [hmod]
    split
    · refine ⟨_, rfl, ?_⟩
      have hq : (S - availableSize) / 65536 + 1 < 2 ^ 32 := by omega
      rw [Nat.mod_eq_of_lt hq]
      omega
    · refine ⟨_, rfl, ?_⟩
      omega

/-- C22 at a concrete input: sizes 100000, 50000 and 1 on a memory of one
page leave a shortfall of 84465 bytes, for which two pages are requested. -/
theorem growModuleMemory_pages_is_ceiling_witness :
    65536 < growModuleMemory.sum (bundleOfSizes 100000 50000 1) ∧
    (growModuleMemory.sum (bundleOfSizes 100000 50000 1) + 2 ^ 32 - 65536) % 2 ^ 32 =
      growModuleMemory.sum (bundleOfSizes 100000 50000 1) - 65536 ∧
    0 < growModuleMemory.sum (bundleOfSizes 100000 50000 1) - 65536 ∧
    growModuleMemory.sum (bundleOfSizes 100000 50000 1) - 65536 < 2 ^ 32 ∧
    (growModuleMemory.sum (bundleOfSizes 100000 50000 1) - 65536) / wasmMemoryPageSize *
      wasmMemoryPageSize < 2 ^ 32 ∧
    ∃ p, growModuleMemory 65536 (bundleOfSizes 100000 50000 1) = some p ∧
      p = (growModuleMemory.sum (bundleOfSizes 100000 50000 1) - 65536 + 65535) / 65536 ∧
      (p - 1) * 65536 < growModuleMemory.sum (bundleOfSizes 100000 50000 1) - 65536 ∧
      growModuleMemory.sum (bundleOfSizes 100000 50000 1) - 65536 ≤ p * 65536 ∧
      1 ≤ p ∧ p ≤ 65536 :=
  ⟨by decide,
    growModuleMemory_pages_is_ceiling 65536 (bundleOfSizes 100000 50000 1) (by decide)⟩

end Gobergamot
